import Mathlib

/-!
# Thrill Digger mine solver: embedding of `minesolver.cpp`

The C++ translation unit keeps the board in file-scope variables
(`G_R`, `G_C`, `G_B`, `G_SAMPLES`, `revealed`).  Here they are the fields of
`Board`, and every exported function takes the board explicitly.

Conventions of the embedding:

* `int` values are integers (`Int`); loop indices, which the code only ever
  counts upwards from `0`, are `Nat`.  The counters `valid` and `hit[i]` are
  `Nat` (they are only incremented).
* 32-bit `int` arithmetic is two's complement: the product `rows*cols` of
  `ms_init` is `wrap32 (rows * cols)`, and the difference
  `G_B - int(fixed_idxs.size())` of the solvers is `sub32`, which wraps
  around below `INT_MIN` (it cannot exceed `INT_MAX`, `G_B` being an `int`
  and the size non-negative).  The other `int` expressions (`idx`, `G_R*G_C`
  in `check_placement` and the solvers, neighbour coordinates, loop bounds)
  are evaluated in `Int` without wrap-around.
* `std::vector<char>` placements are `List Int`: the code tests a cell with
  `!hasBomb[i]` and sums cells with `cnt += hasBomb[j]`, so the numeric value
  of the char is kept.
* every subscript `v[i]` goes through `rd` / `wr`, which fail with
  `Fault.outOfBounds` when `i` is not an index of `v` (undefined behaviour in
  the C++).
* a vector cannot be created with a negative element count: the solvers fail
  with `Fault.badAlloc` when `G_R*G_C < 0`, and `ms_init` fails with
  `Fault.badAlloc` when the 32-bit product is negative; the error of `ms_init`
  carries the state left behind, in which the four scalars are already
  overwritten and `revealed` is still the old array.
* `while(!done)` in `ms_solve_exact` is a fuel-indexed recursion
  (`Fault.outOfFuel` when the fuel is used up before `done`).
* `std::shuffle` is a parameter: `shuffled k` is the content of `unk_idxs`
  right after the shuffle of trial `k`.
* `float` is IEEE-754 binary32 with round-to-nearest, ties-to-even conversion
  and division.  `out_f32 valid hit` is the array of values the final loop
  stores in `out_probs` (each binary32 value given as the rational it
  denotes); the field `Solved.out` holds the same quotients before rounding,
  as exact rationals of the counters.
* the fields `visited` and `evaluated` are instrumentation: they log the index
  vectors `comb` seen by the enumeration loop and the placements handed to
  `check_placement`, in program order.  They influence no other field.
-/

namespace Minesolver

/-- Ways in which a run of the embedded program fails to produce a value. -/
inductive Fault where
  | outOfBounds
  | badAlloc
  | outOfFuel
  deriving DecidableEq, Repr

/-- The file-scope state of `minesolver.cpp`. -/
structure Board where
  G_R : Int
  G_C : Int
  G_B : Int
  G_SAMPLES : Int
  revealed : List Int
  deriving DecidableEq, Repr

/-- State at program start: `G_R=0, G_C=0, G_B=0, G_SAMPLES=10000`, empty `revealed`. -/
def Board.initial : Board :=
  { G_R := 0, G_C := 0, G_B := 0, G_SAMPLES := 10000, revealed := [] }

/-- Read `xs[i]`. -/
def rd {α : Type} (xs : List α) (i : Int) : Except Fault α :=
  if i < 0 then .error .outOfBounds
  else match xs.get? i.toNat with
    | some x => .ok x
    | none => .error .outOfBounds

/-- Write `xs[i] = x`. -/
def wr {α : Type} (xs : List α) (i : Int) (x : α) : Except Fault (List α) :=
  if i < 0 then .error .outOfBounds
  else if i.toNat < xs.length then .ok (xs.set i.toNat x)
  else .error .outOfBounds

/-- Row-major index: `inline int idx(int r,int c){ return r*G_C + c; }`. -/
def idx (b : Board) (r c : Int) : Int := r * b.G_C + c

def DR : List Int := [-1, -1, -1, 0, 0, 1, 1, 1]

def DC : List Int := [-1, 0, 1, -1, 1, -1, 0, 1]

/-- The value of a 32-bit two's complement `int` computation whose exact result is `x`. -/
def wrap32 (x : Int) : Int := (x + 2147483648) % 4294967296 - 2147483648

/-- The 32-bit difference `a - b` of an `int` `a` and a size `b ≥ 0`: it is at most `INT_MAX`,
and below `INT_MIN` it wraps around by `2^32`. -/
def sub32 (a b : Int) : Int :=
  if a - b < -2147483648 then a - b + 4294967296 else a - b

/-- Embedding of `ms_init`.  `G_R=rows; G_C=cols; G_B=bombs; G_SAMPLES=sample_count;` come first;
then `revealed.assign(rows*cols, -1)` takes the 32-bit product as element count and throws when
it is negative, leaving `revealed` as it was. -/
def ms_init (prev : Board) (rows cols bombs sample_count : Int) : Except (Fault × Board) Board :=
  if wrap32 (rows * cols) < 0 then
    .error (.badAlloc, { G_R := rows, G_C := cols, G_B := bombs, G_SAMPLES := sample_count,
                         revealed := prev.revealed })
  else .ok { G_R := rows, G_C := cols, G_B := bombs, G_SAMPLES := sample_count,
             revealed := List.replicate (wrap32 (rows * cols)).toNat (-1) }

def ms_set_sample_count (b : Board) (sample_count : Int) : Board :=
  { b with G_SAMPLES := sample_count }

def ms_set_cell (b : Board) (r c value : Int) : Except Fault Board := do
  let cells ← wr b.revealed (idx b r c) value
  pure { b with revealed := cells }

def ms_cleanup (b : Board) : Board :=
  { b with revealed := [], G_R := 0, G_C := 0, G_B := 0 }

/-- One turn of the loop `for(int k=0;k<8;++k)` of `check_placement`. -/
def neighbourStep (b : Board) (hasBomb : List Int) (r c : Int) (cnt : Int) (k : Nat) :
    Except Fault Int :=
  let nr := r + DR.getD k 0
  let nc := c + DC.getD k 0
  if nr ≥ 0 ∧ nr < b.G_R ∧ nc ≥ 0 ∧ nc < b.G_C then do
    let x ← rd hasBomb (idx b nr nc)
    pure (cnt + x)
  else pure cnt

/-- The value of `cnt` after the neighbour loop for the cell at row `r`, column `c`. -/
def countNeighbours (b : Board) (hasBomb : List Int) (r c : Int) : Except Fault Int :=
  (List.range 8).foldlM (neighbourStep b hasBomb r c) 0

/-- The `switch(v)` of `check_placement` (`ok` starts as `false`). -/
def bucketOk (v cnt : Int) : Bool :=
  if v = 0 then decide (cnt = 0)
  else if v = 1 then decide (cnt ≥ 1 ∧ cnt ≤ 2)
  else if v = 2 then decide (cnt ≥ 3 ∧ cnt ≤ 4)
  else if v = 3 then decide (cnt ≥ 5 ∧ cnt ≤ 6)
  else if v = 4 then decide (cnt ≥ 7 ∧ cnt ≤ 8)
  else false

/-- The loop `for(int i=0;i<N;++i)` of `check_placement`, over the indices still to visit. -/
def checkCells (b : Board) (hasBomb : List Int) : List Nat → Except Fault Bool
  | [] => pure true
  | i :: rest => do
    let v ← rd b.revealed i
    if v = 5 then do
      let h ← rd hasBomb i
      if h = 0 then pure false else checkCells b hasBomb rest
    else if v ≥ 0 ∧ v ≤ 4 then do
      let cnt ← countNeighbours b hasBomb (Int.tdiv i b.G_C) (Int.tmod i b.G_C)
      if bucketOk v cnt then checkCells b hasBomb rest else pure false
    else checkCells b hasBomb rest

def check_placement (b : Board) (hasBomb : List Int) : Except Fault Bool :=
  checkCells b hasBomb (List.range (b.G_R * b.G_C).toNat)

/-- One turn of the loop that fills `fixed_idxs` and `unk_idxs`. -/
def classifyStep (b : Board) (acc : List Nat × List Nat) (i : Nat) :
    Except Fault (List Nat × List Nat) := do
  let v ← rd b.revealed i
  if v = 5 then pure (acc.1 ++ [i], acc.2)
  else if v = -1 then pure (acc.1, acc.2 ++ [i])
  else pure acc

/-- The pair `(fixed_idxs, unk_idxs)` computed at the start of both solvers. -/
def classify (b : Board) : Except Fault (List Nat × List Nat) :=
  (List.range (b.G_R * b.G_C).toNat).foldlM (classifyStep b) ([], [])

/-- The value of `bombs_remain`: `G_B - int(fixed_idxs.size())` in `int`, clamped at `0`. -/
def bombsRemain (b : Board) (fixed_idxs : List Nat) : Nat :=
  (sub32 b.G_B (fixed_idxs.length : Int)).toNat

/-- The placement after `std::fill(placement, 0)` and `for(int i: fixed_idxs) placement[i]=1`. -/
def markFixed (N : Nat) (fixed_idxs : List Nat) : Except Fault (List Int) :=
  fixed_idxs.foldlM (fun (p : List Int) (i : Nat) => wr p (i : Int) (1 : Int))
    (List.replicate N (0 : Int))

/-- The loop `for(int i=0;i<N;++i) if(placement[i]) hit[i]++` (both vectors have size `N`). -/
def bump (hit : List Nat) (placement : List Int) : List Nat :=
  List.zipWith (fun h x => if x ≠ 0 then h + 1 else h) hit placement

/-- The quotients of the final loop of both solvers before rounding to `float`:
`valid>0 ? hit[i]/valid : 0`, as exact rationals. -/
def out_probs (valid : Nat) (hit : List Nat) : List ℚ :=
  hit.map (fun (h : Nat) => if valid > 0 then (h : ℚ) / (valid : ℚ) else 0)

/-- Position of the leading bit of `n` (`0` for `n ≤ 1`); the first argument bounds the number
of halvings. -/
def floorLog2 : Nat → Nat → Nat
  | 0, _ => 0
  | fuel + 1, n => if 2 ≤ n then floorLog2 fuel (n / 2) + 1 else 0

/-- The integer nearest to `n / d`, ties to the even one. -/
def roundHalfEven (n d : Nat) : Nat :=
  if d < 2 * (n % d) ∨ (2 * (n % d) = d ∧ (n / d) % 2 = 1) then n / d + 1 else n / d

/-- The value of `float(h)` for a counter `h`: `h` rounded to 24 significant bits. -/
def f32_of_nat (h : Nat) : Nat :=
  let k := floorLog2 h h - 23
  roundHalfEven h (2 ^ k) * 2 ^ k

/-- With `e` the binary exponent of `a / b` (so `2^e ≤ a/b < 2^(e+1)`), the number
`23 - e + floorLog2 a`: the unit in the last place of the quotient is `2^(e-23)`. -/
def quotShift (a b : Nat) : Nat :=
  23 + floorLog2 b b + (if b * 2 ^ floorLog2 a a ≤ a * 2 ^ floorLog2 b b then 0 else 1)

/-- The 24-bit significand of the binary32 quotient `a / b`: `a / b` in units in the last
place, rounded to nearest, ties to even. -/
def quotSignificand (a b : Nat) : Nat :=
  roundHalfEven (a * 2 ^ (quotShift a b - floorLog2 a a))
    (b * 2 ^ (floorLog2 a a - quotShift a b))

/-- The binary32 quotient `a / b` of two floats with non-negative integer values, `b ≠ 0`. -/
def f32_div (a b : Nat) : ℚ :=
  if a = 0 then 0
  else (quotSignificand a b : ℚ) * 2 ^ (floorLog2 a a - quotShift a b)
        / 2 ^ (quotShift a b - floorLog2 a a)

/-- The final loop of both solvers as stored: `valid>0 ? float(hit[i])/float(valid) : 0.0f`. -/
def out_f32 (valid : Nat) (hit : List Nat) : List ℚ :=
  hit.map (fun (h : Nat) => if valid > 0 then f32_div (f32_of_nat h) (f32_of_nat valid) else 0)

/-- Result of a solver run: the counters, the output array (as exact rationals of the
counters; the stored binary32 values are `out_f32 valid hit`) and the instrumentation logs. -/
structure Solved where
  valid : Nat
  hit : List Nat
  out : List ℚ
  visited : List (List Nat)
  evaluated : List (List Int)
  deriving DecidableEq, Repr

/-- One turn of `for(k=0;k<bombs_remain && k<unk_idxs.size();++k) placement[unk_idxs[k]] = 1`. -/
def markShuffledStep (unk_idxs : List Nat) (p : List Int) (k : Nat) : Except Fault (List Int) := do
  let u ← rd unk_idxs (k : Int)
  wr p (u : Int) (1 : Int)

/-- Loop state of `ms_solve`. -/
structure McState where
  valid : Nat
  hit : List Nat
  evaluated : List (List Int)
  deriving DecidableEq, Repr

/-- Body of the trial loop of `ms_solve`, for trial number `iter`. -/
def mcTrial (b : Board) (fixed_idxs : List Nat) (bombs_remain N : Nat)
    (shuffled : Nat → List Nat) (s : McState) (iter : Nat) : Except Fault McState := do
  let p0 ← markFixed N fixed_idxs
  let unk_idxs := shuffled iter
  let p ← (List.range (min bombs_remain unk_idxs.length)).foldlM (markShuffledStep unk_idxs) p0
  let ok ← check_placement b p
  if ok then
    pure { valid := s.valid + 1, hit := bump s.hit p, evaluated := s.evaluated ++ [p] }
  else
    pure { s with evaluated := s.evaluated ++ [p] }

/-- Embedding of `ms_solve`; `shuffled k` is `unk_idxs` after the shuffle of trial `k`. -/
def ms_solve (b : Board) (shuffled : Nat → List Nat) : Except Fault Solved := do
  if b.G_R * b.G_C < 0 then throw Fault.badAlloc
  let N := (b.G_R * b.G_C).toNat
  let (fixed_idxs, _) ← classify b
  let bombs_remain := bombsRemain b fixed_idxs
  let s ← (List.range b.G_SAMPLES.toNat).foldlM
    (mcTrial b fixed_idxs bombs_remain N shuffled)
    { valid := 0, hit := List.replicate N 0, evaluated := [] }
  pure { valid := s.valid, hit := s.hit, out := out_probs s.valid s.hit,
         visited := [], evaluated := s.evaluated }

/-- One turn of `for(int k=0;k<bombs_remain;++k) placement[ unk_idxs[ comb[k] ] ] = 1`. -/
def markCombStep (unk_idxs comb : List Nat) (p : List Int) (k : Nat) : Except Fault (List Int) := do
  let ck ← rd comb (k : Int)
  let u ← rd unk_idxs (ck : Int)
  wr p (u : Int) (1 : Int)

/-- The scan `int i=bombs_remain-1; while(i>=0 && comb[i]==U-bombs_remain+i) --i;`.
The argument is `i+1`; the result is `none` when the scan ends with `i<0`. -/
def scanBack (comb : List Nat) (U bombs_remain : Nat) : Nat → Except Fault (Option Nat)
  | 0 => pure none
  | i + 1 => do
    let ci ← rd comb (i : Int)
    if (ci : Int) = (U : Int) - (bombs_remain : Int) + (i : Int) then
      scanBack comb U bombs_remain i
    else pure (some i)

/-- One turn of `for(int j=i+1;j<bombs_remain;++j) comb[j]=comb[j-1]+1`. -/
def resetStep (comb : List Nat) (j : Nat) : Except Fault (List Nat) := do
  let prev ← rd comb ((j : Int) - 1)
  wr comb (j : Int) (prev + 1)

/-- The "next combination" block: `none` stands for `done=true`. -/
def nextComb (comb : List Nat) (U bombs_remain : Nat) : Except Fault (Option (List Nat)) := do
  match ← scanBack comb U bombs_remain bombs_remain with
  | none => pure none
  | some i =>
    let ci ← rd comb (i : Int)
    let comb1 ← wr comb (i : Int) (ci + 1)
    let comb2 ← (List.range' (i + 1) (bombs_remain - (i + 1))).foldlM resetStep comb1
    pure (some comb2)

/-- Loop state of `ms_solve_exact`. -/
structure ExactState where
  comb : List Nat
  valid : Nat
  hit : List Nat
  visited : List (List Nat)
  evaluated : List (List Int)
  deriving DecidableEq, Repr

/-- The loop `while(!done)` of `ms_solve_exact`, entered with `done = false`. -/
def exactLoop (b : Board) (fixed_idxs unk_idxs : List Nat) (bombs_remain N : Nat) :
    Nat → ExactState → Except Fault ExactState
  | 0, _ => .error .outOfFuel
  | fuel + 1, s => do
    let p0 ← markFixed N fixed_idxs
    let p ← (List.range bombs_remain).foldlM (markCombStep unk_idxs s.comb) p0
    let ok ← check_placement b p
    let s1 : ExactState :=
      if ok then
        { s with valid := s.valid + 1, hit := bump s.hit p,
                 visited := s.visited ++ [s.comb], evaluated := s.evaluated ++ [p] }
      else
        { s with visited := s.visited ++ [s.comb], evaluated := s.evaluated ++ [p] }
    match ← nextComb s.comb unk_idxs.length bombs_remain with
    | none => pure s1
    | some comb2 => exactLoop b fixed_idxs unk_idxs bombs_remain N fuel { s1 with comb := comb2 }

/-- Embedding of `ms_solve_exact`; `fuel` bounds the number of turns of `while(!done)`. -/
def ms_solve_exact (b : Board) (fuel : Nat) : Except Fault Solved := do
  if b.G_R * b.G_C < 0 then throw Fault.badAlloc
  let N := (b.G_R * b.G_C).toNat
  let (fixed_idxs, unk_idxs) ← classify b
  let bombs_remain := bombsRemain b fixed_idxs
  let s0 : ExactState :=
    { comb := List.range bombs_remain, valid := 0, hit := List.replicate N 0,
      visited := [], evaluated := [] }
  let s ← if bombs_remain = 0 then pure s0
          else exactLoop b fixed_idxs unk_idxs bombs_remain N fuel s0
  pure { valid := s.valid, hit := s.hit, out := out_probs s.valid s.hit,
         visited := s.visited, evaluated := s.evaluated }

/-! ## Auxiliary definitions used by the statements and proofs -/

deriving instance DecidableEq for Except

/-- Value stored at position `i` of a cell vector (`0` outside the vector). -/
def cell {α : Type} [Zero α] (xs : List α) (i : Nat) : α := xs.getD i 0

/-- The invariant `revealed.size() == G_R*G_C` (in particular `G_R*G_C` is not negative). -/
def Board.sized (b : Board) : Prop := (b.revealed.length : Int) = b.G_R * b.G_C

/-- Contribution of neighbour number `k` to `cnt`. -/
def nbTerm (b : Board) (p : List Int) (r c : Int) (k : Nat) : Int :=
  let nr := r + DR.getD k 0
  let nc := c + DC.getD k 0
  if nr ≥ 0 ∧ nr < b.G_R ∧ nc ≥ 0 ∧ nc < b.G_C then cell p (idx b nr nc).toNat else 0

/-- Closed form of `cnt` after the neighbour loop. -/
def nbSum (b : Board) (p : List Int) (r c : Int) : Int :=
  ((List.range 8).map (nbTerm b p r c)).sum

/-- Closed form of the test `check_placement` applies to cell `i`. -/
def cellOk (b : Board) (p : List Int) (i : Nat) : Bool :=
  let v := cell b.revealed i
  if v = 5 then decide (cell p i ≠ 0)
  else if v ≥ 0 ∧ v ≤ 4 then bucketOk v (nbSum b p (Int.tdiv i b.G_C) (Int.tmod i b.G_C))
  else true


/-- Number of bomb cells of `p` among the grid cells adjacent to `(r,c)`, as the specification words it. -/
def neighbourBombs (b : Board) (p : List Int) (r c : Int) : Nat :=
  ((Finset.Ico 0 b.G_R ×ˢ Finset.Ico 0 b.G_C).filter (fun q : Int × Int =>
      q ≠ (r, c) ∧ |q.1 - r| ≤ 1 ∧ |q.2 - c| ≤ 1 ∧ cell p (idx b q.1 q.2).toNat ≠ 0)).card

/-- The bucket table of the hint values `0..4`. -/
def bucketRange (v : Int) (n : Nat) : Prop :=
  (v = 0 → n = 0) ∧ (v = 1 → 1 ≤ n ∧ n ≤ 2) ∧ (v = 2 → 3 ≤ n ∧ n ≤ 4) ∧
  (v = 3 → 5 ≤ n ∧ n ≤ 6) ∧ (v = 4 → 7 ≤ n ∧ n ≤ 8)

/-- A placement is consistent with the board: known bombs are bombs and hints are met. -/
def Consistent (b : Board) (p : List Int) : Prop :=
  ∀ r c : Int, 0 ≤ r → r < b.G_R → 0 ≤ c → c < b.G_C →
    (cell b.revealed (idx b r c).toNat = 5 → cell p (idx b r c).toNat ≠ 0) ∧
    (0 ≤ cell b.revealed (idx b r c).toNat → cell b.revealed (idx b r c).toNat ≤ 4 →
      bucketRange (cell b.revealed (idx b r c).toNat) (neighbourBombs b p r c))

/-- The eight neighbour positions in the order of the tables `DR`, `DC`. -/
def nbList (r c : Int) : List (Int × Int) :=
  (List.range 8).map (fun k => (r + DR.getD k 0, c + DC.getD k 0))

/-- Neighbour position `q` is inside the grid and a bomb of `p`. -/
def nbPred (b : Board) (p : List Int) (q : Int × Int) : Bool :=
  decide (q.1 ≥ 0 ∧ q.1 < b.G_R ∧ q.2 ≥ 0 ∧ q.2 < b.G_C) && decide (cell p (idx b q.1 q.2).toNat ≠ 0)

/-- Closed form of the "next combination" block, by recursion on the index vector: the rightmost
entry that is not at its maximal position is advanced and the entries to its right restart
just above it. -/
def nextRec (U : Nat) : List Nat → Option (List Nat)
  | [] => none
  | c :: cs =>
    match nextRec U cs with
    | some cs2 => some (c :: cs2)
    | none => if c + (cs.length + 1) = U then none else some (List.range' (c + 1) (cs.length + 1))

/-- A strictly increasing index vector with entries below `U`. -/
def ValidComb (U : Nat) (c : List Nat) : Prop :=
  c.Sorted (· < ·) ∧ ∀ x ∈ c, x < U

/-- The index vectors the enumeration loop visits from `c` on, within `fuel` turns. -/
def chain (U : Nat) : Nat → List Nat → List (List Nat)
  | 0, _ => []
  | fuel + 1, c =>
    c :: (match nextRec U c with
          | none => []
          | some c2 => chain U fuel c2)

/-- Whether the enumeration loop started at `c` reaches `done` within `fuel` turns. -/
def finishes (U : Nat) : Nat → List Nat → Bool
  | 0, _ => false
  | fuel + 1, c =>
    match nextRec U c with
    | none => true
    | some c2 => finishes U fuel c2

/-- Indices of the KnownBomb cells, in increasing order (closed form of `fixed_idxs`). -/
def knownBombs (b : Board) : List Nat :=
  (List.range (b.G_R * b.G_C).toNat).filter (fun i => cell b.revealed i = 5)

/-- Indices of the Unknown cells, in increasing order (closed form of `unk_idxs`). -/
def unknowns (b : Board) : List Nat :=
  (List.range (b.G_R * b.G_C).toNat).filter (fun i => cell b.revealed i = -1)

/-- The placement of length `N` whose bomb cells are exactly the members of `S`. -/
def place (N : Nat) (S : Finset Nat) : List Int :=
  (List.range N).map (fun i => if i ∈ S then 1 else 0)

/-- Closed form of the writes `placement[i] = 1` for `i` running through `is`. -/
def mark (p : List Int) (is : List Nat) : List Int :=
  is.foldl (fun q i => q.set i 1) p

/-- Closed form of the result of `check_placement` on a board with a full cell array. -/
def accepts (b : Board) (p : List Int) : Bool :=
  (List.range (b.G_R * b.G_C).toNat).all (cellOk b p)

/-- The placement the enumeration builds from the index vector `c`: bombs on the KnownBomb cells
and on the Unknown cells number `c[0], c[1], ...`. -/
def placeOf (b : Board) (c : List Nat) : List Int :=
  place (b.G_R * b.G_C).toNat ((knownBombs b).toFinset ∪ (c.map (cell (unknowns b))).toFinset)

/-- Effect of one turn of the enumeration loop on the loop state, for index vector `c`. -/
def tally (b : Board) (s : ExactState) (c : List Nat) : ExactState :=
  if accepts b (placeOf b c) then
    { comb := c, valid := s.valid + 1, hit := bump s.hit (placeOf b c),
      visited := s.visited ++ [c], evaluated := s.evaluated ++ [placeOf b c] }
  else
    { comb := c, valid := s.valid, hit := s.hit,
      visited := s.visited ++ [c], evaluated := s.evaluated ++ [placeOf b c] }

/-- Per-cell number of placements of the list `ps` that mark the cell as bomb. -/
def hitsOf (N : Nat) (ps : List (List Int)) : List Nat :=
  (List.range N).map (fun i => ps.countP (fun p => decide (cell p i ≠ 0)))

/-- The index vectors visited by the enumeration loop of `ms_solve_exact` on board `b`. -/
def combos (b : Board) : List (List Nat) :=
  chain (unknowns b).length
    (Nat.choose (unknowns b).length (bombsRemain b (knownBombs b)))
    (List.range (bombsRemain b (knownBombs b)))

/-- The counters of a loop state agree with its log of evaluated placements. -/
def TallyInv (b : Board) (s : ExactState) : Prop :=
  s.valid = (s.evaluated.filter (accepts b)).length ∧
  s.hit = hitsOf (b.G_R * b.G_C).toNat (s.evaluated.filter (accepts b))

/-- The set of Unknown cells selected by the index vector `c`. -/
def sel (b : Board) (c : List Nat) : Finset Nat :=
  (c.map (cell (unknowns b))).toFinset

/-- The candidate placements of the specification: bombs on the KnownBomb cells and on a subset of the
Unknown cells of size `remaining`. -/
def candidatePlacements (b : Board) : Finset (List Int) :=
  (Finset.powersetCard (bombsRemain b (knownBombs b)) (unknowns b).toFinset).image
    (fun S => place (b.G_R * b.G_C).toNat ((knownBombs b).toFinset ∪ S))

/-- The set `A` of candidate placements that `check_placement` accepts. -/
def acceptedSet (b : Board) : Finset (List Int) :=
  (candidatePlacements b).filter (fun p => check_placement b p = .ok true)

/-- The placement a Monte Carlo trial builds when the shuffle leaves `unk_idxs = l`. -/
def mcPlace (b : Board) (l : List Nat) : List Int :=
  place (b.G_R * b.G_C).toNat
    ((knownBombs b).toFinset ∪ (l.take (bombsRemain b (knownBombs b))).toFinset)

/-- The placements built by the trials of `ms_solve`, in order. -/
def mcPlacements (b : Board) (shuffled : Nat → List Nat) : List (List Int) :=
  (List.range b.G_SAMPLES.toNat).map (fun k => mcPlace b (shuffled k))

/-- Effect of one trial on the loop state of `ms_solve`, for the placement `p`. -/
def mcTally (b : Board) (s : McState) (p : List Int) : McState :=
  if accepts b p then
    { valid := s.valid + 1, hit := bump s.hit p, evaluated := s.evaluated ++ [p] }
  else
    { valid := s.valid, hit := s.hit, evaluated := s.evaluated ++ [p] }

/-- The counters of a Monte Carlo loop state agree with its log of evaluated placements. -/
def McInv (b : Board) (s : McState) : Prop :=
  s.valid = (s.evaluated.filter (accepts b)).length ∧
  s.hit = hitsOf (b.G_R * b.G_C).toNat (s.evaluated.filter (accepts b))

/-- Number of bomb cells of a placement. -/
def bombCount (p : List Int) : Nat := p.countP (fun x => decide (x ≠ 0))

/-- Every stored cell status is Unknown (`-1`), a hint bucket (`0..4`) or KnownBomb (`5`). -/
def Board.statusesValid (b : Board) : Prop := ∀ x ∈ b.revealed, -1 ≤ x ∧ x ≤ 5

/-- The placements the exact solver passes to `check_placement`, in order: none when
`remaining = 0` (the loop is not entered), else one per visited index vector. -/
def exactPlacements (b : Board) : List (List Int) :=
  if bombsRemain b (knownBombs b) = 0 then [] else (combos b).map (placeOf b)

/-- A placement with bombs on the KnownBomb cells and on a set of Unknown cells. -/
def Candidate (b : Board) (p : List Int) : Prop :=
  ∃ T : Finset Nat, T ⊆ (unknowns b).toFinset ∧
    p = place (b.G_R * b.G_C).toNat ((knownBombs b).toFinset ∪ T)

/-- A 2x2 example board: `bombs=2`, three trials, cell 0 KnownBomb, cell 2 a hint of bucket 1,
cells 1 and 3 Unknown. -/
def exampleBoard : Board :=
  { G_R := 2, G_C := 2, G_B := 2, G_SAMPLES := 3, revealed := [5, -1, 1, -1] }

/-- An example shuffle outcome for `exampleBoard`: every trial leaves `unk_idxs = [3, 1]`. -/
def exampleShuffle : Nat → List Nat := fun _ => [3, 1]

/-- Shuffle outcomes for `exampleBoard` that differ between trials: `[1, 3]` in trial 0 and
`[3, 1]` afterwards. -/
def mixedShuffle : Nat → List Nat := fun k => if k = 0 then [1, 3] else [3, 1]

/-! ## Basic facts about `rd`, `wr` and `check_placement` -/

@[simp] theorem ok_bind {α β : Type} (a : α) (f : α → Except Fault β) :
    (Except.ok a >>= f) = f a := rfl

@[simp] theorem error_bind {α β : Type} (e : Fault) (f : α → Except Fault β) :
    ((Except.error e : Except Fault α) >>= f) = Except.error e := rfl

@[simp] theorem pure_eq_ok {α : Type} (a : α) : (pure a : Except Fault α) = Except.ok a := rfl

theorem wrap32_of_fits (x : Int) (h0 : -2147483648 ≤ x) (h1 : x ≤ 2147483647) :
    wrap32 x = x := by
  unfold wrap32; omega

/-- On an `int` `a` and a size `b` below `2^31`, `sub32` is the two's complement difference. -/
theorem sub32_eq_wrap32 (a b : Int) (ha0 : -2147483648 ≤ a) (ha1 : a ≤ 2147483647)
    (hb0 : 0 ≤ b) (hb1 : b ≤ 2147483647) : sub32 a b = wrap32 (a - b) := by
  unfold sub32 wrap32; split <;> omega

theorem sub32_of_ge (a b : Int) (h : -2147483648 ≤ a - b) : sub32 a b = a - b := by
  unfold sub32; rw [if_neg (by omega)]

/-- Where `G_B - |fixed_idxs|` does not fall below `INT_MIN`, `bombs_remain` is
`max 0 (G_B - |fixed_idxs|)`. -/
theorem bombsRemain_of_ge (b : Board) (fixed_idxs : List Nat)
    (h : -2147483648 ≤ b.G_B - (fixed_idxs.length : Int)) :
    bombsRemain b fixed_idxs = (b.G_B - (fixed_idxs.length : Int)).toNat := by
  unfold bombsRemain; rw [sub32_of_ge _ _ h]

/-- Where `G_B - |fixed_idxs|` falls below `INT_MIN`, `bombs_remain` is the wrapped value
`G_B - |fixed_idxs| + 2^32`. -/
theorem bombsRemain_of_lt (b : Board) (fixed_idxs : List Nat)
    (h : b.G_B - (fixed_idxs.length : Int) < -2147483648) :
    bombsRemain b fixed_idxs = (b.G_B - (fixed_idxs.length : Int) + 4294967296).toNat := by
  unfold bombsRemain sub32; rw [if_pos h]

theorem sized_length (b : Board) (hb : b.sized) :
    b.revealed.length = (b.G_R * b.G_C).toNat := by
  unfold Board.sized at hb; omega

theorem sized_nonneg (b : Board) (hb : b.sized) : ¬ b.G_R * b.G_C < 0 := by
  unfold Board.sized at hb; omega

theorem rd_int {α : Type} [Zero α] (xs : List α) (i : Int) (h0 : 0 ≤ i)
    (h : i.toNat < xs.length) : rd xs i = .ok (cell xs i.toNat) := by
  have : ¬ i < 0 := by omega
  simp [rd, cell, this, List.getElem?_eq_getElem h, List.getD_eq_getElem _ _ h]

theorem rd_nat {α : Type} [Zero α] (xs : List α) (i : Nat) (h : i < xs.length) :
    rd xs (i : Int) = .ok (cell xs i) := by
  have := rd_int xs (i : Int) (by omega) (by simpa using h)
  simpa using this

theorem wr_nat {α : Type} (xs : List α) (i : Nat) (x : α) (h : i < xs.length) :
    wr xs (i : Int) x = .ok (xs.set i x) := by
  simp [wr, h]

theorem idx_bounds (b : Board) (r c : Int) (hr0 : 0 ≤ r) (hr : r < b.G_R) (hc0 : 0 ≤ c)
    (hc : c < b.G_C) : 0 ≤ idx b r c ∧ (idx b r c).toNat < (b.G_R * b.G_C).toNat := by
  unfold idx
  have h1 : 0 ≤ r * b.G_C := Int.mul_nonneg hr0 (by omega)
  have h2 : (r + 1) * b.G_C ≤ b.G_R * b.G_C := by
    apply Int.mul_le_mul_of_nonneg_right <;> omega
  constructor
  · omega
  · have : r * b.G_C + c < b.G_R * b.G_C := by nlinarith
    omega

theorem neighbourStep_ok (b : Board) (p : List Int) (r c cnt : Int) (k : Nat)
    (hp : p.length = (b.G_R * b.G_C).toNat) :
    neighbourStep b p r c cnt k = .ok (cnt + nbTerm b p r c k) := by
  unfold neighbourStep nbTerm
  by_cases h : r + DR.getD k 0 ≥ 0 ∧ r + DR.getD k 0 < b.G_R ∧ c + DC.getD k 0 ≥ 0 ∧
      c + DC.getD k 0 < b.G_C
  · obtain ⟨h0, h1⟩ := idx_bounds b _ _ h.1 h.2.1 h.2.2.1 h.2.2.2
    simp only [h, and_self, if_true]
    rw [rd_int p _ h0 (by omega)]
    rfl
  · simp only [h, if_false]
    simp

theorem foldlM_neighbourStep (b : Board) (p : List Int) (r c : Int)
    (hp : p.length = (b.G_R * b.G_C).toNat) (ks : List Nat) (cnt : Int) :
    ks.foldlM (neighbourStep b p r c) cnt = .ok (cnt + (ks.map (nbTerm b p r c)).sum) := by
  induction ks generalizing cnt with
  | nil => simp
  | cons k ks ih =>
    simp only [List.foldlM_cons, neighbourStep_ok b p r c cnt k hp, ok_bind, ih, List.map_cons,
      List.sum_cons, add_assoc]

theorem countNeighbours_ok (b : Board) (p : List Int) (r c : Int)
    (hp : p.length = (b.G_R * b.G_C).toNat) :
    countNeighbours b p r c = .ok (nbSum b p r c) := by
  unfold countNeighbours nbSum
  rw [foldlM_neighbourStep b p r c hp]; simp

theorem checkCells_ok (b : Board) (p : List Int) (hb : b.sized)
    (hp : p.length = (b.G_R * b.G_C).toNat) (l : List Nat)
    (hl : ∀ i ∈ l, i < (b.G_R * b.G_C).toNat) :
    checkCells b p l = .ok (l.all (cellOk b p)) := by
  induction l with
  | nil => rfl
  | cons i l ih =>
    have hi : i < (b.G_R * b.G_C).toNat := hl i (List.mem_cons_self _ _)
    have ih2 := ih (fun j hj => hl j (List.mem_cons_of_mem _ hj))
    unfold checkCells
    rw [rd_nat b.revealed i (by rw [sized_length b hb]; exact hi)]
    simp only [ok_bind, List.all_cons, cellOk]
    by_cases h5 : cell b.revealed i = 5
    · simp only [h5, if_true]
      rw [rd_nat p i (by rw [hp]; exact hi)]
      simp only [ok_bind]
      generalize cell p i = x
      by_cases h0 : x = 0
      · simp [h0]
      · simp [h0, ih2]
    · simp only [h5, if_false]
      by_cases hv : cell b.revealed i ≥ 0 ∧ cell b.revealed i ≤ 4
      · simp only [hv, and_self, if_true, countNeighbours_ok b p _ _ hp, ok_bind]
        cases hbk : bucketOk (cell b.revealed i) (nbSum b p (Int.tdiv i b.G_C) (Int.tmod i b.G_C))
        · simp
        · simp [ih2]
      · simp only [hv, if_false]
        simp [ih2]

theorem check_placement_ok (b : Board) (p : List Int) (hb : b.sized)
    (hp : p.length = (b.G_R * b.G_C).toNat) :
    check_placement b p = .ok ((List.range (b.G_R * b.G_C).toNat).all (cellOk b p)) :=
  checkCells_ok b p hb hp _ (fun _ hi => List.mem_range.mp hi)

/-! ## The placement validator -/

theorem cell_bit (p : List Int) (hp : ∀ x ∈ p, x = 0 ∨ x = 1) (j : Nat) :
    cell p j = 0 ∨ cell p j = 1 := by
  unfold cell
  by_cases h : j < p.length
  · rw [List.getD_eq_getElem _ _ h]; exact hp _ (List.getElem_mem _)
  · left; exact List.getD_eq_default _ _ (by omega)

theorem nbTerm_aux (b : Board) (p : List Int) (hp : ∀ x ∈ p, x = 0 ∨ x = 1) (nr nc : Int) :
    (if nr ≥ 0 ∧ nr < b.G_R ∧ nc ≥ 0 ∧ nc < b.G_C then cell p (idx b nr nc).toNat else 0) =
      if nbPred b p (nr, nc) then 1 else 0 := by
  unfold nbPred
  simp only [ge_iff_le, Bool.and_eq_true, decide_eq_true_eq]
  have hbit := cell_bit p hp (idx b nr nc).toNat
  by_cases h : 0 ≤ nr ∧ nr < b.G_R ∧ 0 ≤ nc ∧ nc < b.G_C
  · rw [if_pos h]
    rcases hbit with h0 | h1
    · rw [h0, if_neg (fun hh => hh.2 rfl)]
    · rw [h1, if_pos ⟨h, by decide⟩]
  · rw [if_neg h, if_neg (fun hh => h hh.1)]

theorem nbTerm_eq (b : Board) (p : List Int) (hp : ∀ x ∈ p, x = 0 ∨ x = 1) (r c : Int) (k : Nat) :
    nbTerm b p r c k = if nbPred b p (r + DR.getD k 0, c + DC.getD k 0) then 1 else 0 :=
  nbTerm_aux b p hp _ _

theorem sum_map_nbTerm (b : Board) (p : List Int) (hp : ∀ x ∈ p, x = 0 ∨ x = 1) (r c : Int)
    (ks : List Nat) :
    ((ks.map (nbTerm b p r c)).sum : Int) =
      (((ks.map (fun k => (r + DR.getD k 0, c + DC.getD k 0))).filter (nbPred b p)).length : Int) := by
  induction ks with
  | nil => simp
  | cons k ks ih =>
    simp only [List.map_cons, List.sum_cons, ih, nbTerm_eq b p hp, List.filter_cons]
    generalize (r + DR.getD k 0, c + DC.getD k 0) = q
    by_cases h : nbPred b p q
    · simp [h]; ring
    · simp [h]

theorem nbList_nodup (r c : Int) : (nbList r c).Nodup := by
  simp [nbList, List.range, List.range.loop, DR, DC]

theorem mem_nbList (r c : Int) (q : Int × Int) :
    q ∈ nbList r c ↔ q ≠ (r, c) ∧ |q.1 - r| ≤ 1 ∧ |q.2 - c| ≤ 1 := by
  obtain ⟨x, y⟩ := q
  simp only [nbList, List.range, List.range.loop, DR, DC, List.map_cons, List.map_nil,
    List.mem_cons, Prod.mk.injEq, abs_le, ne_eq, List.getD_cons_zero, List.getD_cons_succ,
    List.mem_singleton, List.not_mem_nil, or_false]
  constructor
  · intro h; omega
  · intro h; omega

theorem neighbourBombs_eq (b : Board) (p : List Int) (r c : Int) :
    neighbourBombs b p r c = ((nbList r c).filter (nbPred b p)).length := by
  unfold neighbourBombs
  rw [← List.toFinset_card_of_nodup ((nbList_nodup r c).filter _)]
  congr 1
  ext q
  simp only [Finset.mem_filter, Finset.mem_product, Finset.mem_Ico, List.mem_toFinset,
    List.mem_filter, mem_nbList, nbPred, decide_eq_true_eq, Bool.and_eq_true]
  tauto

theorem nbSum_eq (b : Board) (p : List Int) (hp : ∀ x ∈ p, x = 0 ∨ x = 1) (r c : Int) :
    nbSum b p r c = (neighbourBombs b p r c : Int) := by
  rw [neighbourBombs_eq]
  exact sum_map_nbTerm b p hp r c (List.range 8)

theorem bucketOk_iff (v : Int) (n : Nat) (h0 : 0 ≤ v) (h4 : v ≤ 4) :
    bucketOk v (n : Int) = true ↔ bucketRange v n := by
  unfold bucketOk bucketRange
  have hv : v = 0 ∨ v = 1 ∨ v = 2 ∨ v = 3 ∨ v = 4 := by omega
  rcases hv with h | h | h | h | h <;> subst h <;> simp

/-- Row and column of the cell with row-major index `i`, as computed by `check_placement`. -/
theorem rowcol_of_index (b : Board) (hC : 1 ≤ b.G_C) (i : Nat) (hi : i < (b.G_R * b.G_C).toNat) :
    0 ≤ Int.tdiv i b.G_C ∧ Int.tdiv i b.G_C < b.G_R ∧ 0 ≤ Int.tmod i b.G_C ∧
      Int.tmod i b.G_C < b.G_C ∧ idx b (Int.tdiv i b.G_C) (Int.tmod i b.G_C) = i := by
  have hi0 : (0 : Int) ≤ i := by omega
  have hC0 : (0 : Int) ≤ b.G_C := by omega
  rw [Int.tdiv_eq_ediv hi0 hC0, Int.tmod_eq_emod hi0 hC0]
  have hi2 : (i : Int) < b.G_R * b.G_C := by omega
  refine ⟨Int.ediv_nonneg hi0 hC0, Int.ediv_lt_of_lt_mul (by omega) hi2,
    Int.emod_nonneg _ (by omega), Int.emod_lt_of_pos _ (by omega), ?_⟩
  unfold idx
  have := Int.ediv_add_emod (i : Int) b.G_C
  rw [mul_comm]; exact this

theorem cellOk_iff (b : Board) (p : List Int) (hC : 1 ≤ b.G_C) (hp : ∀ x ∈ p, x = 0 ∨ x = 1)
    (r c : Int) (hc0 : 0 ≤ c) (hc : c < b.G_C) (i : Nat) (hi : idx b r c = i) :
    cellOk b p i = true ↔
      ((cell b.revealed i = 5 → cell p i ≠ 0) ∧
       (0 ≤ cell b.revealed i → cell b.revealed i ≤ 4 →
          bucketRange (cell b.revealed i) (neighbourBombs b p r c))) := by
  have hi0 : (0 : Int) ≤ i := by omega
  have hC0 : (0 : Int) ≤ b.G_C := by omega
  have hrc : Int.tdiv i b.G_C = r ∧ Int.tmod i b.G_C = c := by
    rw [Int.tdiv_eq_ediv hi0 hC0, Int.tmod_eq_emod hi0 hC0, ← hi]
    unfold idx
    constructor
    · rw [add_comm, Int.add_mul_ediv_right _ _ (by omega), Int.ediv_eq_zero_of_lt hc0 hc]; simp
    · rw [add_comm, Int.add_mul_emod_self, Int.emod_eq_of_lt hc0 hc]
  unfold cellOk
  simp only [hrc.1, hrc.2]
  by_cases h5 : cell b.revealed i = 5
  · simp [h5]
  · by_cases hv : cell b.revealed i ≥ 0 ∧ cell b.revealed i ≤ 4
    · simp only [h5, if_false, hv, and_self, if_true, nbSum_eq b p hp,
        bucketOk_iff _ _ hv.1 hv.2]
      tauto
    · simp only [h5, if_false, hv]
      have hv2 : ¬ (0 ≤ cell b.revealed i ∧ cell b.revealed i ≤ 4) := hv
      tauto

theorem all_cellOk_iff (b : Board) (p : List Int) (hC : 1 ≤ b.G_C)
    (hp : ∀ x ∈ p, x = 0 ∨ x = 1) :
    (List.range (b.G_R * b.G_C).toNat).all (cellOk b p) = true ↔ Consistent b p := by
  rw [List.all_eq_true]
  constructor
  · intro h r c hr0 hr hc0 hc
    obtain ⟨h0, h1⟩ := idx_bounds b r c hr0 hr hc0 hc
    have hi : idx b r c = ((idx b r c).toNat : Int) := (Int.toNat_of_nonneg h0).symm
    exact (cellOk_iff b p hC hp r c hc0 hc _ hi).mp (h _ (List.mem_range.mpr h1))
  · intro h i hi
    have hi2 := List.mem_range.mp hi
    obtain ⟨a1, a2, a3, a4, a5⟩ := rowcol_of_index b hC i hi2
    have := h _ _ a1 a2 a3 a4
    rw [a5] at this
    exact (cellOk_iff b p hC hp _ _ a3 a4 i a5).mpr (by simpa using this)

/-- C1: on a board with at least one column whose cell array has `rows*cols` entries (with
`rows ≤ 0` the board has no cell), and for every placement `p` of that length (a boolean
assignment, stored as chars `0`/`1`), `check_placement` returns a value, and it returns `true`
exactly when every KnownBomb cell is a bomb of `p` and every hinted cell's number of bomb cells
among its in-grid neighbours (each counted once, no wrap-around) lies in the bucket's range. -/
theorem check_placement_iff_consistent (b : Board) (p : List Int)
    (hC : 1 ≤ b.G_C) (hb : b.sized)
    (hlen : p.length = (b.G_R * b.G_C).toNat) (hp : ∀ x ∈ p, x = 0 ∨ x = 1) :
    (∃ v, check_placement b p = .ok v) ∧ (check_placement b p = .ok true ↔ Consistent b p) := by
  rw [check_placement_ok b p hb hlen]
  refine ⟨⟨_, rfl⟩, ?_⟩
  rw [← all_cellOk_iff b p hC hp]
  constructor
  · intro h; injection h
  · intro h; rw [h]

/-! ## Known bombs, the sample-count frame -/

/-- C7: on a board whose cell array has `rows*cols` entries, a placement (of that length) that
has no bomb at some KnownBomb cell is rejected: `check_placement` returns `false`, whatever the
other statuses and the rest of the placement are. -/
theorem check_placement_rejects_missing_known_bomb (b : Board) (p : List Int) (hb : b.sized)
    (hlen : p.length = (b.G_R * b.G_C).toNat) (i : Nat) (hi : i < (b.G_R * b.G_C).toNat)
    (h5 : cell b.revealed i = 5) (h0 : cell p i = 0) :
    check_placement b p = .ok false := by
  rw [check_placement_ok b p hb hlen]
  congr 1
  rw [List.all_eq_false]
  exact ⟨i, List.mem_range.mpr hi, by simp [cellOk, h5, h0]⟩

theorem check_placement_rejects_missing_known_bomb_witness :
    check_placement ⟨2, 2, 2, 10, [5, 0, -1, 4]⟩ [0, 1, 1, 1] = .ok false :=
  check_placement_rejects_missing_known_bomb ⟨2, 2, 2, 10, [5, 0, -1, 4]⟩ [0, 1, 1, 1]
    rfl rfl 0 (by decide) rfl rfl

theorem check_placement_iff_consistent_witness :
    (∃ v, check_placement ⟨2, 2, 1, 10, [1, -1, -1, 5]⟩ [0, 0, 0, 1] = .ok v) ∧
    (check_placement ⟨2, 2, 1, 10, [1, -1, -1, 5]⟩ [0, 0, 0, 1] = .ok true ↔
      Consistent ⟨2, 2, 1, 10, [1, -1, -1, 5]⟩ [0, 0, 0, 1]) :=
  check_placement_iff_consistent ⟨2, 2, 1, 10, [1, -1, -1, 5]⟩ [0, 0, 0, 1]
    (by decide) rfl rfl (by decide)

/-! ### Frame of `ms_set_sample_count` -/

theorem checkCells_sample (b : Board) (n : Int) (p : List Int) (l : List Nat) :
    checkCells (ms_set_sample_count b n) p l = checkCells b p l := by
  induction l with
  | nil => rfl
  | cons i l ih =>
    unfold checkCells
    rw [ih]
    rfl

theorem check_placement_sample (b : Board) (n : Int) (p : List Int) :
    check_placement (ms_set_sample_count b n) p = check_placement b p :=
  checkCells_sample b n p _

theorem exactLoop_sample (b : Board) (n : Int) (fx un : List Nat) (r N fuel : Nat)
    (s : ExactState) :
    exactLoop (ms_set_sample_count b n) fx un r N fuel s = exactLoop b fx un r N fuel s := by
  induction fuel generalizing s with
  | zero => rfl
  | succ fuel ih =>
    unfold exactLoop
    simp only [check_placement_sample, ih]

/-- C9: `ms_set_sample_count n` leaves `rows`, `cols`, `totalBombs` and every cell status as
they were and sets the trial budget to `n`; and `ms_solve_exact` gives the same result (same
counters, same output array, same fault if any) after the call as before it. -/
theorem ms_set_sample_count_frame (b : Board) (n : Int) (fuel : Nat) :
    (ms_set_sample_count b n).G_R = b.G_R ∧ (ms_set_sample_count b n).G_C = b.G_C ∧
    (ms_set_sample_count b n).G_B = b.G_B ∧ (ms_set_sample_count b n).revealed = b.revealed ∧
    (ms_set_sample_count b n).G_SAMPLES = n ∧
    ms_solve_exact (ms_set_sample_count b n) fuel = ms_solve_exact b fuel := by
  refine ⟨rfl, rfl, rfl, rfl, rfl, ?_⟩
  unfold ms_solve_exact
  simp only [exactLoop_sample]
  rfl

/-! ## Cell overwrite and the empty combination -/

theorem wr_int {α : Type} (xs : List α) (i : Int) (x : α) (h0 : 0 ≤ i)
    (h : i.toNat < xs.length) : wr xs i x = .ok (xs.set i.toNat x) := by
  have : ¬ i < 0 := by omega
  simp [wr, this, h]

theorem cell_set_self {α : Type} [Zero α] (xs : List α) (k : Nat) (x : α) (h : k < xs.length) :
    cell (xs.set k x) k = x := by
  simp [cell, List.getD_eq_getElem?_getD, List.getElem?_set, h]

theorem cell_set_ne {α : Type} [Zero α] (xs : List α) (k j : Nat) (x : α) (h : k ≠ j) :
    cell (xs.set k x) j = cell xs j := by
  simp [cell, List.getD_eq_getElem?_getD, List.getElem?_set, h]

theorem idx_inj (b : Board) (r c r' c' : Int) (hc0 : 0 ≤ c) (hc : c < b.G_C)
    (hc0' : 0 ≤ c') (hc' : c' < b.G_C) (h : idx b r c = idx b r' c') : r = r' ∧ c = c' := by
  unfold idx at h
  have hr : r = r' := by
    by_contra hne
    rcases lt_or_gt_of_ne hne with hlt | hgt
    · have : (r + 1) * b.G_C ≤ r' * b.G_C := Int.mul_le_mul_of_nonneg_right (by omega) (by omega)
      nlinarith
    · have : (r' + 1) * b.G_C ≤ r * b.G_C := Int.mul_le_mul_of_nonneg_right (by omega) (by omega)
      nlinarith
  subst hr
  exact ⟨rfl, by omega⟩

/-- C10: on a board whose cell array has `rows*cols` entries and for in-bounds `(r,c)`, both
`ms_set_cell(r,c,v2)` alone and `ms_set_cell(r,c,v1)` followed by `ms_set_cell(r,c,v2)` succeed
and give the same board; in it cell `(r,c)` reads `v2`, every other in-bounds cell reads what it
read before, and `rows`, `cols`, `totalBombs`, `sampleCount` and the array length are unchanged. -/
theorem ms_set_cell_overwrite (b : Board) (r c v1 v2 : Int) (hb : b.sized)
    (hr0 : 0 ≤ r) (hr : r < b.G_R) (hc0 : 0 ≤ c) (hc : c < b.G_C) :
    ∃ b2, ms_set_cell b r c v2 = .ok b2 ∧
      (ms_set_cell b r c v1 >>= fun b1 => ms_set_cell b1 r c v2) = .ok b2 ∧
      rd b2.revealed (idx b2 r c) = .ok v2 ∧
      (∀ r' c' : Int, 0 ≤ r' → r' < b.G_R → 0 ≤ c' → c' < b.G_C → (r', c') ≠ (r, c) →
        rd b2.revealed (idx b2 r' c') = rd b.revealed (idx b r' c')) ∧
      b2.revealed.length = b.revealed.length ∧ b2.G_R = b.G_R ∧ b2.G_C = b.G_C ∧
      b2.G_B = b.G_B ∧ b2.G_SAMPLES = b.G_SAMPLES := by
  obtain ⟨h0, h1⟩ := idx_bounds b r c hr0 hr hc0 hc
  rw [← sized_length b hb] at h1
  refine ⟨{ b with revealed := b.revealed.set (idx b r c).toNat v2 }, ?_, ?_, ?_, ?_, ?_,
    rfl, rfl, rfl, rfl⟩
  · simp [ms_set_cell, wr_int _ _ _ h0 h1]
  · have h2 : (idx b r c).toNat < (b.revealed.set (idx b r c).toNat v1).length := by
      simpa using h1
    simp only [ms_set_cell, wr_int _ _ _ h0 h1, ok_bind, pure_eq_ok]
    change wr (b.revealed.set (idx b r c).toNat v1) (idx b r c) v2 >>= _ = _
    rw [wr_int _ _ _ h0 h2]
    simp [List.set_set]
  · change rd (b.revealed.set (idx b r c).toNat v2) (idx b r c) = _
    rw [rd_int _ _ h0 (by simpa using h1), cell_set_self _ _ _ h1]
  · intro r' c' hr0' hr' hc0' hc' hne
    obtain ⟨h0', h1'⟩ := idx_bounds b r' c' hr0' hr' hc0' hc'
    rw [← sized_length b hb] at h1'
    change rd (b.revealed.set (idx b r c).toNat v2) (idx b r' c') = _
    rw [rd_int _ _ h0' (by simpa using h1'), rd_int _ _ h0' h1', cell_set_ne]
    intro heq
    have : idx b r' c' = idx b r c := by omega
    obtain ⟨e1, e2⟩ := idx_inj b r' c' r c hc0' hc' hc0 hc this
    exact hne (by rw [e1, e2])
  · simp

theorem ms_set_cell_overwrite_witness :
    ∃ b2, ms_set_cell ⟨2, 3, 2, 10, [-1, -1, -1, -1, -1, -1]⟩ 1 2 3 = .ok b2 ∧
      (ms_set_cell ⟨2, 3, 2, 10, [-1, -1, -1, -1, -1, -1]⟩ 1 2 5 >>= fun b1 =>
        ms_set_cell b1 1 2 3) = .ok b2 ∧
      rd b2.revealed (idx b2 1 2) = .ok 3 ∧
      (∀ r' c' : Int, 0 ≤ r' → r' < 2 → 0 ≤ c' → c' < 3 → (r', c') ≠ (1, 2) →
        rd b2.revealed (idx b2 r' c') =
          rd [-1, -1, -1, -1, -1, -1] (idx ⟨2, 3, 2, 10, [-1, -1, -1, -1, -1, -1]⟩ r' c')) ∧
      b2.revealed.length = 6 ∧ b2.G_R = 2 ∧ b2.G_C = 3 ∧ b2.G_B = 2 ∧ b2.G_SAMPLES = 10 :=
  ms_set_cell_overwrite ⟨2, 3, 2, 10, [-1, -1, -1, -1, -1, -1]⟩ 1 2 5 3 rfl
    (by decide) (by decide) (by decide) (by decide)

/-- C3 (evaluation at the failing input): on the 1x2 board with `bombs=1`, cell `(0,0)`
KnownBomb and cell `(0,1)` Unknown, `remaining` is `0`; `ms_solve_exact` passes no placement to
`check_placement` and ends with `accepted = 0` and an all-zero output, although the placement
with bombs exactly on the KnownBomb cells validates and `ms_solve` accepts it in every trial. -/
theorem ms_solve_exact_skips_empty_combination :
    (∀ fuel, ms_solve_exact ⟨1, 2, 1, 3, [5, -1]⟩ fuel =
      .ok { valid := 0, hit := [0, 0], out := [0, 0], visited := [], evaluated := [] }) ∧
    check_placement ⟨1, 2, 1, 3, [5, -1]⟩ [1, 0] = .ok true ∧
    ms_solve ⟨1, 2, 1, 3, [5, -1]⟩ (fun _ => [1]) =
      .ok { valid := 3, hit := [3, 0], out := [1, 0], visited := [],
            evaluated := [[1, 0], [1, 0], [1, 0]] } := by
  refine ⟨fun fuel => rfl, rfl, ?_⟩
  have h : out_probs 3 [3, 0] = [1, 0] := by norm_num [out_probs]
  rw [← h]
  rfl

/-! ## The next-combination block -/

theorem nextRec_append_some (U : Nat) (pre l l2 : List Nat) (h : nextRec U l = some l2) :
    nextRec U (pre ++ l) = some (pre ++ l2) := by
  induction pre with
  | nil => simpa using h
  | cons a pre ih => simp [nextRec, ih]

theorem cell_cons_drop {α : Type} [Zero α] (xs : List α) (i : Nat) (h : i < xs.length) :
    xs.drop i = cell xs i :: xs.drop (i + 1) := by
  unfold cell
  rw [List.getD_eq_getElem _ _ h]
  exact List.drop_eq_getElem_cons h

theorem set_at_length {α : Type} (pre : List α) (x y : α) (rest : List α) :
    (pre ++ x :: rest).set pre.length y = pre ++ y :: rest := by
  induction pre with
  | nil => rfl
  | cons a pre ih => simp [ih]

theorem cell_at_length {α : Type} [Zero α] (pre : List α) (x : α) (rest : List α) :
    cell (pre ++ x :: rest) pre.length = x := by
  induction pre with
  | nil => rfl
  | cons a pre ih => simpa [cell] using ih

/-- The backwards scan returns the rightmost index whose entry is not at its maximum. -/
theorem scanBack_spec (comb : List Nat) (U : Nat) (n : Nat) (hn : n ≤ comb.length)
    (hmax : nextRec U (comb.drop n) = none) :
    (scanBack comb U comb.length n = .ok none ∧ nextRec U comb = none) ∨
    (∃ i, scanBack comb U comb.length n = .ok (some i) ∧ i < n ∧
      nextRec U (comb.drop (i + 1)) = none ∧
      cell comb i + ((comb.drop (i + 1)).length + 1) ≠ U) := by
  induction n with
  | zero => left; exact ⟨rfl, by simpa using hmax⟩
  | succ n ih =>
    have hlt : n < comb.length := hn
    unfold scanBack
    rw [rd_nat comb n hlt]
    simp only [ok_bind]
    have hlen : (comb.drop (n + 1)).length + 1 = comb.length - n := by
      rw [List.length_drop]; omega
    by_cases heq : ((cell comb n : Nat) : Int) = (U : Int) - (comb.length : Int) + (n : Int)
    · rw [if_pos heq]
      have hmax2 : nextRec U (comb.drop n) = none := by
        rw [cell_cons_drop comb n hlt, nextRec, hmax]
        simp only []
        rw [if_pos]
        rw [hlen]; omega
      rcases ih (by omega) hmax2 with h | ⟨i, h1, h2, h3⟩
      · left; exact h
      · right; exact ⟨i, h1, by omega, h3⟩
    · rw [if_neg heq]
      right
      refine ⟨n, rfl, by omega, hmax, ?_⟩
      rw [hlen]; omega

theorem resetLoop_spec (m : Nat) : ∀ (pre : List Nat) (x : Nat) (rest : List Nat),
    m ≤ rest.length →
    (List.range' (pre.length + 1) m).foldlM resetStep (pre ++ x :: rest) =
      .ok (pre ++ List.range' x (m + 1) ++ rest.drop m) := by
  induction m with
  | zero => intro pre x rest _; simp [List.range']
  | succ m ih =>
    intro pre x rest hm
    obtain ⟨y, rest2, rfl⟩ : ∃ y rest2, rest = y :: rest2 := by
      cases rest with
      | nil => simp at hm
      | cons y rest2 => exact ⟨y, rest2, rfl⟩
    have hstep : resetStep (pre ++ x :: y :: rest2) (pre.length + 1) =
        .ok ((pre ++ [x]) ++ (x + 1) :: rest2) := by
      unfold resetStep
      have h1 : ((pre.length + 1 : Nat) : Int) - 1 = (pre.length : Nat) := by omega
      rw [h1, rd_nat _ _ (by simp)]
      simp only [ok_bind]
      rw [wr_nat _ _ _ (by simp)]
      congr 1
      rw [cell_at_length]
      have : pre ++ x :: y :: rest2 = (pre ++ [x]) ++ y :: rest2 := by simp
      rw [this]
      have hl : pre.length + 1 = (pre ++ [x]).length := by simp
      rw [hl, set_at_length]
    rw [List.range'_succ, List.foldlM_cons, hstep]
    simp only [ok_bind]
    have hl : pre.length + 1 + 1 = (pre ++ [x]).length + 1 := by simp
    rw [hl, ih (pre ++ [x]) (x + 1) rest2 (by simpa using hm)]
    congr 1
    rw [List.range'_succ x (m + 1)]
    simp

theorem nextComb_eq_nextRec (comb : List Nat) (U : Nat) :
    nextComb comb U comb.length = .ok (nextRec U comb) := by
  unfold nextComb
  rcases scanBack_spec comb U comb.length (le_refl _) (by simp [nextRec]) with
    ⟨h1, h2⟩ | ⟨i, h1, h2, h3, h4⟩
  · rw [h1, h2]; rfl
  · rw [h1]
    simp only [ok_bind]
    rw [rd_nat comb i h2]
    simp only [ok_bind]
    rw [wr_nat comb i _ h2]
    simp only [ok_bind]
    have hdecomp : comb = comb.take i ++ cell comb i :: comb.drop (i + 1) := by
      rw [← cell_cons_drop comb i h2, List.take_append_drop]
    have hli : (comb.take i).length = i := by simp; omega
    have hset : comb.set i (cell comb i + 1) =
        comb.take i ++ (cell comb i + 1) :: comb.drop (i + 1) := by
      have := set_at_length (comb.take i) (cell comb i) (cell comb i + 1) (comb.drop (i + 1))
      rw [hli, ← hdecomp] at this
      exact this
    rw [hset]
    have hrs := resetLoop_spec (comb.length - (i + 1)) (comb.take i) (cell comb i + 1)
      (comb.drop (i + 1)) (by simp)
    rw [hli] at hrs
    rw [hrs]
    simp only [ok_bind, pure_eq_ok]
    congr 1
    have hnext : nextRec U (cell comb i :: comb.drop (i + 1)) =
        some (List.range' (cell comb i + 1) ((comb.drop (i + 1)).length + 1)) := by
      rw [nextRec, h3]
      simp only []
      rw [if_neg h4]
    conv_rhs => rw [hdecomp, nextRec_append_some U _ _ _ hnext]
    simp
    omega

/-! ## Lexicographic successor -/

theorem ValidComb.tail {U a : Nat} {cs : List Nat} (h : ValidComb U (a :: cs)) :
    ValidComb U cs :=
  ⟨(List.sorted_cons.mp h.1).2, fun x hx => h.2 x (List.mem_cons_of_mem _ hx)⟩

theorem ValidComb.bound {U : Nat} : ∀ {cs : List Nat} {a : Nat}, ValidComb U (a :: cs) →
    a + cs.length + 1 ≤ U
  | [], a, h => by have := h.2 a (List.mem_cons_self _ _); simp; omega
  | b :: cs, a, h => by
    have h1 := ValidComb.bound (ValidComb.tail h)
    have h2 : a < b := (List.sorted_cons.mp h.1).1 b (List.mem_cons_self _ _)
    simp only [List.length_cons]; omega

theorem validComb_range' (U lo n : Nat) (h : lo + n ≤ U) : ValidComb U (List.range' lo n) := by
  constructor
  · exact (List.pairwise_lt_range' lo n)
  · intro x hx
    rw [List.mem_range'_1] at hx
    omega

theorem lex_head_le {a b : Nat} {as bs : List Nat} (h : List.Lex (· < ·) (a :: as) (b :: bs)) :
    a ≤ b := by
  cases h with
  | cons _ => exact le_refl _
  | rel h => exact le_of_lt h

theorem validComb_cons {U a : Nat} {cs : List Nat} (hcs : ValidComb U cs) (ha : a < U)
    (hhead : ∀ b bs, cs = b :: bs → a < b) : ValidComb U (a :: cs) := by
  refine ⟨List.sorted_cons.mpr ⟨?_, hcs.1⟩, fun x hx => ?_⟩
  · intro y hy
    cases cs with
    | nil => simp at hy
    | cons b bs =>
      have hab := hhead b bs rfl
      rcases List.mem_cons.mp hy with h | h
      · omega
      · have := (List.sorted_cons.mp hcs.1).1 y h
        omega
  · rcases List.mem_cons.mp hx with h | h
    · omega
    · exact hcs.2 x h

/-- The successor keeps the length, is lexicographically larger, and is again valid. -/
theorem nextRec_spec (U : Nat) : ∀ (c c2 : List Nat), ValidComb U c → nextRec U c = some c2 →
    c2.length = c.length ∧ List.Lex (· < ·) c c2 ∧ ValidComb U c2
  | [], c2, _, h => by simp [nextRec] at h
  | a :: cs, c2, hv, h => by
    have hb := ValidComb.bound hv
    unfold nextRec at h
    cases hn : nextRec U cs with
    | some cs2 =>
      rw [hn] at h
      simp only [Option.some.injEq] at h
      subst h
      obtain ⟨h1, h2, h3⟩ := nextRec_spec U cs cs2 (ValidComb.tail hv) hn
      refine ⟨by simp [h1], List.Lex.cons h2, ?_⟩
      apply validComb_cons h3 (hv.2 a (List.mem_cons_self _ _))
      intro b bs hbs
      subst hbs
      cases cs with
      | nil => simp at h1
      | cons x xs =>
        have hax : a < x := (List.sorted_cons.mp hv.1).1 x (List.mem_cons_self _ _)
        have := lex_head_le h2
        omega
    | none =>
      rw [hn] at h
      simp only [] at h
      by_cases he : a + (cs.length + 1) = U
      · rw [if_pos he] at h; cases h
      · rw [if_neg he] at h
        simp only [Option.some.injEq] at h
        subst h
        refine ⟨by simp, ?_, validComb_range' U _ _ (by omega)⟩
        rw [List.range'_succ]
        exact List.Lex.rel (Nat.lt_succ_self a)

/-- Among valid vectors with entries at least `lo`, the consecutive run from `lo` is least. -/
theorem range'_lex_le (U : Nat) : ∀ (ds : List Nat) (lo : Nat), ValidComb U ds →
    (∀ x ∈ ds, lo ≤ x) → List.range' lo ds.length = ds ∨ List.Lex (· < ·) (List.range' lo ds.length) ds
  | [], lo, _, _ => Or.inl rfl
  | d :: ds, lo, hv, hlo => by
    have hd : lo ≤ d := hlo d (List.mem_cons_self _ _)
    simp only [List.length_cons, List.range'_succ]
    rcases Nat.lt_or_ge lo d with hlt | hge
    · right; exact List.Lex.rel hlt
    · have hdl : d = lo := by omega
      subst hdl
      have hgt : ∀ x ∈ ds, d + 1 ≤ x := fun x hx => (List.sorted_cons.mp hv.1).1 x hx
      rcases range'_lex_le U ds (d + 1) (ValidComb.tail hv) hgt with h | h
      · left; rw [h]
      · right; exact List.Lex.cons h

/-- The successor of `c` is the least valid vector above `c`. -/
theorem nextRec_le_of_lex (U : Nat) : ∀ (c d : List Nat), ValidComb U c → ValidComb U d →
    c.length = d.length → List.Lex (· < ·) c d →
    ∃ c2, nextRec U c = some c2 ∧ (c2 = d ∨ List.Lex (· < ·) c2 d)
  | [], d, _, _, hl, h => by
    cases d with
    | nil => cases h
    | cons _ _ => simp at hl
  | a :: cs, [], _, _, _, h => by cases h
  | a :: cs, b :: ds, hc, hd, hl, h => by
    have hl2 : cs.length = ds.length := by simpa using hl
    have hbd := ValidComb.bound hd
    unfold nextRec
    cases h with
    | cons h2 =>
      obtain ⟨cs2, e1, e2⟩ := nextRec_le_of_lex U cs ds (ValidComb.tail hc) (ValidComb.tail hd) hl2 h2
      rw [e1]
      refine ⟨a :: cs2, rfl, ?_⟩
      rcases e2 with e | e
      · left; rw [e]
      · right; exact List.Lex.cons e
    | rel hab =>
      cases hn : nextRec U cs with
      | some cs2 => exact ⟨a :: cs2, rfl, Or.inr (List.Lex.rel hab)⟩
      | none =>
        simp only []
        have he : ¬ a + (cs.length + 1) = U := by omega
        rw [if_neg he]
        refine ⟨_, rfl, ?_⟩
        rw [List.range'_succ]
        rcases Nat.lt_or_ge (a + 1) b with hlt | hge
        · right; exact List.Lex.rel hlt
        · have hb : b = a + 1 := by omega
          subst hb
          have hgt : ∀ x ∈ ds, a + 1 + 1 ≤ x := fun x hx => (List.sorted_cons.mp hd.1).1 x hx
          rw [hl2]
          rcases range'_lex_le U ds (a + 1 + 1) (ValidComb.tail hd) hgt with h | h
          · left; rw [h]
          · right; exact List.Lex.cons h

/-! ## The visited index vectors -/

theorem lex_trans {a b c : List Nat} (h1 : List.Lex (· < ·) a b) (h2 : List.Lex (· < ·) b c) :
    List.Lex (· < ·) a c := by
  have h1' : a < b := h1
  have h2' : b < c := h2
  exact lt_trans h1' h2'

theorem lex_irrefl (a : List Nat) : ¬ List.Lex (· < ·) a a := by
  intro h
  have h' : a < a := h
  exact lt_irrefl a h'

theorem chain_valid (U : Nat) : ∀ (fuel : Nat) (c : List Nat), ValidComb U c →
    ∀ d ∈ chain U fuel c, ValidComb U d ∧ d.length = c.length ∧ (d = c ∨ List.Lex (· < ·) c d)
  | 0, _, _, d, hd => by simp [chain] at hd
  | fuel + 1, c, hc, d, hd => by
    unfold chain at hd
    rcases List.mem_cons.mp hd with h | h
    · subst h; exact ⟨hc, rfl, Or.inl rfl⟩
    · cases hn : nextRec U c with
      | none => rw [hn] at h; simp at h
      | some c2 =>
        rw [hn] at h
        obtain ⟨e1, e2, e3⟩ := nextRec_spec U c c2 hc hn
        obtain ⟨f1, f2, f3⟩ := chain_valid U fuel c2 e3 d h
        refine ⟨f1, by omega, Or.inr ?_⟩
        rcases f3 with f | f
        · subst f; exact e2
        · exact lex_trans e2 f

theorem chain_sorted (U : Nat) : ∀ (fuel : Nat) (c : List Nat), ValidComb U c →
    (chain U fuel c).Pairwise (List.Lex (· < ·))
  | 0, _, _ => by simp [chain]
  | fuel + 1, c, hc => by
    unfold chain
    cases hn : nextRec U c with
    | none => simp
    | some c2 =>
      simp only []
      obtain ⟨_, e2, e3⟩ := nextRec_spec U c c2 hc hn
      refine List.pairwise_cons.mpr ⟨?_, chain_sorted U fuel c2 e3⟩
      intro d hd
      rcases (chain_valid U fuel c2 e3 d hd).2.2 with f | f
      · subst f; exact e2
      · exact lex_trans e2 f

theorem chain_complete (U : Nat) : ∀ (fuel : Nat) (c : List Nat), ValidComb U c →
    finishes U fuel c = true → ∀ d, ValidComb U d → d.length = c.length →
    (d = c ∨ List.Lex (· < ·) c d) → d ∈ chain U fuel c
  | 0, _, _, hf, _, _, _, _ => by simp [finishes] at hf
  | fuel + 1, c, hc, hf, d, hd, hl, hcd => by
    unfold chain
    rcases hcd with h | h
    · subst h; exact List.mem_cons_self _ _
    · obtain ⟨c2, e1, e2⟩ := nextRec_le_of_lex U c d hc hd hl.symm h
      obtain ⟨g1, _, g3⟩ := nextRec_spec U c c2 hc e1
      unfold finishes at hf
      rw [e1] at hf ⊢
      simp only [] at hf ⊢
      exact List.mem_cons_of_mem _
        (chain_complete U fuel c2 g3 hf d hd (by omega) (e2.imp Eq.symm id))

theorem chain_length_of_not_finishes (U : Nat) : ∀ (fuel : Nat) (c : List Nat),
    finishes U fuel c = false → (chain U (fuel + 1) c).length = fuel + 1
  | 0, c, _ => by
    unfold chain
    cases nextRec U c <;> simp [chain]
  | fuel + 1, c, hf => by
    unfold finishes at hf
    unfold chain
    cases hn : nextRec U c with
    | none => rw [hn] at hf; simp at hf
    | some c2 =>
      rw [hn] at hf
      simp only [] at hf ⊢
      rw [List.length_cons, chain_length_of_not_finishes U fuel c2 hf]

theorem chain_eq_of_finishes (U : Nat) : ∀ (fuel : Nat) (c : List Nat),
    finishes U fuel c = true → ∀ k, finishes U (fuel + k) c = true ∧
      chain U (fuel + k) c = chain U fuel c
  | 0, _, hf, _ => by simp [finishes] at hf
  | fuel + 1, c, hf, k => by
    have hk : fuel + 1 + k = (fuel + k) + 1 := by omega
    rw [hk]
    unfold finishes at hf ⊢
    unfold chain
    cases hn : nextRec U c with
    | none => simp
    | some c2 =>
      rw [hn] at hf
      simp only [] at hf ⊢
      obtain ⟨h1, h2⟩ := chain_eq_of_finishes U fuel c2 hf k
      exact ⟨h1, by rw [h2]⟩

/-- A list of valid index vectors of length `r` without repetition has at most `C(U,r)` entries,
and exactly `C(U,r)` when it contains all of them. -/
theorem length_le_choose (U r : Nat) (L : List (List Nat)) (hnd : L.Nodup)
    (hv : ∀ c ∈ L, ValidComb U c ∧ c.length = r) : L.length ≤ Nat.choose U r := by
  have hinj : ∀ c ∈ L, ∀ d ∈ L, c.toFinset = d.toFinset → c = d := by
    intro c hc d hd h
    have hcn : c.Nodup := (hv c hc).1.1.imp (fun h => ne_of_lt h)
    have hdn : d.Nodup := (hv d hd).1.1.imp (fun h => ne_of_lt h)
    exact List.eq_of_perm_of_sorted ((List.perm_ext_iff_of_nodup hcn hdn).mpr
      (fun x => by rw [← List.mem_toFinset, h, List.mem_toFinset])) (hv c hc).1.1 (hv d hd).1.1
  have hnd2 : (L.map List.toFinset).Nodup := List.Nodup.map_on hinj hnd
  have hsub : (L.map List.toFinset).toFinset ⊆ Finset.powersetCard r (Finset.range U) := by
    intro s hs
    rw [List.mem_toFinset, List.mem_map] at hs
    obtain ⟨c, hc, rfl⟩ := hs
    rw [Finset.mem_powersetCard]
    obtain ⟨⟨h1, h2⟩, h3⟩ := hv c hc
    refine ⟨fun x hx => ?_, ?_⟩
    · rw [List.mem_toFinset] at hx
      exact Finset.mem_range.mpr (h2 x hx)
    · rw [List.toFinset_card_of_nodup (h1.imp (fun h => ne_of_lt h)), h3]
  have := Finset.card_le_card hsub
  rw [List.toFinset_card_of_nodup hnd2, List.length_map, Finset.card_powersetCard,
    Finset.card_range] at this
  exact this

theorem length_eq_choose (U r : Nat) (L : List (List Nat)) (hnd : L.Nodup)
    (hv : ∀ c ∈ L, ValidComb U c ∧ c.length = r)
    (hall : ∀ c, ValidComb U c → c.length = r → c ∈ L) : L.length = Nat.choose U r := by
  apply le_antisymm (length_le_choose U r L hnd hv)
  have hinj : Set.InjOn (fun s : Finset Nat => s.sort (· ≤ ·))
      (Finset.powersetCard r (Finset.range U) : Set (Finset Nat)) := by
    intro s _ t _ h
    simp only [] at h
    rw [← Finset.sort_toFinset (· ≤ ·) s, ← Finset.sort_toFinset (· ≤ ·) t, h]
  have hsub : (Finset.powersetCard r (Finset.range U)).image (fun s => s.sort (· ≤ ·)) ⊆
      L.toFinset := by
    intro c hc
    rw [Finset.mem_image] at hc
    obtain ⟨s, hs, rfl⟩ := hc
    rw [Finset.mem_powersetCard] at hs
    rw [List.mem_toFinset]
    apply hall
    · refine ⟨Finset.sort_sorted_lt s, fun x hx => ?_⟩
      rw [Finset.mem_sort] at hx
      exact Finset.mem_range.mp (hs.1 hx)
    · rw [Finset.length_sort, hs.2]
  have := Finset.card_le_card hsub
  rw [Finset.card_image_of_injOn hinj, Finset.card_powersetCard, Finset.card_range,
    List.toFinset_card_of_nodup hnd] at this
  exact this

theorem nodup_of_pairwise_lex (L : List (List Nat)) (h : L.Pairwise (List.Lex (· < ·))) :
    L.Nodup :=
  h.imp (fun {a b} hab heq => by subst heq; exact lex_irrefl a hab)

/-- With at least `C(U,r)` turns of fuel the enumeration started at a valid vector finishes. -/
theorem finishes_of_fuel (U : Nat) (fuel : Nat) (c : List Nat) (hc : ValidComb U c)
    (hfuel : Nat.choose U c.length ≤ fuel) : finishes U fuel c = true := by
  by_contra hf
  have hf2 : finishes U fuel c = false := by simpa using hf
  have hlen := chain_length_of_not_finishes U fuel c hf2
  have hle := length_le_choose U c.length (chain U (fuel + 1) c)
    (nodup_of_pairwise_lex _ (chain_sorted U _ c hc))
    (fun d hd => ⟨(chain_valid U _ c hc d hd).1, (chain_valid U _ c hc d hd).2.1⟩)
  omega

/-! ## Classifying cells and building placements -/

theorem classify_prefix (b : Board) (hb : b.sized) : ∀ (n : Nat), n ≤ (b.G_R * b.G_C).toNat →
    (List.range n).foldlM (classifyStep b) ([], []) =
      .ok ((List.range n).filter (fun i => cell b.revealed i = 5),
           (List.range n).filter (fun i => cell b.revealed i = -1))
  | 0, _ => rfl
  | n + 1, hn => by
    rw [List.range_succ, List.foldlM_append, classify_prefix b hb n (by omega)]
    simp only [ok_bind, List.foldlM_cons, List.foldlM_nil, List.filter_append]
    unfold classifyStep
    rw [rd_nat b.revealed n (by rw [sized_length b hb]; omega)]
    simp only [ok_bind]
    by_cases h5 : cell b.revealed n = 5
    · have h1 : ¬ cell b.revealed n = -1 := by omega
      simp [h5]
    · by_cases h1 : cell b.revealed n = -1
      · simp [h1]
      · simp [h5, h1]

theorem classify_ok (b : Board) (hb : b.sized) :
    classify b = .ok (knownBombs b, unknowns b) :=
  classify_prefix b hb _ (le_refl _)

theorem mem_knownBombs (b : Board) (i : Nat) :
    i ∈ knownBombs b ↔ i < (b.G_R * b.G_C).toNat ∧ cell b.revealed i = 5 := by
  simp [knownBombs]

theorem mem_unknowns (b : Board) (i : Nat) :
    i ∈ unknowns b ↔ i < (b.G_R * b.G_C).toNat ∧ cell b.revealed i = -1 := by
  simp [unknowns]

theorem unknowns_sorted (b : Board) : (unknowns b).Sorted (· < ·) :=
  (List.pairwise_lt_range _).sublist (List.filter_sublist _)

theorem unknowns_nodup (b : Board) : (unknowns b).Nodup :=
  (List.nodup_range _).sublist (List.filter_sublist _)

theorem knownBombs_nodup (b : Board) : (knownBombs b).Nodup :=
  (List.nodup_range _).sublist (List.filter_sublist _)

theorem length_mark (p : List Int) (is : List Nat) : (mark p is).length = p.length := by
  induction is generalizing p with
  | nil => rfl
  | cons i is ih =>
    show (mark (p.set i 1) is).length = p.length
    rw [ih]; simp

theorem length_place (N : Nat) (S : Finset Nat) : (place N S).length = N := by
  simp [place]

theorem place_set (N : Nat) (S : Finset Nat) (i : Nat) :
    (place N S).set i 1 = place N (insert i S) := by
  apply List.ext_getElem?
  intro j
  simp only [place, List.getElem?_set, List.getElem?_map, List.length_map, List.length_range]
  by_cases hj : j < N
  · rw [List.getElem?_range hj]
    by_cases hij : i = j
    · subst hij; simp [hj]
    · have : j ≠ i := fun h => hij h.symm
      simp [hij, this]
  · rw [List.getElem?_eq_none (by simp; omega)]
    by_cases hij : i = j
    · simp [hij]; omega
    · simp [hij]

theorem mark_place (N : Nat) (is : List Nat) : ∀ (S : Finset Nat),
    mark (place N S) is = place N (S ∪ is.toFinset) := by
  induction is with
  | nil => intro S; simp [mark]
  | cons i is ih =>
    intro S
    unfold mark at ih ⊢
    rw [List.foldl_cons, place_set, ih]
    congr 1
    ext x; simp

theorem replicate_eq_place (N : Nat) : List.replicate N (0 : Int) = place N ∅ := by
  apply List.ext_getElem?
  intro j
  by_cases hj : j < N
  · simp [place, hj, List.getElem?_replicate, List.getElem?_range hj]
  · rw [List.getElem?_eq_none (by simp; omega), List.getElem?_eq_none (by simp [place]; omega)]

theorem foldlM_wr (is : List Nat) : ∀ (p : List Int), (∀ i ∈ is, i < p.length) →
    is.foldlM (fun (q : List Int) (i : Nat) => wr q (i : Int) (1 : Int)) p = .ok (mark p is) := by
  induction is with
  | nil => intro p _; rfl
  | cons i is ih =>
    intro p h
    rw [List.foldlM_cons, wr_nat p i 1 (h i (List.mem_cons_self _ _))]
    simp only [ok_bind]
    rw [ih _ (fun j hj => by simpa using h j (List.mem_cons_of_mem _ hj))]
    rfl

theorem markFixed_ok (N : Nat) (fx : List Nat) (h : ∀ i ∈ fx, i < N) :
    markFixed N fx = .ok (place N fx.toFinset) := by
  unfold markFixed
  rw [foldlM_wr fx _ (by simpa using h), replicate_eq_place, mark_place]
  simp

theorem map_cell_range {α : Type} [Zero α] (l : List α) :
    (List.range l.length).map (cell l) = l := by
  apply List.ext_getElem?
  intro j
  by_cases hj : j < l.length
  · simp [List.getElem?_range hj, cell, List.getD_eq_getElem?_getD, hj]
  · rw [List.getElem?_eq_none (by simp; omega), List.getElem?_eq_none (by omega)]

theorem map_cell_range_min {α : Type} [Zero α] (l : List α) (r : Nat) :
    (List.range (min r l.length)).map (cell l) = l.take r := by
  have h := map_cell_range (l.take r)
  rw [List.length_take] at h
  rw [← h]
  apply List.map_congr_left
  intro k hk
  have hk2 := List.mem_range.mp hk
  simp only [cell, List.getD_eq_getElem?_getD]
  rw [List.getElem?_take_of_lt (by omega)]

theorem cell_mem {α : Type} [Zero α] (l : List α) (k : Nat) (h : k < l.length) :
    cell l k ∈ l := by
  unfold cell; rw [List.getD_eq_getElem _ _ h]; exact List.getElem_mem _

theorem foldlM_markComb (unk comb : List Nat) (ks : List Nat) : ∀ (p : List Int),
    (∀ k ∈ ks, k < comb.length) → (∀ x ∈ comb, x < unk.length) → (∀ u ∈ unk, u < p.length) →
    ks.foldlM (markCombStep unk comb) p =
      .ok (mark p (ks.map (fun k => cell unk (cell comb k)))) := by
  induction ks with
  | nil => intro p _ _ _; rfl
  | cons k ks ih =>
    intro p hk hx hu
    have hk1 : k < comb.length := hk k (List.mem_cons_self _ _)
    have hc : cell comb k ∈ comb := cell_mem comb k hk1
    have hc1 : cell comb k < unk.length := hx _ hc
    have hu1 : cell unk (cell comb k) ∈ unk := cell_mem unk _ hc1
    rw [List.foldlM_cons]
    unfold markCombStep
    rw [rd_nat comb k hk1]
    simp only [ok_bind]
    rw [rd_nat unk _ hc1]
    simp only [ok_bind]
    rw [wr_nat p _ 1 (hu _ hu1)]
    simp only [ok_bind]
    have := ih (p.set (cell unk (cell comb k)) 1)
      (fun j hj => hk j (List.mem_cons_of_mem _ hj)) hx (by simpa using hu)
    unfold markCombStep at this
    rw [this]
    rfl

theorem foldlM_markShuffled (unk : List Nat) (ks : List Nat) : ∀ (p : List Int),
    (∀ k ∈ ks, k < unk.length) → (∀ u ∈ unk, u < p.length) →
    ks.foldlM (markShuffledStep unk) p = .ok (mark p (ks.map (cell unk))) := by
  induction ks with
  | nil => intro p _ _; rfl
  | cons k ks ih =>
    intro p hk hu
    have hk1 : k < unk.length := hk k (List.mem_cons_self _ _)
    have hu1 : cell unk k ∈ unk := cell_mem unk k hk1
    rw [List.foldlM_cons]
    unfold markShuffledStep
    rw [rd_nat unk k hk1]
    simp only [ok_bind]
    rw [wr_nat p _ 1 (hu _ hu1)]
    simp only [ok_bind]
    have := ih (p.set (cell unk k) 1)
      (fun j hj => hk j (List.mem_cons_of_mem _ hj)) (by simpa using hu)
    unfold markShuffledStep at this
    rw [this]
    rfl

/-! ## The enumeration loop -/

theorem tally_comb_irrel (b : Board) (s : ExactState) (x c : List Nat) :
    tally b { s with comb := x } c = tally b s c := rfl

theorem foldl_tally_comb_irrel (b : Board) (s : ExactState) (x : List Nat) (U : Nat) :
    ∀ (fuel : Nat) (c : List Nat), finishes U fuel c = true →
      (chain U fuel c).foldl (tally b) { s with comb := x } = (chain U fuel c).foldl (tally b) s
  | 0, _, h => by simp [finishes] at h
  | fuel + 1, c, _ => by
    unfold chain
    rw [List.foldl_cons, List.foldl_cons, tally_comb_irrel]

theorem buildComb_ok (b : Board) (c : List Nat)
    (hv : ValidComb (unknowns b).length c) :
    (do
      let p0 ← markFixed (b.G_R * b.G_C).toNat (knownBombs b)
      (List.range c.length).foldlM (markCombStep (unknowns b) c) p0) = .ok (placeOf b c) := by
  rw [markFixed_ok _ _ (fun i hi => ((mem_knownBombs b i).mp hi).1)]
  simp only [ok_bind]
  rw [foldlM_markComb (unknowns b) c _ _ (fun k hk => List.mem_range.mp hk) hv.2
    (fun u hu => by rw [length_place]; exact ((mem_unknowns b u).mp hu).1)]
  have hmap : (List.range c.length).map (fun k => cell (unknowns b) (cell c k)) =
      c.map (cell (unknowns b)) := by
    conv_rhs => rw [← map_cell_range c]
    rw [List.map_map]; rfl
  rw [hmap, mark_place]
  rfl

theorem exactLoop_ok (b : Board) (hb : b.sized) : ∀ (fuel : Nat) (s : ExactState),
    ValidComb (unknowns b).length s.comb →
    exactLoop b (knownBombs b) (unknowns b) s.comb.length (b.G_R * b.G_C).toNat fuel s =
      if finishes (unknowns b).length fuel s.comb then
        .ok ((chain (unknowns b).length fuel s.comb).foldl (tally b) s)
      else .error .outOfFuel
  | 0, _, _ => rfl
  | fuel + 1, s, hv => by
    unfold exactLoop
    have hbuild := buildComb_ok b s.comb hv
    rw [markFixed_ok _ _ (fun i hi => ((mem_knownBombs b i).mp hi).1)] at hbuild ⊢
    simp only [ok_bind] at hbuild ⊢
    rw [hbuild]
    simp only [ok_bind]
    rw [check_placement_ok b (placeOf b s.comb) hb (length_place _ _)]
    simp only [ok_bind]
    rw [nextComb_eq_nextRec]
    simp only [ok_bind]
    change (match nextRec (unknowns b).length s.comb with
      | none => _
      | some comb2 => _) = _
    have htally : (if accepts b (placeOf b s.comb) = true then
          ({ s with valid := s.valid + 1, hit := bump s.hit (placeOf b s.comb),
                    visited := s.visited ++ [s.comb],
                    evaluated := s.evaluated ++ [placeOf b s.comb] } : ExactState)
        else
          { s with visited := s.visited ++ [s.comb],
                   evaluated := s.evaluated ++ [placeOf b s.comb] }) = tally b s s.comb := by
      unfold tally
      split <;> rfl
    unfold finishes chain
    cases hn : nextRec (unknowns b).length s.comb with
    | none =>
      simp only [List.foldl_cons, List.foldl_nil, if_true, pure_eq_ok]
      congr 1
    | some c2 =>
      simp only []
      obtain ⟨h1, _, h3⟩ := nextRec_spec _ _ _ hv hn
      have ih := exactLoop_ok b hb fuel { tally b s s.comb with comb := c2 } h3
      simp only [h1] at ih
      rw [← htally] at ih
      unfold accepts at ih
      rw [ih]
      by_cases hf : finishes (unknowns b).length fuel c2 = true
      · rw [if_pos hf, if_pos hf, List.foldl_cons, ← htally]
        unfold accepts
        rw [foldl_tally_comb_irrel b _ _ _ _ _ hf]
      · rw [if_neg hf, if_neg hf]

/-! ## Closed form of the exact solver -/

theorem hitsOf_nil (N : Nat) : hitsOf N [] = List.replicate N 0 := by
  unfold hitsOf
  apply List.ext_getElem?
  intro j
  by_cases hj : j < N
  · simp [hj, List.getElem?_replicate, List.getElem?_range hj]
  · rw [List.getElem?_eq_none (by simp; omega), List.getElem?_eq_none (by simp; omega)]

theorem zipWith_map_same {α β γ δ : Type} (f : β → γ → δ) (g : α → β) (h : α → γ) (l : List α) :
    List.zipWith f (l.map g) (l.map h) = l.map (fun i => f (g i) (h i)) := by
  induction l with
  | nil => rfl
  | cons a l ih => simp [ih]

theorem bump_hitsOf (N : Nat) (ps : List (List Int)) (p : List Int) (hp : p.length = N) :
    bump (hitsOf N ps) p = hitsOf N (ps ++ [p]) := by
  unfold bump hitsOf
  have hpm : p = (List.range N).map (cell p) := by rw [← hp, map_cell_range]
  conv_lhs => rw [hpm, zipWith_map_same]
  apply List.map_congr_left
  intro i _
  rw [List.countP_append]
  by_cases h : cell p i ≠ 0
  · simp [List.countP_cons, h]
  · simp [List.countP_cons, h]

theorem tally_inv (b : Board) (s : ExactState) (c : List Nat) (h : TallyInv b s) :
    TallyInv b (tally b s c) := by
  unfold tally TallyInv
  cases hacc : accepts b (placeOf b c)
  · simp only [Bool.false_eq_true, if_false, List.filter_append, List.filter_cons, hacc,
      List.filter_nil, List.append_nil]
    exact h
  · simp only [if_true, List.filter_append, List.filter_cons, hacc, List.filter_nil,
      List.length_append, List.length_singleton]
    refine ⟨by rw [h.1], ?_⟩
    rw [h.2, bump_hitsOf _ _ (placeOf b c) (length_place _ _)]

theorem foldl_tally (b : Board) : ∀ (L : List (List Nat)) (s : ExactState), TallyInv b s →
    TallyInv b (L.foldl (tally b) s) ∧
    (L.foldl (tally b) s).visited = s.visited ++ L ∧
    (L.foldl (tally b) s).evaluated = s.evaluated ++ L.map (placeOf b)
  | [], s, h => ⟨h, by simp, by simp⟩
  | c :: L, s, h => by
    obtain ⟨h1, h2, h3⟩ := foldl_tally b L (tally b s c) (tally_inv b s c h)
    rw [List.foldl_cons]
    refine ⟨h1, ?_, ?_⟩
    · rw [h2]; unfold tally; split <;> simp
    · rw [h3]; unfold tally; split <;> simp

theorem validComb_range (U r : Nat) (h : r ≤ U) : ValidComb U (List.range r) := by
  rw [List.range_eq_range']
  exact validComb_range' U 0 r (by omega)

/-- Closed form of `ms_solve_exact` when `1 ≤ remaining ≤ U` and the fuel covers `C(U,remaining)`
turns. -/
theorem ms_solve_exact_ok (b : Board) (hb : b.sized) (fuel : Nat)
    (h1 : 1 ≤ bombsRemain b (knownBombs b))
    (hU : bombsRemain b (knownBombs b) ≤ (unknowns b).length)
    (hfuel : Nat.choose (unknowns b).length (bombsRemain b (knownBombs b)) ≤ fuel) :
    ms_solve_exact b fuel = .ok
      { valid := (((combos b).map (placeOf b)).filter (accepts b)).length,
        hit := hitsOf (b.G_R * b.G_C).toNat (((combos b).map (placeOf b)).filter (accepts b)),
        out := out_probs (((combos b).map (placeOf b)).filter (accepts b)).length
          (hitsOf (b.G_R * b.G_C).toNat (((combos b).map (placeOf b)).filter (accepts b))),
        visited := combos b,
        evaluated := (combos b).map (placeOf b) } := by
  unfold ms_solve_exact
  simp only [sized_nonneg b hb, if_false]
  rw [classify_ok b hb]
  simp only [ok_bind]
  have hne : ¬ bombsRemain b (knownBombs b) = 0 := by omega
  rw [if_neg hne]
  have hv := validComb_range _ _ hU
  have hloop := exactLoop_ok b hb fuel
    { comb := List.range (bombsRemain b (knownBombs b)), valid := 0,
      hit := List.replicate (b.G_R * b.G_C).toNat 0, visited := [], evaluated := [] } hv
  simp only [List.length_range] at hloop
  rw [hloop]
  have hfin0 := finishes_of_fuel _ _ _ hv (by rw [List.length_range])
  obtain ⟨hfin, hchain⟩ := chain_eq_of_finishes _ _ _ hfin0
    (fuel - Nat.choose (unknowns b).length (bombsRemain b (knownBombs b)))
  have hfe : Nat.choose (unknowns b).length (bombsRemain b (knownBombs b)) +
      (fuel - Nat.choose (unknowns b).length (bombsRemain b (knownBombs b))) = fuel := by omega
  rw [hfe] at hfin hchain
  rw [if_pos hfin, hchain]
  simp only [ok_bind, pure_eq_ok]
  obtain ⟨⟨i1, i2⟩, i3, i4⟩ := foldl_tally b (combos b)
    { comb := List.range (bombsRemain b (knownBombs b)), valid := 0,
      hit := List.replicate (b.G_R * b.G_C).toNat 0, visited := [], evaluated := [] }
    ⟨by simp, by simp [hitsOf_nil]⟩
  simp only [List.nil_append] at i3 i4
  rw [i4] at i1 i2
  unfold combos at i1 i2 i3 i4 ⊢
  rw [i1, i2, i3, i4]

/-! ## All combinations are visited -/

theorem combos_valid (b : Board) (hU : bombsRemain b (knownBombs b) ≤ (unknowns b).length)
    (c : List Nat) (hc : c ∈ combos b) :
    ValidComb (unknowns b).length c ∧ c.length = bombsRemain b (knownBombs b) := by
  obtain ⟨h1, h2, _⟩ := chain_valid _ _ _ (validComb_range _ _ hU) c hc
  exact ⟨h1, by rw [h2, List.length_range]⟩

theorem combos_sorted (b : Board) (hU : bombsRemain b (knownBombs b) ≤ (unknowns b).length) :
    (combos b).Pairwise (List.Lex (· < ·)) :=
  chain_sorted _ _ _ (validComb_range _ _ hU)

theorem combos_complete (b : Board) (hU : bombsRemain b (knownBombs b) ≤ (unknowns b).length)
    (c : List Nat) (hv : ValidComb (unknowns b).length c)
    (hl : c.length = bombsRemain b (knownBombs b)) : c ∈ combos b := by
  have hr := validComb_range _ _ hU
  apply chain_complete _ _ _ hr
    (finishes_of_fuel _ _ _ hr (by rw [List.length_range])) c hv (by rw [hl, List.length_range])
  have := range'_lex_le _ c 0 hv (fun _ _ => Nat.zero_le _)
  rw [← List.range_eq_range', hl] at this
  exact this.imp Eq.symm id

theorem mem_combos (b : Board) (hU : bombsRemain b (knownBombs b) ≤ (unknowns b).length)
    (c : List Nat) :
    c ∈ combos b ↔ c.length = bombsRemain b (knownBombs b) ∧ c.Sorted (· < ·) ∧
      ∀ x ∈ c, x < (unknowns b).length :=
  ⟨fun h => ⟨(combos_valid b hU c h).2, (combos_valid b hU c h).1.1, (combos_valid b hU c h).1.2⟩,
   fun h => combos_complete b hU c ⟨h.2.1, h.2.2⟩ h.1⟩

theorem combos_nodup (b : Board) (hU : bombsRemain b (knownBombs b) ≤ (unknowns b).length) :
    (combos b).Nodup :=
  nodup_of_pairwise_lex _ (combos_sorted b hU)

theorem combos_length (b : Board) (hU : bombsRemain b (knownBombs b) ≤ (unknowns b).length) :
    (combos b).length = Nat.choose (unknowns b).length (bombsRemain b (knownBombs b)) :=
  length_eq_choose _ _ _ (combos_nodup b hU) (combos_valid b hU)
    (fun c hv hl => combos_complete b hU c hv hl)

theorem cell_inj_of_nodup (l : List Nat) (hl : l.Nodup) (i j : Nat) (hi : i < l.length)
    (hj : j < l.length) (h : cell l i = cell l j) : i = j := by
  unfold cell at h
  rw [List.getD_eq_getElem _ _ hi, List.getD_eq_getElem _ _ hj] at h
  exact (List.Nodup.getElem_inj_iff hl).mp h

theorem mem_sel (b : Board) (c : List Nat) (hv : ValidComb (unknowns b).length c) (k : Nat)
    (hk : k < (unknowns b).length) : cell (unknowns b) k ∈ sel b c ↔ k ∈ c := by
  unfold sel
  rw [List.mem_toFinset, List.mem_map]
  constructor
  · rintro ⟨j, hj, hjk⟩
    have := cell_inj_of_nodup _ (unknowns_nodup b) j k (hv.2 j hj) hk hjk
    rw [← this]; exact hj
  · intro h; exact ⟨k, h, rfl⟩

theorem sel_inj (b : Board) (c d : List Nat) (hc : ValidComb (unknowns b).length c)
    (hd : ValidComb (unknowns b).length d) (h : sel b c = sel b d) : c = d := by
  have hcn : c.Nodup := hc.1.imp (fun h => ne_of_lt h)
  have hdn : d.Nodup := hd.1.imp (fun h => ne_of_lt h)
  apply List.eq_of_perm_of_sorted ((List.perm_ext_iff_of_nodup hcn hdn).mpr ?_) hc.1 hd.1
  intro k
  constructor
  · intro hk
    have := (mem_sel b c hc k (hc.2 k hk)).mpr hk
    rw [h] at this
    exact (mem_sel b d hd k (hc.2 k hk)).mp this
  · intro hk
    have := (mem_sel b d hd k (hd.2 k hk)).mpr hk
    rw [← h] at this
    exact (mem_sel b c hc k (hd.2 k hk)).mp this

theorem sel_subset (b : Board) (c : List Nat) (hv : ValidComb (unknowns b).length c) :
    sel b c ⊆ (unknowns b).toFinset := by
  intro x hx
  unfold sel at hx
  rw [List.mem_toFinset, List.mem_map] at hx
  obtain ⟨k, hk, rfl⟩ := hx
  rw [List.mem_toFinset]
  exact cell_mem _ _ (hv.2 k hk)

theorem sel_card (b : Board) (c : List Nat) (hv : ValidComb (unknowns b).length c) :
    (sel b c).card = c.length := by
  unfold sel
  rw [List.toFinset_card_of_nodup, List.length_map]
  apply List.Nodup.map_on _ (hv.1.imp (fun h => ne_of_lt h))
  intro i hi j hj hij
  exact cell_inj_of_nodup _ (unknowns_nodup b) i j (hv.2 i hi) (hv.2 j hj) hij

theorem sel_surj (b : Board) (S : Finset Nat) (hS : S ⊆ (unknowns b).toFinset) :
    ∃ c, ValidComb (unknowns b).length c ∧ sel b c = S := by
  refine ⟨(List.range (unknowns b).length).filter (fun k => cell (unknowns b) k ∈ S), ⟨?_, ?_⟩, ?_⟩
  · exact (List.pairwise_lt_range _).sublist (List.filter_sublist _)
  · intro x hx
    exact List.mem_range.mp (List.mem_filter.mp hx).1
  · ext x
    unfold sel
    rw [List.mem_toFinset, List.mem_map]
    constructor
    · rintro ⟨k, hk, rfl⟩
      simpa using (List.mem_filter.mp hk).2
    · intro hx
      have hxu := List.mem_toFinset.mp (hS hx)
      obtain ⟨k, hk, hkx⟩ := List.getElem_of_mem hxu
      refine ⟨k, List.mem_filter.mpr ⟨List.mem_range.mpr hk, ?_⟩, ?_⟩
      · simp only [cell, List.getD_eq_getElem _ _ hk, hkx, decide_eq_true_eq]; exact hx
      · simp only [cell, List.getD_eq_getElem _ _ hk, hkx]

/-- The selections of the visited index vectors are exactly the subsets of the Unknown cells
of size `remaining`, each once. -/
theorem combos_sel (b : Board) (hU : bombsRemain b (knownBombs b) ≤ (unknowns b).length) :
    ((combos b).map (sel b)).Nodup ∧
    ((combos b).map (sel b)).toFinset =
      Finset.powersetCard (bombsRemain b (knownBombs b)) (unknowns b).toFinset := by
  constructor
  · apply List.Nodup.map_on _ (combos_nodup b hU)
    intro c hc d hd h
    exact sel_inj b c d (combos_valid b hU c hc).1 (combos_valid b hU d hd).1 h
  · ext S
    rw [List.mem_toFinset, List.mem_map, Finset.mem_powersetCard]
    constructor
    · rintro ⟨c, hc, rfl⟩
      obtain ⟨hv, hl⟩ := combos_valid b hU c hc
      exact ⟨sel_subset b c hv, by rw [sel_card b c hv, hl]⟩
    · rintro ⟨hS, hcard⟩
      obtain ⟨c, hv, rfl⟩ := sel_surj b S hS
      exact ⟨c, combos_complete b hU c hv (by rw [← sel_card b c hv, hcard]), rfl⟩

theorem cell_place (N : Nat) (S : Finset Nat) (i : Nat) (hi : i < N) :
    cell (place N S) i = if i ∈ S then 1 else 0 := by
  simp [cell, place, List.getD_eq_getElem?_getD, List.getElem?_range hi]

theorem placeOf_eq (b : Board) (c : List Nat) :
    placeOf b c = place (b.G_R * b.G_C).toNat ((knownBombs b).toFinset ∪ sel b c) := rfl

theorem place_union_inj (b : Board) (S T : Finset Nat) (hS : S ⊆ (unknowns b).toFinset)
    (hT : T ⊆ (unknowns b).toFinset)
    (h : place (b.G_R * b.G_C).toNat ((knownBombs b).toFinset ∪ S) =
      place (b.G_R * b.G_C).toNat ((knownBombs b).toFinset ∪ T)) : S = T := by
  have key : ∀ (A B : Finset Nat), A ⊆ (unknowns b).toFinset →
      place (b.G_R * b.G_C).toNat ((knownBombs b).toFinset ∪ A) =
        place (b.G_R * b.G_C).toNat ((knownBombs b).toFinset ∪ B) → A ⊆ B := by
    intro A B hA hAB x hx
    have hxu := (mem_unknowns b x).mp (List.mem_toFinset.mp (hA hx))
    have h1 := cell_place _ ((knownBombs b).toFinset ∪ A) x hxu.1
    have h2 := cell_place _ ((knownBombs b).toFinset ∪ B) x hxu.1
    rw [hAB, h2, if_pos (Finset.mem_union_right _ hx)] at h1
    by_contra hxB
    have hxk : x ∉ (knownBombs b).toFinset := by
      rw [List.mem_toFinset, mem_knownBombs]
      intro hk; omega
    rw [if_neg (by simp [hxk, hxB])] at h1
    exact absurd h1 (by decide)
  exact Finset.Subset.antisymm (key S T hS h) (key T S hT h.symm)

theorem placeOf_inj (b : Board) (c d : List Nat) (hc : ValidComb (unknowns b).length c)
    (hd : ValidComb (unknowns b).length d) (h : placeOf b c = placeOf b d) : c = d :=
  sel_inj b c d hc hd (place_union_inj b _ _ (sel_subset b c hc) (sel_subset b d hd) h)

/-- C2: on a board whose cell array has `rows*cols` entries and with `1 ≤ remaining ≤ U`, given
fuel for at least `C(U,remaining)` turns, `ms_solve_exact` returns, and the index vectors `comb`
it visited are in strictly increasing lexicographic order, are exactly the strictly increasing
vectors of length `remaining` with entries below `U` (each once), and number `C(U,remaining)`;
one placement is built from each and passed to `check_placement`, `C(U,remaining)` in all and
pairwise distinct. -/
theorem ms_solve_exact_visits_all_combinations (b : Board) (hb : b.sized) (fuel : Nat)
    (h1 : 1 ≤ bombsRemain b (knownBombs b))
    (hU : bombsRemain b (knownBombs b) ≤ (unknowns b).length)
    (hfuel : Nat.choose (unknowns b).length (bombsRemain b (knownBombs b)) ≤ fuel) :
    ∃ s, ms_solve_exact b fuel = .ok s ∧
      s.visited.Pairwise (List.Lex (· < ·)) ∧
      (∀ c, c ∈ s.visited ↔ c.length = bombsRemain b (knownBombs b) ∧ c.Sorted (· < ·) ∧
        ∀ x ∈ c, x < (unknowns b).length) ∧
      s.visited.Nodup ∧
      s.visited.length = Nat.choose (unknowns b).length (bombsRemain b (knownBombs b)) ∧
      s.evaluated = s.visited.map (placeOf b) ∧
      s.evaluated.length = Nat.choose (unknowns b).length (bombsRemain b (knownBombs b)) ∧
      s.evaluated.Nodup := by
  refine ⟨_, ms_solve_exact_ok b hb fuel h1 hU hfuel, combos_sorted b hU, mem_combos b hU,
    combos_nodup b hU, combos_length b hU, rfl, ?_, ?_⟩
  · simp only [List.length_map]; exact combos_length b hU
  · apply List.Nodup.map_on _ (combos_nodup b hU)
    intro c hc d hd h
    exact placeOf_inj b c d (combos_valid b hU c hc).1 (combos_valid b hU d hd).1 h

theorem ms_solve_exact_visits_all_combinations_witness :
    ∃ s, ms_solve_exact ⟨2, 2, 2, 10, [-1, -1, -1, -1]⟩ 6 = .ok s ∧
      s.visited.Pairwise (List.Lex (· < ·)) ∧
      (∀ c, c ∈ s.visited ↔ c.length = bombsRemain ⟨2, 2, 2, 10, [-1, -1, -1, -1]⟩
          (knownBombs ⟨2, 2, 2, 10, [-1, -1, -1, -1]⟩) ∧ c.Sorted (· < ·) ∧
        ∀ x ∈ c, x < (unknowns ⟨2, 2, 2, 10, [-1, -1, -1, -1]⟩).length) ∧
      s.visited.Nodup ∧
      s.visited.length = Nat.choose (unknowns ⟨2, 2, 2, 10, [-1, -1, -1, -1]⟩).length
        (bombsRemain ⟨2, 2, 2, 10, [-1, -1, -1, -1]⟩
          (knownBombs ⟨2, 2, 2, 10, [-1, -1, -1, -1]⟩)) ∧
      s.evaluated = s.visited.map (placeOf ⟨2, 2, 2, 10, [-1, -1, -1, -1]⟩) ∧
      s.evaluated.length = Nat.choose (unknowns ⟨2, 2, 2, 10, [-1, -1, -1, -1]⟩).length
        (bombsRemain ⟨2, 2, 2, 10, [-1, -1, -1, -1]⟩
          (knownBombs ⟨2, 2, 2, 10, [-1, -1, -1, -1]⟩)) ∧
      s.evaluated.Nodup :=
  ms_solve_exact_visits_all_combinations ⟨2, 2, 2, 10, [-1, -1, -1, -1]⟩ rfl 6
    (by decide) (by decide) (by decide)

/-! ## Counters of the exact solver -/



theorem countP_eq_card_filter {α : Type} [DecidableEq α] (L : List α) (hL : L.Nodup)
    (Q : α → Bool) : L.countP Q = (L.toFinset.filter (fun x => Q x = true)).card := by
  rw [List.countP_eq_length_filter, ← List.toFinset_card_of_nodup (hL.filter _),
    List.toFinset_filter]

theorem countP_combos (b : Board) (hU : bombsRemain b (knownBombs b) ≤ (unknowns b).length)
    (Q : Finset Nat → Bool) :
    (combos b).countP (fun c => Q (sel b c)) =
      ((Finset.powersetCard (bombsRemain b (knownBombs b)) (unknowns b).toFinset).filter
        (fun S => Q S = true)).card := by
  obtain ⟨hnd, hfs⟩ := combos_sel b hU
  rw [← hfs, ← countP_eq_card_filter _ hnd, List.countP_map]
  rfl

theorem countP_accepted (b : Board) (hU : bombsRemain b (knownBombs b) ≤ (unknowns b).length)
    (P : List Int → Bool) :
    (((combos b).map (placeOf b)).filter (accepts b)).countP P =
      ((Finset.powersetCard (bombsRemain b (knownBombs b)) (unknowns b).toFinset).filter
        (fun S => (accepts b (place (b.G_R * b.G_C).toNat ((knownBombs b).toFinset ∪ S)) &&
          P (place (b.G_R * b.G_C).toNat ((knownBombs b).toFinset ∪ S))) = true)).card := by
  rw [List.countP_filter, List.countP_map]
  rw [← countP_combos b hU (fun S =>
    accepts b (place (b.G_R * b.G_C).toNat ((knownBombs b).toFinset ∪ S)) &&
      P (place (b.G_R * b.G_C).toNat ((knownBombs b).toFinset ∪ S)))]
  apply List.countP_congr
  intro c _
  simp only [Function.comp, placeOf_eq, Bool.and_comm]

theorem length_accepted (b : Board) (hU : bombsRemain b (knownBombs b) ≤ (unknowns b).length) :
    (((combos b).map (placeOf b)).filter (accepts b)).length =
      ((Finset.powersetCard (bombsRemain b (knownBombs b)) (unknowns b).toFinset).filter
        (fun S => accepts b (place (b.G_R * b.G_C).toNat ((knownBombs b).toFinset ∪ S))
          = true)).card := by
  have := countP_accepted b hU (fun _ => true)
  simp only [Bool.and_true] at this
  rw [← this, List.countP_eq_length_filter]
  simp

theorem cell_hitsOf (N : Nat) (ps : List (List Int)) (i : Nat) (hi : i < N) :
    cell (hitsOf N ps) i = ps.countP (fun p => decide (cell p i ≠ 0)) := by
  simp [cell, hitsOf, List.getD_eq_getElem?_getD, List.getElem?_range hi]

theorem length_hitsOf (N : Nat) (ps : List (List Int)) : (hitsOf N ps).length = N := by
  simp [hitsOf]

theorem cell_out_probs (valid : Nat) (hit : List Nat) (i : Nat) (hi : i < hit.length) :
    cell (out_probs valid hit) i =
      if valid > 0 then ((cell hit i : Nat) : ℚ) / (valid : ℚ) else 0 := by
  simp [cell, out_probs, List.getD_eq_getElem?_getD, List.getElem?_eq_getElem hi]

theorem card_filter_image_place (b : Board) (P : List Int → Prop) [DecidablePred P] :
    ((candidatePlacements b).filter P).card =
      ((Finset.powersetCard (bombsRemain b (knownBombs b)) (unknowns b).toFinset).filter
        (fun S => P (place (b.G_R * b.G_C).toNat ((knownBombs b).toFinset ∪ S)))).card := by
  unfold candidatePlacements
  rw [Finset.filter_image, Finset.card_image_of_injOn]
  intro S hS T hT h
  have hS1 := (Finset.mem_powersetCard.mp (Finset.mem_filter.mp hS).1).1
  have hT1 := (Finset.mem_powersetCard.mp (Finset.mem_filter.mp hT).1).1
  exact place_union_inj b S T hS1 hT1 h

theorem check_placement_place (b : Board) (hb : b.sized) (S : Finset Nat) :
    (check_placement b (place (b.G_R * b.G_C).toNat S) = .ok true) ↔
      accepts b (place (b.G_R * b.G_C).toNat S) = true := by
  rw [check_placement_ok b _ hb (length_place _ _)]
  unfold accepts
  constructor
  · intro h; injection h
  · intro h; rw [h]

/-- C4: on a board whose cell array has `rows*cols` entries and with `1 ≤ remaining ≤ U`, given
fuel for at least `C(U,remaining)` turns, `ms_solve_exact` returns with `accepted = |A|`, where
`A` is the set of placements "KnownBomb cells plus a `remaining`-subset of the Unknown cells"
that `check_placement` accepts; for every cell `i`, `hit[i]` is the number of members of `A`
that mark `i` as bomb, and the output for `i` is `hit[i]/accepted` as a rational when `|A| > 0`
and `0` when `|A| = 0`. -/
theorem ms_solve_exact_counts_accepted (b : Board) (hb : b.sized) (fuel : Nat)
    (h1 : 1 ≤ bombsRemain b (knownBombs b))
    (hU : bombsRemain b (knownBombs b) ≤ (unknowns b).length)
    (hfuel : Nat.choose (unknowns b).length (bombsRemain b (knownBombs b)) ≤ fuel) :
    ∃ s, ms_solve_exact b fuel = .ok s ∧
      s.valid = (acceptedSet b).card ∧
      s.hit.length = (b.G_R * b.G_C).toNat ∧ s.out.length = (b.G_R * b.G_C).toNat ∧
      ∀ i, i < (b.G_R * b.G_C).toNat →
        cell s.hit i = ((acceptedSet b).filter (fun p => cell p i ≠ 0)).card ∧
        cell s.out i =
          if 0 < (acceptedSet b).card then
            (((acceptedSet b).filter (fun p => cell p i ≠ 0)).card : ℚ) / ((acceptedSet b).card : ℚ)
          else 0 := by
  have hvalid : (((combos b).map (placeOf b)).filter (accepts b)).length = (acceptedSet b).card := by
    rw [length_accepted b hU]
    unfold acceptedSet
    rw [card_filter_image_place]
    congr 1
    apply Finset.filter_congr
    intro S _
    exact (check_placement_place b hb _).symm
  have hhit : ∀ i, i < (b.G_R * b.G_C).toNat →
      cell (hitsOf (b.G_R * b.G_C).toNat (((combos b).map (placeOf b)).filter (accepts b))) i =
        ((acceptedSet b).filter (fun p => cell p i ≠ 0)).card := by
    intro i hi
    rw [cell_hitsOf _ _ _ hi, countP_accepted b hU]
    unfold acceptedSet
    rw [Finset.filter_filter, card_filter_image_place]
    congr 1
    apply Finset.filter_congr
    intro S _
    simp only [Bool.and_eq_true, decide_eq_true_eq, check_placement_place b hb]
  refine ⟨_, ms_solve_exact_ok b hb fuel h1 hU hfuel, hvalid, length_hitsOf _ _, ?_, ?_⟩
  · simp [out_probs, length_hitsOf]
  · intro i hi
    refine ⟨hhit i hi, ?_⟩
    show cell (out_probs _ _) i = _
    rw [cell_out_probs _ _ _ (by rw [length_hitsOf]; exact hi), hhit i hi, hvalid]

/-! ## Unconstrained boards -/

theorem ms_solve_exact_zero (b : Board) (hb : b.sized) (fuel : Nat)
    (h0 : bombsRemain b (knownBombs b) = 0) :
    ms_solve_exact b fuel = .ok
      { valid := 0, hit := List.replicate (b.G_R * b.G_C).toNat 0,
        out := out_probs 0 (List.replicate (b.G_R * b.G_C).toNat 0),
        visited := [], evaluated := [] } := by
  unfold ms_solve_exact
  simp only [sized_nonneg b hb, if_false]
  rw [classify_ok b hb]
  simp only [ok_bind]
  rw [if_pos h0]
  rfl

theorem card_powersetCard_filter_mem (T : Finset Nat) (i : Nat) (hi : i ∈ T) (k : Nat) :
    ((Finset.powersetCard (k + 1) T).filter (fun S => i ∈ S)).card =
      Nat.choose (T.card - 1) k := by
  have hsplit := Finset.filter_card_add_filter_neg_card_eq_card
    (s := Finset.powersetCard (k + 1) T) (fun S => i ∈ S)
  have hneg : (Finset.powersetCard (k + 1) T).filter (fun S => ¬ i ∈ S) =
      Finset.powersetCard (k + 1) (T.erase i) := by
    ext S
    simp only [Finset.mem_filter, Finset.mem_powersetCard, Finset.subset_erase]
    tauto
  rw [hneg, Finset.card_powersetCard, Finset.card_powersetCard, Finset.card_erase_of_mem hi]
    at hsplit
  have hpos : 0 < T.card := Finset.card_pos.mpr ⟨i, hi⟩
  obtain ⟨m, hm⟩ : ∃ m, T.card = m + 1 := ⟨T.card - 1, by omega⟩
  rw [hm] at hsplit ⊢
  simp only [Nat.add_sub_cancel] at hsplit ⊢
  rw [Nat.choose_succ_succ] at hsplit
  simp only [Nat.succ_eq_add_one] at hsplit
  omega

theorem knownBombs_unconstrained (b : Board)
    (hall : ∀ i, i < (b.G_R * b.G_C).toNat → cell b.revealed i = -1) : knownBombs b = [] := by
  unfold knownBombs
  rw [List.filter_eq_nil_iff]
  intro i hi
  rw [hall i (List.mem_range.mp hi)]
  decide

theorem unknowns_unconstrained (b : Board)
    (hall : ∀ i, i < (b.G_R * b.G_C).toNat → cell b.revealed i = -1) :
    unknowns b = List.range (b.G_R * b.G_C).toNat := by
  unfold unknowns
  rw [List.filter_eq_self]
  intro i hi
  rw [hall i (List.mem_range.mp hi)]
  decide

theorem accepts_unconstrained (b : Board)
    (hall : ∀ i, i < (b.G_R * b.G_C).toNat → cell b.revealed i = -1) (p : List Int) :
    accepts b p = true := by
  unfold accepts
  rw [List.all_eq_true]
  intro i hi
  unfold cellOk
  simp only [hall i (List.mem_range.mp hi)]
  rw [if_neg (by decide), if_neg (by decide)]

/-- The unconstrained board in general: on a board with `n = rows*cols ≥ 1` cells, all Unknown,
and `totalBombs = k` with `0 ≤ k ≤ n`, given fuel for at least `C(n,k)` turns, `ms_solve_exact`
returns; for every cell `hit[i] * n = k * accepted` and the output, as the exact rational of the
counters, is `k/n`; and when `k ≥ 1`, `accepted = C(n,k)` and `hit[i] = C(n-1,k-1)`.  At `k = 0`
the enumeration loop is not entered and `accepted` is `0`, not `C(n,0)`. -/
theorem ms_solve_exact_unconstrained (b : Board) (hb : b.sized) (n k : Nat)
    (hn : (b.G_R * b.G_C).toNat = n) (hn1 : 1 ≤ n)
    (hall : ∀ i, i < n → cell b.revealed i = -1) (hk : b.G_B = (k : Int)) (hkn : k ≤ n)
    (fuel : Nat) (hfuel : Nat.choose n k ≤ fuel) :
    ∃ s, ms_solve_exact b fuel = .ok s ∧ s.hit.length = n ∧ s.out.length = n ∧
      (∀ i, i < n → cell s.hit i * n = k * s.valid ∧ cell s.out i = (k : ℚ) / (n : ℚ)) ∧
      (1 ≤ k → s.valid = Nat.choose n k ∧ ∀ i, i < n → cell s.hit i = Nat.choose (n - 1) (k - 1)) := by
  subst hn
  have hKB := knownBombs_unconstrained b hall
  have hUN := unknowns_unconstrained b hall
  have hr : bombsRemain b (knownBombs b) = k := by
    rw [hKB, bombsRemain_of_ge b [] (by rw [hk]; simp; omega), hk]; simp
  have hUlen : (unknowns b).length = (b.G_R * b.G_C).toNat := by rw [hUN, List.length_range]
  rcases Nat.eq_zero_or_pos k with hk0 | hkpos
  · subst hk0
    refine ⟨_, ms_solve_exact_zero b hb fuel hr, by simp, by simp [out_probs], ?_, ?_⟩
    · intro i hi
      have hc : cell (List.replicate (b.G_R * b.G_C).toNat (0 : Nat)) i = 0 := by
        simp [cell, List.getD_eq_getElem?_getD, List.getElem?_replicate, hi]
      refine ⟨by simp [hc], ?_⟩
      show cell (out_probs 0 _) i = _
      rw [cell_out_probs _ _ _ (by simpa using hi)]
      simp
    · intro h; omega
  · have h1 : 1 ≤ bombsRemain b (knownBombs b) := by omega
    have hU : bombsRemain b (knownBombs b) ≤ (unknowns b).length := by omega
    have hvalid : (((combos b).map (placeOf b)).filter (accepts b)).length =
        Nat.choose (b.G_R * b.G_C).toNat k := by
      rw [length_accepted b hU, Finset.filter_true_of_mem (fun S _ => accepts_unconstrained b hall _),
        Finset.card_powersetCard, List.toFinset_card_of_nodup (unknowns_nodup b), hUlen, hr]
    have hhit : ∀ i, i < (b.G_R * b.G_C).toNat →
        cell (hitsOf (b.G_R * b.G_C).toNat (((combos b).map (placeOf b)).filter (accepts b))) i =
          Nat.choose ((b.G_R * b.G_C).toNat - 1) (k - 1) := by
      intro i hi
      rw [cell_hitsOf _ _ _ hi, countP_accepted b hU]
      have hiT : i ∈ (unknowns b).toFinset := by
        rw [List.mem_toFinset, hUN]; exact List.mem_range.mpr hi
      have hcard := card_powersetCard_filter_mem (unknowns b).toFinset i hiT (k - 1)
      rw [List.toFinset_card_of_nodup (unknowns_nodup b), hUlen] at hcard
      have hk1 : k - 1 + 1 = k := by omega
      rw [hk1] at hcard
      rw [← hcard, hr]
      congr 1
      apply Finset.filter_congr
      intro S _
      rw [accepts_unconstrained b hall, hKB, cell_place _ _ _ hi]
      by_cases hS : i ∈ S <;> simp [hS]
    have hmul : Nat.choose ((b.G_R * b.G_C).toNat - 1) (k - 1) * (b.G_R * b.G_C).toNat =
        k * Nat.choose (b.G_R * b.G_C).toNat k := by
      obtain ⟨m, hm⟩ : ∃ m, (b.G_R * b.G_C).toNat = m + 1 := ⟨_, (Nat.sub_add_cancel hn1).symm⟩
      obtain ⟨j, hj⟩ : ∃ j, k = j + 1 := ⟨_, (Nat.sub_add_cancel hkpos).symm⟩
      rw [hm, hj]
      simp only [Nat.add_sub_cancel]
      have := Nat.succ_mul_choose_eq m j
      simp only [Nat.succ_eq_add_one] at this
      linarith
    have hch : 0 < Nat.choose (b.G_R * b.G_C).toNat k := Nat.choose_pos hkn
    refine ⟨_, ms_solve_exact_ok b hb fuel h1 hU (by rw [hUlen, hr]; exact hfuel),
      length_hitsOf _ _, by simp [out_probs, length_hitsOf], ?_, ?_⟩
    · intro i hi
      refine ⟨?_, ?_⟩
      · show cell (hitsOf _ _) i * _ = k * (List.filter _ _).length
        rw [hhit i hi, hvalid, hmul]
      · show cell (out_probs _ _) i = _
        rw [cell_out_probs _ _ _ (by rw [length_hitsOf]; exact hi), hhit i hi, hvalid, if_pos hch]
        have hq : ((Nat.choose ((b.G_R * b.G_C).toNat - 1) (k - 1) : Nat) : ℚ) *
            ((b.G_R * b.G_C).toNat : ℚ) = (k : ℚ) * (Nat.choose (b.G_R * b.G_C).toNat k : ℚ) := by
          exact_mod_cast hmul
        have hn0 : ((b.G_R * b.G_C).toNat : ℚ) ≠ 0 := by
          have : (0 : ℚ) < ((b.G_R * b.G_C).toNat : ℚ) := by exact_mod_cast hn1
          exact ne_of_gt this
        have hc0 : (Nat.choose (b.G_R * b.G_C).toNat k : ℚ) ≠ 0 := by
          have : (0 : ℚ) < (Nat.choose (b.G_R * b.G_C).toNat k : ℚ) := by exact_mod_cast hch
          exact ne_of_gt this
        rw [div_eq_div_iff hc0 hn0]
        exact hq
    · intro _
      exact ⟨hvalid, hhit⟩

theorem ms_solve_exact_unconstrained_witness :
    ∃ s, ms_solve_exact ⟨2, 2, 1, 10, [-1, -1, -1, -1]⟩ 4 = .ok s ∧ s.hit.length = 4 ∧
      s.out.length = 4 ∧
      (∀ i, i < 4 → cell s.hit i * 4 = 1 * s.valid ∧ cell s.out i = ((1 : Nat) : ℚ) / ((4 : Nat) : ℚ)) ∧
      (1 ≤ 1 → s.valid = Nat.choose 4 1 ∧ ∀ i, i < 4 → cell s.hit i = Nat.choose (4 - 1) (1 - 1)) :=
  ms_solve_exact_unconstrained ⟨2, 2, 1, 10, [-1, -1, -1, -1]⟩ rfl 4 1 rfl (by decide)
    (by decide) rfl (by decide) 4 (by decide)

theorem ms_solve_exact_counts_accepted_witness :
    ∃ s, ms_solve_exact ⟨2, 2, 1, 10, [-1, 0, -1, -1]⟩ 3 = .ok s ∧
      s.valid = (acceptedSet ⟨2, 2, 1, 10, [-1, 0, -1, -1]⟩).card ∧
      s.hit.length = 4 ∧ s.out.length = 4 ∧
      ∀ i, i < 4 →
        cell s.hit i = ((acceptedSet ⟨2, 2, 1, 10, [-1, 0, -1, -1]⟩).filter
          (fun p => cell p i ≠ 0)).card ∧
        cell s.out i =
          if 0 < (acceptedSet ⟨2, 2, 1, 10, [-1, 0, -1, -1]⟩).card then
            (((acceptedSet ⟨2, 2, 1, 10, [-1, 0, -1, -1]⟩).filter
              (fun p => cell p i ≠ 0)).card : ℚ) /
              ((acceptedSet ⟨2, 2, 1, 10, [-1, 0, -1, -1]⟩).card : ℚ)
          else 0 :=
  ms_solve_exact_counts_accepted ⟨2, 2, 1, 10, [-1, 0, -1, -1]⟩ rfl 3
    (by decide) (by decide) (by decide)

/-! ## Closed form of the Monte Carlo solver -/

theorem mcTrial_ok (b : Board) (hb : b.sized) (shuffled : Nat → List Nat) (s : McState)
    (iter : Nat) (hu : ∀ u ∈ shuffled iter, u < (b.G_R * b.G_C).toNat) :
    mcTrial b (knownBombs b) (bombsRemain b (knownBombs b)) (b.G_R * b.G_C).toNat shuffled s iter
      = .ok (mcTally b s (mcPlace b (shuffled iter))) := by
  unfold mcTrial
  rw [markFixed_ok _ _ (fun i hi => ((mem_knownBombs b i).mp hi).1)]
  simp only [ok_bind]
  rw [foldlM_markShuffled (shuffled iter) _ _
    (fun k hk => by have := List.mem_range.mp hk; omega)
    (fun u h => by rw [length_place]; exact hu u h)]
  simp only [ok_bind]
  rw [map_cell_range_min, mark_place]
  change (check_placement b (mcPlace b (shuffled iter)) >>= _) = _
  rw [check_placement_ok b (mcPlace b (shuffled iter)) hb (length_place _ _)]
  simp only [ok_bind]
  unfold mcTally accepts
  split <;> rfl

theorem mcTally_inv (b : Board) (s : McState) (p : List Int)
    (hp : p.length = (b.G_R * b.G_C).toNat) (h : McInv b s) : McInv b (mcTally b s p) := by
  unfold mcTally McInv
  cases hacc : accepts b p
  · simp only [Bool.false_eq_true, if_false, List.filter_append, List.filter_cons, hacc,
      List.filter_nil, List.append_nil]
    exact h
  · simp only [if_true, List.filter_append, List.filter_cons, hacc, List.filter_nil,
      List.length_append, List.length_singleton]
    refine ⟨by rw [h.1], ?_⟩
    rw [h.2, bump_hitsOf _ _ p hp]

theorem mcLoop_ok (b : Board) (hb : b.sized) (shuffled : Nat → List Nat) :
    ∀ (n : Nat) (s : McState), (∀ k, k < n → ∀ u ∈ shuffled k, u < (b.G_R * b.G_C).toNat) →
    McInv b s →
    ∃ s2, (List.range n).foldlM
        (mcTrial b (knownBombs b) (bombsRemain b (knownBombs b)) (b.G_R * b.G_C).toNat shuffled) s
        = .ok s2 ∧ McInv b s2 ∧
      s2.evaluated = s.evaluated ++ (List.range n).map (fun k => mcPlace b (shuffled k))
  | 0, s, _, h => ⟨s, rfl, h, by simp⟩
  | n + 1, s, hu, h => by
    obtain ⟨s1, e1, e2, e3⟩ := mcLoop_ok b hb shuffled n s (fun k hk => hu k (by omega)) h
    refine ⟨mcTally b s1 (mcPlace b (shuffled n)), ?_, mcTally_inv b s1 _ (length_place _ _) e2, ?_⟩
    · rw [List.range_succ, List.foldlM_append, e1]
      simp only [ok_bind, List.foldlM_cons, List.foldlM_nil]
      rw [mcTrial_ok b hb shuffled s1 n (hu n (by omega))]
      rfl
    · rw [List.range_succ, List.map_append, ← List.append_assoc, ← e3]
      unfold mcTally
      split <;> simp

/-- Closed form of `ms_solve` when every shuffle outcome lists cells of the board. -/
theorem ms_solve_ok (b : Board) (hb : b.sized) (shuffled : Nat → List Nat)
    (hu : ∀ k, k < b.G_SAMPLES.toNat → ∀ u ∈ shuffled k, u < (b.G_R * b.G_C).toNat) :
    ms_solve b shuffled = .ok
      { valid := ((mcPlacements b shuffled).filter (accepts b)).length,
        hit := hitsOf (b.G_R * b.G_C).toNat ((mcPlacements b shuffled).filter (accepts b)),
        out := out_probs ((mcPlacements b shuffled).filter (accepts b)).length
          (hitsOf (b.G_R * b.G_C).toNat ((mcPlacements b shuffled).filter (accepts b))),
        visited := [],
        evaluated := mcPlacements b shuffled } := by
  unfold ms_solve
  simp only [sized_nonneg b hb, if_false]
  rw [classify_ok b hb]
  simp only [ok_bind]
  obtain ⟨s2, e1, ⟨i1, i2⟩, e3⟩ := mcLoop_ok b hb shuffled b.G_SAMPLES.toNat
    { valid := 0, hit := List.replicate (b.G_R * b.G_C).toNat 0, evaluated := [] } hu
    ⟨by simp, by simp [hitsOf_nil]⟩
  rw [e1]
  simp only [ok_bind, pure_eq_ok, List.nil_append] at e3 ⊢
  unfold mcPlacements
  rw [← e3, ← i1, ← i2]

theorem perm_unknowns_lt (b : Board) (l : List Nat) (hl : l.Perm (unknowns b)) :
    ∀ u ∈ l, u < (b.G_R * b.G_C).toNat :=
  fun u hu => ((mem_unknowns b u).mp (hl.mem_iff.mp hu)).1

theorem bombCount_place (N : Nat) (S : Finset Nat) (hS : ∀ x ∈ S, x < N) :
    bombCount (place N S) = S.card := by
  unfold bombCount place
  rw [List.countP_map, List.countP_eq_length_filter,
    ← List.toFinset_card_of_nodup ((List.nodup_range N).filter _)]
  congr 1
  ext x
  simp only [List.mem_toFinset, List.mem_filter, List.mem_range, Function.comp]
  constructor
  · rintro ⟨_, h⟩
    by_contra hx
    simp [hx] at h
  · intro hx
    exact ⟨hS x hx, by simp [hx]⟩

theorem card_known_union (b : Board) (T : Finset Nat) (hT : T ⊆ (unknowns b).toFinset) :
    ((knownBombs b).toFinset ∪ T).card = (knownBombs b).length + T.card := by
  rw [Finset.card_union_of_disjoint, List.toFinset_card_of_nodup (knownBombs_nodup b)]
  rw [Finset.disjoint_left]
  intro x hx hxT
  have h1 := (mem_knownBombs b x).mp (List.mem_toFinset.mp hx)
  have h2 := (mem_unknowns b x).mp (List.mem_toFinset.mp (hT hxT))
  omega

theorem bombCount_placeOf (b : Board) (c : List Nat) (hv : ValidComb (unknowns b).length c) :
    bombCount (placeOf b c) = (knownBombs b).length + c.length := by
  rw [placeOf_eq, bombCount_place, card_known_union b _ (sel_subset b c hv), sel_card b c hv]
  intro x hx
  rcases Finset.mem_union.mp hx with h | h
  · exact ((mem_knownBombs b x).mp (List.mem_toFinset.mp h)).1
  · exact ((mem_unknowns b x).mp (List.mem_toFinset.mp (sel_subset b c hv h))).1

theorem bombCount_mcPlace (b : Board) (l : List Nat) (hl : l.Perm (unknowns b)) :
    bombCount (mcPlace b l) =
      (knownBombs b).length + min (bombsRemain b (knownBombs b)) (unknowns b).length := by
  have hsub : (l.take (bombsRemain b (knownBombs b))).toFinset ⊆ (unknowns b).toFinset := by
    intro x hx
    rw [List.mem_toFinset] at hx ⊢
    exact hl.mem_iff.mp (List.mem_of_mem_take hx)
  have hnd : (l.take (bombsRemain b (knownBombs b))).Nodup :=
    ((hl.nodup_iff).mpr (unknowns_nodup b)).sublist (List.take_sublist _ _)
  unfold mcPlace
  rw [bombCount_place, card_known_union b _ hsub, List.toFinset_card_of_nodup hnd,
    List.length_take, hl.length_eq]
  intro x hx
  rcases Finset.mem_union.mp hx with h | h
  · exact ((mem_knownBombs b x).mp (List.mem_toFinset.mp h)).1
  · exact ((mem_unknowns b x).mp (List.mem_toFinset.mp (hsub h))).1

/-! ## Well-formed placements and the infeasible 3x3 board -/

/-- C8 (counterexample): `ms_solve` passes to `check_placement` a placement whose number of bombs
differs from `totalBombs`: on the 1x2 board with `bombs=0` and a KnownBomb cell the placement
`[1,0]` has one bomb (`remaining` is clamped to `0`), and on the 1x1 board with `bombs=2` the
placement `[1]` has one bomb (only one Unknown cell can be marked). -/
theorem ms_solve_ill_formed_placement :
    (∃ s, ms_solve ⟨1, 2, 0, 1, [5, -1]⟩ (fun _ => [1]) = .ok s ∧ [1, 0] ∈ s.evaluated ∧
      (bombCount [1, 0] : Int) ≠ (⟨1, 2, 0, 1, [5, -1]⟩ : Board).G_B) ∧
    (∃ s, ms_solve ⟨1, 1, 2, 1, [-1]⟩ (fun _ => [0]) = .ok s ∧ [1] ∈ s.evaluated ∧
      (bombCount [1] : Int) ≠ (⟨1, 1, 2, 1, [-1]⟩ : Board).G_B) := by
  refine ⟨⟨⟨1, [1, 0], out_probs 1 [1, 0], [], [[1, 0]]⟩, rfl, by simp, by decide⟩,
    ⟨⟨1, [1], out_probs 1 [1], [], [[1]]⟩, rfl, by simp, by decide⟩⟩

/-- C8 (amended): on a board whose cell array has `rows*cols` entries and with
`|KnownBomb| ≤ totalBombs ≤ |KnownBomb| + U`, every placement that `ms_solve` (for every
sequence of shuffle outcomes that are permutations of the Unknown cells) and `ms_solve_exact`
(given fuel for `C(U,remaining)` turns) pass to `check_placement` has exactly `totalBombs`
bomb cells; both solvers return, and `ms_solve` builds one placement per trial. -/
theorem solvers_build_well_formed_placements (b : Board) (hb : b.sized)
    (hlo : ((knownBombs b).length : Int) ≤ b.G_B)
    (hhi : b.G_B ≤ ((knownBombs b).length : Int) + ((unknowns b).length : Int))
    (shuffled : Nat → List Nat) (hperm : ∀ k, (shuffled k).Perm (unknowns b))
    (fuel : Nat)
    (hfuel : Nat.choose (unknowns b).length (bombsRemain b (knownBombs b)) ≤ fuel) :
    (∃ s, ms_solve b shuffled = .ok s ∧ s.evaluated.length = b.G_SAMPLES.toNat ∧
      ∀ p ∈ s.evaluated, (bombCount p : Int) = b.G_B) ∧
    (∃ s, ms_solve_exact b fuel = .ok s ∧ ∀ p ∈ s.evaluated, (bombCount p : Int) = b.G_B) := by
  have hr : ((knownBombs b).length : Int) + (bombsRemain b (knownBombs b) : Int) = b.G_B := by
    rw [bombsRemain_of_ge b _ (by omega)]; omega
  have hU : bombsRemain b (knownBombs b) ≤ (unknowns b).length := by
    rw [bombsRemain_of_ge b _ (by omega)]; omega
  constructor
  · refine ⟨_, ms_solve_ok b hb shuffled (fun k _ => perm_unknowns_lt b _ (hperm k)), ?_, ?_⟩
    · simp [mcPlacements]
    · intro p hp
      simp only [mcPlacements, List.mem_map, List.mem_range] at hp
      obtain ⟨k, _, rfl⟩ := hp
      rw [bombCount_mcPlace b _ (hperm k), Nat.min_eq_left hU]
      push_cast
      exact hr
  · rcases Nat.eq_zero_or_pos (bombsRemain b (knownBombs b)) with h0 | hpos
    · exact ⟨_, ms_solve_exact_zero b hb fuel h0, by simp⟩
    · refine ⟨_, ms_solve_exact_ok b hb fuel hpos hU hfuel, ?_⟩
      intro p hp
      simp only [List.mem_map] at hp
      obtain ⟨c, hc, rfl⟩ := hp
      obtain ⟨hv, hl⟩ := combos_valid b hU c hc
      rw [bombCount_placeOf b c hv, hl]
      push_cast
      exact hr

theorem solvers_build_well_formed_placements_witness :
    (∃ s, ms_solve ⟨2, 2, 2, 3, [5, -1, 1, -1]⟩ (fun _ => [3, 1]) = .ok s ∧
      s.evaluated.length = 3 ∧ ∀ p ∈ s.evaluated, (bombCount p : Int) = 2) ∧
    (∃ s, ms_solve_exact ⟨2, 2, 2, 3, [5, -1, 1, -1]⟩ 2 = .ok s ∧
      ∀ p ∈ s.evaluated, (bombCount p : Int) = 2) :=
  solvers_build_well_formed_placements ⟨2, 2, 2, 3, [5, -1, 1, -1]⟩ rfl (by decide) (by decide)
    (fun _ => [3, 1]) (fun _ => (by decide : [3, 1].Perm (unknowns ⟨2, 2, 2, 3, [5, -1, 1, -1]⟩))) 2 (by decide)

theorem accepts_3x3_single (n : Int) (u : Nat) (hu : u ∈ [0, 1, 2, 3, 5, 6, 7, 8]) :
    accepts ⟨3, 3, 1, n, [-1, -1, -1, -1, 0, -1, -1, -1, -1]⟩
      (place 9 (∅ ∪ [u].toFinset)) = false := by
  simp only [List.mem_cons, List.mem_singleton, List.not_mem_nil, or_false] at hu
  rcases hu with h | h | h | h | h | h | h | h <;> subst h <;> rfl

/-- C6: on the 3x3 board with `bombs=1`, cell `(1,1)` set to hint bucket `0` and the other eight
cells Unknown, for every sample count `n`: `ms_solve_exact` (given fuel for at least 8 turns)
evaluates the 8 single-bomb placements, accepts none and outputs all zeros; and `ms_solve`, for
every sequence of shuffle outcomes that are permutations of the Unknown cells, accepts no trial
and outputs all zeros. -/
theorem infeasible_3x3_board (n : Int) (fuel : Nat) (hfuel : 8 ≤ fuel)
    (shuffled : Nat → List Nat) (hperm : ∀ k, (shuffled k).Perm [0, 1, 2, 3, 5, 6, 7, 8]) :
    ms_solve_exact ⟨3, 3, 1, n, [-1, -1, -1, -1, 0, -1, -1, -1, -1]⟩ fuel = .ok
      { valid := 0, hit := [0, 0, 0, 0, 0, 0, 0, 0, 0], out := [0, 0, 0, 0, 0, 0, 0, 0, 0],
        visited := [[0], [1], [2], [3], [4], [5], [6], [7]],
        evaluated := [[1, 0, 0, 0, 0, 0, 0, 0, 0], [0, 1, 0, 0, 0, 0, 0, 0, 0],
                      [0, 0, 1, 0, 0, 0, 0, 0, 0], [0, 0, 0, 1, 0, 0, 0, 0, 0],
                      [0, 0, 0, 0, 0, 1, 0, 0, 0], [0, 0, 0, 0, 0, 0, 1, 0, 0],
                      [0, 0, 0, 0, 0, 0, 0, 1, 0], [0, 0, 0, 0, 0, 0, 0, 0, 1]] } ∧
    ∃ s, ms_solve ⟨3, 3, 1, n, [-1, -1, -1, -1, 0, -1, -1, -1, -1]⟩ shuffled = .ok s ∧
      s.valid = 0 ∧ s.hit = [0, 0, 0, 0, 0, 0, 0, 0, 0] ∧
      s.out = [0, 0, 0, 0, 0, 0, 0, 0, 0] ∧ s.evaluated.length = n.toNat := by
  constructor
  · obtain ⟨m, rfl⟩ : ∃ m, fuel = m + 8 := ⟨fuel - 8, by omega⟩
    rfl
  · have hfil : (mcPlacements ⟨3, 3, 1, n, [-1, -1, -1, -1, 0, -1, -1, -1, -1]⟩ shuffled).filter
        (accepts ⟨3, 3, 1, n, [-1, -1, -1, -1, 0, -1, -1, -1, -1]⟩) = [] := by
      rw [List.filter_eq_nil_iff]
      intro p hp
      simp only [mcPlacements, List.mem_map, List.mem_range] at hp
      obtain ⟨k, _, rfl⟩ := hp
      have hk := hperm k
      cases hs : shuffled k with
      | nil => rw [hs] at hk; exact absurd hk.length_eq (by decide)
      | cons u rest =>
        have hu : u ∈ [0, 1, 2, 3, 5, 6, 7, 8] :=
          hk.mem_iff.mp (by rw [hs]; exact List.mem_cons_self _ _)
        have := accepts_3x3_single n u hu
        simp only [Bool.not_eq_true]
        exact this
    refine ⟨_, ms_solve_ok ⟨3, 3, 1, n, [-1, -1, -1, -1, 0, -1, -1, -1, -1]⟩ rfl shuffled
      (fun k _ => perm_unknowns_lt ⟨3, 3, 1, n, [-1, -1, -1, -1, 0, -1, -1, -1, -1]⟩ _ (hperm k)),
      ?_, ?_, ?_, ?_⟩
    · show (List.filter _ _).length = 0
      rw [hfil]; rfl
    · show hitsOf _ (List.filter _ _) = _
      rw [hfil]; rfl
    · show out_probs _ (hitsOf _ (List.filter _ _)) = _
      rw [hfil]; rfl
    · simp [mcPlacements]

theorem infeasible_3x3_board_witness :
    ms_solve_exact ⟨3, 3, 1, 2, [-1, -1, -1, -1, 0, -1, -1, -1, -1]⟩ 8 = .ok
      { valid := 0, hit := [0, 0, 0, 0, 0, 0, 0, 0, 0], out := [0, 0, 0, 0, 0, 0, 0, 0, 0],
        visited := [[0], [1], [2], [3], [4], [5], [6], [7]],
        evaluated := [[1, 0, 0, 0, 0, 0, 0, 0, 0], [0, 1, 0, 0, 0, 0, 0, 0, 0],
                      [0, 0, 1, 0, 0, 0, 0, 0, 0], [0, 0, 0, 1, 0, 0, 0, 0, 0],
                      [0, 0, 0, 0, 0, 1, 0, 0, 0], [0, 0, 0, 0, 0, 0, 1, 0, 0],
                      [0, 0, 0, 0, 0, 0, 0, 1, 0], [0, 0, 0, 0, 0, 0, 0, 0, 1]] } ∧
    ∃ s, ms_solve ⟨3, 3, 1, 2, [-1, -1, -1, -1, 0, -1, -1, -1, -1]⟩
        (fun _ => [0, 1, 2, 3, 5, 6, 7, 8]) = .ok s ∧
      s.valid = 0 ∧ s.hit = [0, 0, 0, 0, 0, 0, 0, 0, 0] ∧
      s.out = [0, 0, 0, 0, 0, 0, 0, 0, 0] ∧ s.evaluated.length = (2 : Int).toNat :=
  infeasible_3x3_board 2 8 (by decide) (fun _ => [0, 1, 2, 3, 5, 6, 7, 8])
    (fun _ => List.Perm.refl _)

/-! ## The binary32 output -/

theorem pow_floorLog2_le (fuel n : Nat) (hn : 1 ≤ n) : 2 ^ floorLog2 fuel n ≤ n := by
  induction fuel generalizing n with
  | zero => simpa [floorLog2] using hn
  | succ f ih =>
    unfold floorLog2
    split
    · have h2 : 1 ≤ n / 2 := by omega
      have := ih (n / 2) h2
      rw [pow_succ]
      omega
    · simpa using hn

theorem f32_of_nat_zero : f32_of_nat 0 = 0 := by decide

theorem f32_of_nat_pos (v : Nat) (hv : 0 < v) : 0 < f32_of_nat v := by
  unfold f32_of_nat
  have hle : 2 ^ (floorLog2 v v - 23) ≤ v :=
    le_trans (Nat.pow_le_pow_right (by decide) (Nat.sub_le _ _)) (pow_floorLog2_le v v hv)
  have hpos : 0 < 2 ^ (floorLog2 v v - 23) := Nat.pow_pos (by decide)
  have hq : 1 ≤ v / 2 ^ (floorLog2 v v - 23) := (Nat.one_le_div_iff hpos).mpr hle
  have hr : 1 ≤ roundHalfEven v (2 ^ (floorLog2 v v - 23)) := by
    unfold roundHalfEven
    split <;> omega
  exact Nat.mul_pos hr hpos

theorem f32_div_zero (b : Nat) : f32_div 0 b = 0 := by
  simp [f32_div]

/-- A float divided by itself is exactly `1`. -/
theorem f32_div_self (a : Nat) (ha : 0 < a) : f32_div a a = 1 := by
  have hs : quotShift a a = 23 + floorLog2 a a := by simp [quotShift]
  have h1 : quotShift a a - floorLog2 a a = 23 := by omega
  have h2 : floorLog2 a a - quotShift a a = 0 := by omega
  have hm : quotSignificand a a = 2 ^ 23 := by
    unfold quotSignificand roundHalfEven
    rw [h1, h2, pow_zero, mul_one, Nat.mul_mod_right, Nat.mul_div_right _ ha]
    rw [if_neg]
    rintro (h | ⟨h, _⟩) <;> omega
  unfold f32_div
  rw [if_neg (by omega), hm, h1, h2]
  norm_num

theorem length_out_f32 (valid : Nat) (hit : List Nat) : (out_f32 valid hit).length = hit.length := by
  simp [out_f32]

theorem cell_out_f32 (valid : Nat) (hit : List Nat) (i : Nat) (hi : i < hit.length) :
    cell (out_f32 valid hit) i =
      if valid > 0 then f32_div (f32_of_nat (cell hit i)) (f32_of_nat valid) else 0 := by
  simp [cell, out_f32, List.getD_eq_getElem?_getD, List.getElem?_eq_getElem hi]

/-- The stored output of a cell whose hit counter is `0` is `0`. -/
theorem cell_out_f32_zero (valid : Nat) (hit : List Nat) (i : Nat) (hi : i < hit.length)
    (h0 : cell hit i = 0) : cell (out_f32 valid hit) i = 0 := by
  rw [cell_out_f32 _ _ _ hi, h0, f32_of_nat_zero, f32_div_zero]
  simp

/-- The stored output of a cell whose hit counter equals `valid > 0` is `1`. -/
theorem cell_out_f32_one (valid : Nat) (hit : List Nat) (i : Nat) (hi : i < hit.length)
    (hv : 0 < valid) (h : cell hit i = valid) : cell (out_f32 valid hit) i = 1 := by
  rw [cell_out_f32 _ _ _ hi, h, if_pos hv, f32_div_self _ (f32_of_nat_pos _ hv)]

/-- Counters below `2^24` convert to `float` without rounding. -/
theorem f32_of_nat_exact (h : Nat) (hh : h < 16777216) : f32_of_nat h = h := by
  rcases Nat.eq_zero_or_pos h with h0 | hpos
  · subst h0; decide
  · have hle := pow_floorLog2_le h h hpos
    have hlt : 2 ^ floorLog2 h h < 2 ^ 24 := lt_of_le_of_lt hle (by norm_num; exact hh)
    have hL : floorLog2 h h < 24 := (Nat.pow_lt_pow_iff_right (by decide)).mp hlt
    have hk : floorLog2 h h - 23 = 0 := by omega
    unfold f32_of_nat roundHalfEven
    simp [hk, Nat.mod_one]

/-- `roundHalfEven n d` is an integer nearest to `n / d`. -/
theorem roundHalfEven_nearest (n d : Nat) (hd : 0 < d) :
    2 * n ≤ 2 * (d * roundHalfEven n d) + d ∧ 2 * (d * roundHalfEven n d) ≤ 2 * n + d := by
  have hdm := Nat.div_add_mod n d
  have hml := Nat.mod_lt n hd
  unfold roundHalfEven
  generalize n / d = q at *
  generalize n % d = r at *
  split
  · rename_i hc
    rw [Nat.mul_add, Nat.mul_one]
    omega
  · rename_i hc
    omega

theorem lt_pow_floorLog2 (fuel n : Nat) (hn : n ≤ fuel) : n < 2 ^ (floorLog2 fuel n + 1) := by
  induction fuel generalizing n with
  | zero =>
    have : n = 0 := by omega
    subst this
    simp [floorLog2]
  | succ f ih =>
    unfold floorLog2
    split
    · have h2 : n / 2 ≤ f := by omega
      have := ih (n / 2) h2
      rw [pow_succ]
      omega
    · simp only [zero_add, pow_one]
      omega

/-- The scaled quotient lies in the range of a 24-bit significand: with `s = quotShift a b`,
`2^23 ≤ (a / b) * 2^s / 2^(floorLog2 a) < 2^24`. -/
theorem quotShift_spec (a b : Nat) (ha : 0 < a) (hb : 0 < b) :
    2 ^ 23 * (b * 2 ^ floorLog2 a a) ≤ a * 2 ^ quotShift a b ∧
    a * 2 ^ quotShift a b < 2 ^ 24 * (b * 2 ^ floorLog2 a a) := by
  have hP := pow_floorLog2_le a a ha
  have hP2 := lt_pow_floorLog2 a a (le_refl a)
  have hQ := pow_floorLog2_le b b hb
  have hQ2 := lt_pow_floorLog2 b b (le_refl b)
  rw [pow_succ] at hP2 hQ2
  unfold quotShift
  generalize 2 ^ floorLog2 a a = P at *
  split
  · rename_i h
    rw [Nat.add_zero, pow_add]
    generalize 2 ^ floorLog2 b b = Q at *
    constructor
    · nlinarith
    · nlinarith
  · rename_i h
    rw [pow_add, pow_add, pow_one]
    generalize 2 ^ floorLog2 b b = Q at *
    constructor
    · nlinarith
    · nlinarith

/-- The scaled quotient `n / d` rounded by `quotSignificand` lies between `2^23` and `2^24`. -/
theorem quotScaled_range (a b : Nat) (ha : 0 < a) (hb : 0 < b) :
    2 ^ 23 * (b * 2 ^ (floorLog2 a a - quotShift a b)) ≤ a * 2 ^ (quotShift a b - floorLog2 a a) ∧
    a * 2 ^ (quotShift a b - floorLog2 a a) < 2 ^ 24 * (b * 2 ^ (floorLog2 a a - quotShift a b)) := by
  obtain ⟨h1, h2⟩ := quotShift_spec a b ha hb
  rcases Nat.le_total (floorLog2 a a) (quotShift a b) with h | h
  · have hs : quotShift a b = (quotShift a b - floorLog2 a a) + floorLog2 a a := by omega
    have h0 : floorLog2 a a - quotShift a b = 0 := by omega
    rw [hs, pow_add] at h1 h2
    rw [h0, pow_zero, mul_one]
    have hP : 0 < 2 ^ floorLog2 a a := Nat.pow_pos (by decide)
    constructor
    · apply Nat.le_of_mul_le_mul_right _ hP
      calc 2 ^ 23 * b * 2 ^ floorLog2 a a = 2 ^ 23 * (b * 2 ^ floorLog2 a a) := by ring
        _ ≤ a * (2 ^ (quotShift a b - floorLog2 a a) * 2 ^ floorLog2 a a) := h1
        _ = a * 2 ^ (quotShift a b - floorLog2 a a) * 2 ^ floorLog2 a a := by ring
    · apply Nat.lt_of_mul_lt_mul_right (a := 2 ^ floorLog2 a a)
      calc a * 2 ^ (quotShift a b - floorLog2 a a) * 2 ^ floorLog2 a a
          = a * (2 ^ (quotShift a b - floorLog2 a a) * 2 ^ floorLog2 a a) := by ring
        _ < 2 ^ 24 * (b * 2 ^ floorLog2 a a) := h2
        _ = 2 ^ 24 * b * 2 ^ floorLog2 a a := by ring
  · have hs : floorLog2 a a = (floorLog2 a a - quotShift a b) + quotShift a b := by omega
    have h0 : quotShift a b - floorLog2 a a = 0 := by omega
    rw [hs, pow_add] at h1 h2
    rw [h0, pow_zero, mul_one]
    have hP : 0 < 2 ^ quotShift a b := Nat.pow_pos (by decide)
    constructor
    · apply Nat.le_of_mul_le_mul_right _ hP
      calc 2 ^ 23 * (b * 2 ^ (floorLog2 a a - quotShift a b)) * 2 ^ quotShift a b
          = 2 ^ 23 * (b * (2 ^ (floorLog2 a a - quotShift a b) * 2 ^ quotShift a b)) := by ring
        _ ≤ a * 2 ^ quotShift a b := h1
    · apply Nat.lt_of_mul_lt_mul_right (a := 2 ^ quotShift a b)
      calc a * 2 ^ quotShift a b
          < 2 ^ 24 * (b * (2 ^ (floorLog2 a a - quotShift a b) * 2 ^ quotShift a b)) := h2
        _ = 2 ^ 24 * (b * 2 ^ (floorLog2 a a - quotShift a b)) * 2 ^ quotShift a b := by ring

/-- The significand of a binary32 quotient has 24 bits (or is `2^24`, when rounding carries
into the next binade). -/
theorem quotSignificand_bounds (a b : Nat) (ha : 0 < a) (hb : 0 < b) :
    2 ^ 23 ≤ quotSignificand a b ∧ quotSignificand a b ≤ 2 ^ 24 := by
  obtain ⟨h1, h2⟩ := quotScaled_range a b ha hb
  have hd : 0 < b * 2 ^ (floorLog2 a a - quotShift a b) :=
    Nat.mul_pos hb (Nat.pow_pos (by decide))
  obtain ⟨h3, h4⟩ := roundHalfEven_nearest (a * 2 ^ (quotShift a b - floorLog2 a a))
    (b * 2 ^ (floorLog2 a a - quotShift a b)) hd
  unfold quotSignificand
  generalize roundHalfEven (a * 2 ^ (quotShift a b - floorLog2 a a))
    (b * 2 ^ (floorLog2 a a - quotShift a b)) = m at *
  generalize a * 2 ^ (quotShift a b - floorLog2 a a) = n at *
  generalize b * 2 ^ (floorLog2 a a - quotShift a b) = d at *
  constructor
  · by_contra hcon
    have hm : m + 1 ≤ 2 ^ 23 := by omega
    have : d * (m + 1) ≤ d * 2 ^ 23 := Nat.mul_le_mul_left d hm
    nlinarith
  · by_contra hcon
    have hm : 2 ^ 24 + 1 ≤ m := by omega
    have : d * (2 ^ 24 + 1) ≤ d * m := Nat.mul_le_mul_left d hm
    nlinarith

/-- The binary32 quotient is within half a unit in the last place of the exact quotient. -/
theorem f32_div_nearest (a b : Nat) (ha : 0 < a) (hb : 0 < b) :
    |f32_div a b - (a : ℚ) / (b : ℚ)| ≤
      (2 : ℚ) ^ (floorLog2 a a - quotShift a b) / 2 ^ (quotShift a b - floorLog2 a a) / 2 := by
  have hd : 0 < b * 2 ^ (floorLog2 a a - quotShift a b) :=
    Nat.mul_pos hb (Nat.pow_pos (by decide))
  obtain ⟨h3, h4⟩ := roundHalfEven_nearest (a * 2 ^ (quotShift a b - floorLog2 a a))
    (b * 2 ^ (floorLog2 a a - quotShift a b)) hd
  have h3q : (2 : ℚ) * ((a : ℚ) * 2 ^ (quotShift a b - floorLog2 a a)) ≤
      2 * (((b : ℚ) * 2 ^ (floorLog2 a a - quotShift a b)) * (quotSignificand a b : ℚ)) +
        (b : ℚ) * 2 ^ (floorLog2 a a - quotShift a b) := by
    unfold quotSignificand
    exact_mod_cast h3
  have h4q : (2 : ℚ) * (((b : ℚ) * 2 ^ (floorLog2 a a - quotShift a b)) *
        (quotSignificand a b : ℚ)) ≤
      2 * ((a : ℚ) * 2 ^ (quotShift a b - floorLog2 a a)) +
        (b : ℚ) * 2 ^ (floorLog2 a a - quotShift a b) := by
    unfold quotSignificand
    exact_mod_cast h4
  unfold f32_div
  rw [if_neg (by omega)]
  have hu : (0 : ℚ) < 2 ^ (quotShift a b - floorLog2 a a) := by positivity
  have hw : (0 : ℚ) < 2 ^ (floorLog2 a a - quotShift a b) := by positivity
  have hB : (0 : ℚ) < (b : ℚ) := by exact_mod_cast hb
  generalize (2 : ℚ) ^ (quotShift a b - floorLog2 a a) = u at *
  generalize (2 : ℚ) ^ (floorLog2 a a - quotShift a b) = w at *
  generalize (quotSignificand a b : ℚ) = M at *
  generalize (a : ℚ) = A at *
  generalize (b : ℚ) = B at *
  have hkey : M * w / u - A / B = (M * w * B - A * u) / (u * B) := by
    field_simp
    ring
  rw [hkey, abs_le]
  have huB : 0 < u * B := mul_pos hu hB
  constructor
  · rw [le_div_iff₀ huB]
    have : -(w / u / 2) * (u * B) = -(w * B / 2) := by field_simp; ring
    rw [this]
    linarith
  · rw [div_le_iff₀ huB]
    have : w / u / 2 * (u * B) = w * B / 2 := by field_simp; ring
    rw [this]
    linarith

/-- The conversion `float(h)` is within half a unit in the last place of `h`. -/
theorem f32_of_nat_nearest (h : Nat) :
    2 * h ≤ 2 * f32_of_nat h + 2 ^ (floorLog2 h h - 23) ∧
    2 * f32_of_nat h ≤ 2 * h + 2 ^ (floorLog2 h h - 23) := by
  have hd : 0 < 2 ^ (floorLog2 h h - 23) := Nat.pow_pos (by decide)
  obtain ⟨h1, h2⟩ := roundHalfEven_nearest h (2 ^ (floorLog2 h h - 23)) hd
  unfold f32_of_nat
  simp only []
  rw [Nat.mul_comm (roundHalfEven h (2 ^ (floorLog2 h h - 23)))]
  exact ⟨h1, h2⟩

/-- For counters below `2^24` the stored output of a cell with `hit[i] > 0` is the exact
quotient `hit[i]/valid` rounded to binary32: a number `m * 2^e` with `2^23 ≤ m ≤ 2^24` within
half a unit in the last place of the quotient. -/
theorem cell_out_f32_nearest (valid : Nat) (hit : List Nat) (i : Nat) (hi : i < hit.length)
    (hv : 0 < valid) (hv24 : valid < 16777216) (hh : 0 < cell hit i)
    (hh24 : cell hit i < 16777216) :
    cell (out_f32 valid hit) i =
      (quotSignificand (cell hit i) valid : ℚ) *
        2 ^ (floorLog2 (cell hit i) (cell hit i) - quotShift (cell hit i) valid) /
        2 ^ (quotShift (cell hit i) valid - floorLog2 (cell hit i) (cell hit i)) ∧
    2 ^ 23 ≤ quotSignificand (cell hit i) valid ∧ quotSignificand (cell hit i) valid ≤ 2 ^ 24 ∧
    |cell (out_f32 valid hit) i - ((cell hit i : Nat) : ℚ) / (valid : ℚ)| ≤
      (2 : ℚ) ^ (floorLog2 (cell hit i) (cell hit i) - quotShift (cell hit i) valid) /
        2 ^ (quotShift (cell hit i) valid - floorLog2 (cell hit i) (cell hit i)) / 2 := by
  have hc : cell (out_f32 valid hit) i = f32_div (cell hit i) valid := by
    rw [cell_out_f32 _ _ _ hi, if_pos hv, f32_of_nat_exact _ hh24, f32_of_nat_exact _ hv24]
  obtain ⟨hb1, hb2⟩ := quotSignificand_bounds (cell hit i) valid hh hv
  refine ⟨?_, hb1, hb2, ?_⟩
  · rw [hc]
    unfold f32_div
    rw [if_neg (by omega)]
  · rw [hc]
    exact f32_div_nearest (cell hit i) valid hh hv

/-! ## Board operations: unchecked writes and the size invariant -/

theorem ms_set_cell_ok (b : Board) (r c value : Int) (h0 : 0 ≤ idx b r c)
    (h1 : (idx b r c).toNat < b.revealed.length) :
    ms_set_cell b r c value = .ok { b with revealed := b.revealed.set (idx b r c).toNat value } := by
  simp [ms_set_cell, wr_int _ _ _ h0 h1]

/-- C12 (counterexample): on the 1x1 board, `ms_set_cell(0,0,7)` is not rejected: it succeeds and
the stored status of cell `(0,0)` becomes `7`, which is none of Unknown, a hint bucket or
KnownBomb. -/
theorem ms_set_cell_stores_invalid_value :
    ms_set_cell ⟨1, 1, 0, 10, [-1]⟩ 0 0 7 = .ok ⟨1, 1, 0, 10, [7]⟩ ∧
    ¬ (⟨1, 1, 0, 10, [7]⟩ : Board).statusesValid := by
  refine ⟨rfl, ?_⟩
  intro h
  have := h 7 (List.mem_singleton.mpr rfl)
  omega

/-- C12 (amended): on a board whose cell array has `rows*cols` entries, for every in-bounds
coordinate and every integer `value` (inside `{-1,..,5}` or not), `ms_set_cell(r,c,value)`
succeeds and cell `(r,c)` then reads `value`; when all statuses were in `{-1,..,5}` before the
call, they all are afterwards exactly when `value` is in `{-1,..,5}`. -/
theorem ms_set_cell_stores_any_value (b : Board) (r c value : Int) (hb : b.sized)
    (hr0 : 0 ≤ r) (hr : r < b.G_R) (hc0 : 0 ≤ c) (hc : c < b.G_C) :
    ∃ b2, ms_set_cell b r c value = .ok b2 ∧
      rd b2.revealed (idx b2 r c) = .ok value ∧
      (b.statusesValid → (b2.statusesValid ↔ (-1 ≤ value ∧ value ≤ 5))) := by
  obtain ⟨h0, h1⟩ := idx_bounds b r c hr0 hr hc0 hc
  rw [← sized_length b hb] at h1
  refine ⟨_, ms_set_cell_ok b r c value h0 h1, ?_, ?_⟩
  · show rd (b.revealed.set (idx b r c).toNat value) (idx b r c) = _
    rw [rd_int _ _ h0 (by simpa using h1), cell_set_self _ _ _ h1]
  · intro hv
    show (∀ x ∈ b.revealed.set (idx b r c).toNat value, -1 ≤ x ∧ x ≤ 5) ↔ _
    constructor
    · intro h
      have hm := cell_mem (b.revealed.set (idx b r c).toNat value) (idx b r c).toNat
        (by simpa using h1)
      rw [cell_set_self _ _ _ h1] at hm
      exact h value hm
    · intro hval x hx
      rcases List.mem_or_eq_of_mem_set hx with h | h
      · exact hv x h
      · rw [h]; exact hval

theorem ms_set_cell_stores_any_value_witness :
    ∃ b2, ms_set_cell ⟨1, 2, 0, 10, [-1, 3]⟩ 0 1 9 = .ok b2 ∧
      rd b2.revealed (idx b2 0 1) = .ok 9 ∧
      ((⟨1, 2, 0, 10, [-1, 3]⟩ : Board).statusesValid →
        (b2.statusesValid ↔ (-1 ≤ (9 : Int) ∧ (9 : Int) ≤ 5))) :=
  ms_set_cell_stores_any_value ⟨1, 2, 0, 10, [-1, 3]⟩ 0 1 9 rfl
    (by decide) (by decide) (by decide) (by decide)

/-- C13 (counterexample): `ms_init(65536, 65536, 1, 100)` from the start state returns with
`G_R = G_C = 65536` and an empty cell array, because the `int` product `rows*cols` wraps to `0`;
so no board with `rows*cols` cells is produced and the state reached violates "cell array length
= rows*cols".  With `rows = cols = 46341` the `int` product is negative, `assign` throws, and the
state left behind has the new dimensions and the old (empty) cell array. -/
theorem ms_init_product_wraps :
    ms_init Board.initial 65536 65536 1 100 = .ok ⟨65536, 65536, 1, 100, []⟩ ∧
    (¬ ∃ b, ms_init Board.initial 65536 65536 1 100 = .ok b ∧
      (b.revealed.length : Int) = 65536 * 65536) ∧
    ¬ (⟨65536, 65536, 1, 100, []⟩ : Board).sized ∧
    ms_init Board.initial 46341 46341 1 100
      = .error (Fault.badAlloc, ⟨46341, 46341, 1, 100, []⟩) ∧
    ¬ (⟨46341, 46341, 1, 100, []⟩ : Board).sized := by
  have h1 : ms_init Board.initial 65536 65536 1 100 = .ok ⟨65536, 65536, 1, 100, []⟩ := by
    decide
  refine ⟨h1, ?_, by unfold Board.sized; decide, by decide,
    by unfold Board.sized; decide⟩
  rintro ⟨b, hb, hlen⟩
  rw [h1] at hb
  cases hb
  revert hlen
  decide

/-- C13 (amended): for `rows, cols ≥ 1` whose product fits in `int` (`rows*cols ≤ 2^31 - 1`) and
every prior state, `ms_init(rows, cols, bombs, sampleCount)` succeeds with a board whose cell
array has `rows*cols` entries, all Unknown (`-1`), and whose dimensions, bomb count and sample
count are the given ones; and the invariant "cell array length = rows*cols" holds after such an
`ms_init` and is preserved by in-bounds `ms_set_cell` (which succeeds), by `ms_set_sample_count`
and by `ms_cleanup`. -/
theorem ms_init_and_size_invariant (prev : Board) (rows cols bombs sample_count : Int)
    (hrows : 1 ≤ rows) (hcols : 1 ≤ cols) (hfit : rows * cols ≤ 2147483647) :
    (∃ b, ms_init prev rows cols bombs sample_count = .ok b ∧ b.sized ∧
      (b.revealed.length : Int) = rows * cols ∧ (∀ x ∈ b.revealed, x = -1) ∧
      b.G_R = rows ∧ b.G_C = cols ∧ b.G_B = bombs ∧ b.G_SAMPLES = sample_count) ∧
    (∀ b : Board, b.sized →
      (∀ n, (ms_set_sample_count b n).sized) ∧ (ms_cleanup b).sized ∧
      (∀ r c value, 0 ≤ r → r < b.G_R → 0 ≤ c → c < b.G_C →
        ∃ b2, ms_set_cell b r c value = .ok b2 ∧ b2.sized)) := by
  have hpos : 0 ≤ rows * cols := Int.mul_nonneg (by omega) (by omega)
  have hw : wrap32 (rows * cols) = rows * cols := wrap32_of_fits _ (by omega) hfit
  constructor
  · refine ⟨{ G_R := rows, G_C := cols, G_B := bombs, G_SAMPLES := sample_count,
              revealed := List.replicate (rows * cols).toNat (-1) }, ?_, ?_, ?_, ?_,
      rfl, rfl, rfl, rfl⟩
    · unfold ms_init
      rw [hw, if_neg (by omega)]
    · show ((List.replicate (rows * cols).toNat (-1 : Int)).length : Int) = rows * cols
      rw [List.length_replicate]; omega
    · show ((List.replicate (rows * cols).toNat (-1 : Int)).length : Int) = rows * cols
      rw [List.length_replicate]; omega
    · intro x hx
      exact List.eq_of_mem_replicate hx
  · intro b hb
    refine ⟨fun n => hb, ?_, ?_⟩
    · show (([] : List Int).length : Int) = 0 * 0
      simp
    · intro r c value hr0 hr hc0 hc
      obtain ⟨h0, h1⟩ := idx_bounds b r c hr0 hr hc0 hc
      rw [← sized_length b hb] at h1
      refine ⟨_, ms_set_cell_ok b r c value h0 h1, ?_⟩
      show ((b.revealed.set (idx b r c).toNat value).length : Int) = b.G_R * b.G_C
      rw [List.length_set]; exact hb

theorem ms_init_and_size_invariant_witness :
    (∃ b, ms_init Board.initial 2 3 4 100 = .ok b ∧ b.sized ∧
      (b.revealed.length : Int) = 2 * 3 ∧ (∀ x ∈ b.revealed, x = -1) ∧
      b.G_R = 2 ∧ b.G_C = 3 ∧ b.G_B = 4 ∧ b.G_SAMPLES = 100) ∧
    (∀ b : Board, b.sized →
      (∀ n, (ms_set_sample_count b n).sized) ∧ (ms_cleanup b).sized ∧
      (∀ r c value, 0 ≤ r → r < b.G_R → 0 ≤ c → c < b.G_C →
        ∃ b2, ms_set_cell b r c value = .ok b2 ∧ b2.sized)) :=
  ms_init_and_size_invariant Board.initial 2 3 4 100 (by decide) (by decide) (by decide)

/-! ## Counters of the Monte Carlo solver -/

theorem accepts_iff_check (b : Board) (hb : b.sized) (p : List Int)
    (hp : p.length = (b.G_R * b.G_C).toNat) :
    accepts b p = decide (check_placement b p = .ok true) := by
  rw [check_placement_ok b p hb hp]
  unfold accepts
  cases h : (List.range (b.G_R * b.G_C).toNat).all (cellOk b p) <;> simp

theorem check_false_iff (b : Board) (hb : b.sized) (p : List Int)
    (hp : p.length = (b.G_R * b.G_C).toNat) (h : check_placement b p = .ok false) :
    accepts b p = false := by
  rw [check_placement_ok b p hb hp] at h
  unfold accepts
  injection h

theorem take_min_length {α : Type} (l : List α) (r : Nat) :
    l.take (min r l.length) = l.take r := by
  rcases Nat.le_total r l.length with h | h
  · rw [Nat.min_eq_left h]
  · rw [Nat.min_eq_right h, List.take_length, List.take_of_length_le h]

theorem mem_mcPlacements (b : Board) (shuffled : Nat → List Nat) (p : List Int)
    (hp : p ∈ mcPlacements b shuffled) :
    ∃ k, k < b.G_SAMPLES.toNat ∧ p = mcPlace b (shuffled k) := by
  simp only [mcPlacements, List.mem_map, List.mem_range] at hp
  obtain ⟨k, hk, rfl⟩ := hp
  exact ⟨k, hk, rfl⟩

theorem length_mcPlace (b : Board) (l : List Nat) :
    (mcPlace b l).length = (b.G_R * b.G_C).toNat := length_place _ _

theorem filter_accepts_mc (b : Board) (hb : b.sized) (shuffled : Nat → List Nat) :
    (mcPlacements b shuffled).filter (accepts b) =
      (mcPlacements b shuffled).filter (fun p => decide (check_placement b p = .ok true)) := by
  apply List.filter_congr
  intro p hp
  obtain ⟨k, _, rfl⟩ := mem_mcPlacements b shuffled p hp
  exact accepts_iff_check b hb _ (length_mcPlace b _)

theorem mixedShuffle_perm (k : Nat) : (mixedShuffle k).Perm (unknowns exampleBoard) := by
  unfold mixedShuffle
  split
  · show [1, 3].Perm (unknowns exampleBoard)
    decide
  · show [3, 1].Perm (unknowns exampleBoard)
    decide

/-- The run of `ms_solve` on `exampleBoard` with the shuffle outcomes `mixedShuffle`: all three
trials are accepted, cell 1 is hit once and cell 3 twice. -/
theorem ms_solve_example_mixed :
    ms_solve exampleBoard mixedShuffle =
      .ok { valid := 3, hit := [3, 1, 0, 2], out := out_probs 3 [3, 1, 0, 2], visited := [],
            evaluated := [[1, 1, 0, 0], [1, 0, 0, 1], [1, 0, 0, 1]] } := rfl

/-- The binary32 values stored for the counters `hit = [3, 1, 0, 2]`, `valid = 3`:
`1`, `0.3333333432674407958984375`, `0` and `0.666666686534881591796875`. -/
theorem out_f32_example :
    out_f32 3 [3, 1, 0, 2] = [1, 11184811 / 33554432, 0, 11184811 / 16777216] := by
  norm_num [out_f32, f32_div, f32_of_nat, quotSignificand, quotShift, floorLog2, roundHalfEven]

/-- C14 (counterexample): on `exampleBoard` with the shuffle outcomes `mixedShuffle` (permutations
of the Unknown cells) `ms_solve` ends with `accepted = 3` and `hit[1] = 1`, and the value stored
for cell 1 is the binary32 number `11184811 / 2^25`, which is not `hit[1]/accepted = 1/3`.  And
on the 1x2 board with `bombs = INT_MIN`, cell 0 KnownBomb and cell 1 Unknown, the `int`
difference `G_B - 1` wraps to `INT_MAX`, so the one placement built is `[1, 1]`, not the
placement `[1, 0]` given by `remaining = max(0, totalBombs - |KnownBomb|) = 0`. -/
theorem ms_solve_output_is_rounded :
    (∃ s, ms_solve exampleBoard mixedShuffle = .ok s ∧
      (∀ k, (mixedShuffle k).Perm (unknowns exampleBoard)) ∧
      s.valid = 3 ∧ cell s.hit 1 = 1 ∧
      cell (out_f32 s.valid s.hit) 1 = 11184811 / 33554432 ∧
      cell (out_f32 s.valid s.hit) 1 ≠ ((cell s.hit 1 : Nat) : ℚ) / ((s.valid : Nat) : ℚ)) ∧
    (∃ s, ms_solve ⟨1, 2, -2147483648, 1, [5, -1]⟩ (fun _ => [1]) = .ok s ∧
      [1].Perm (unknowns ⟨1, 2, -2147483648, 1, [5, -1]⟩) ∧
      s.evaluated = [[1, 1]] ∧
      place 2 ((knownBombs ⟨1, 2, -2147483648, 1, [5, -1]⟩).toFinset ∪
        (([1] : List Nat).take (min
          ((-2147483648 : Int) - ((knownBombs ⟨1, 2, -2147483648, 1, [5, -1]⟩).length : Int)).toNat
          (unknowns ⟨1, 2, -2147483648, 1, [5, -1]⟩).length)).toFinset) = [1, 0]) := by
  constructor
  · refine ⟨_, ms_solve_example_mixed, mixedShuffle_perm, rfl, rfl, ?_, ?_⟩
    · show cell (out_f32 3 [3, 1, 0, 2]) 1 = _
      rw [out_f32_example]
      rfl
    · show cell (out_f32 3 [3, 1, 0, 2]) 1 ≠ ((cell [3, 1, 0, 2] 1 : Nat) : ℚ) / ((3 : Nat) : ℚ)
      rw [out_f32_example]
      have h1 : cell ([1, 11184811 / 33554432, 0, 11184811 / 16777216] : List ℚ) 1
          = 11184811 / 33554432 := rfl
      have h2 : cell ([3, 1, 0, 2] : List Nat) 1 = 1 := rfl
      rw [h1, h2]
      norm_num
  · exact ⟨⟨1, [1, 1], out_probs 1 [1, 1], [], [[1, 1]]⟩, rfl, by decide, rfl, by decide⟩

/-- C14 (amended): on a board whose cell array has `rows*cols` entries, with the shuffle outcome
of each of the `sampleCount` trials a permutation of the Unknown cells, `ms_solve` returns and
has passed to `check_placement` exactly one placement per trial, the one with bombs on the
KnownBomb cells and on the first `min(bombs_remain, U)` cells of that trial's permutation, where
`bombs_remain` is the value the code computes: `max(0, totalBombs - |KnownBomb|)` whenever the
`int` difference does not fall below `INT_MIN`.  `accepted` is the number of trials whose
placement `check_placement` accepts, `hit[i]` the number of accepted trials whose placement
marks `i`; the quotient of the counters, as an exact rational, is `hit[i]/accepted` when
`accepted > 0` and `0` otherwise, and the value stored for cell `i` is the binary32 quotient
`float(hit[i])/float(accepted)` when `accepted > 0` and `0` otherwise (so all zero when
`sampleCount ≤ 0`); and a trial whose placement is rejected leaves `valid` and `hit` as they
were. -/
theorem ms_solve_counts_accepted_trials (b : Board) (hb : b.sized) (shuffled : Nat → List Nat)
    (hperm : ∀ k, k < b.G_SAMPLES.toNat → (shuffled k).Perm (unknowns b)) :
    ∃ s, ms_solve b shuffled = .ok s ∧
      s.evaluated = (List.range b.G_SAMPLES.toNat).map (fun k =>
        place (b.G_R * b.G_C).toNat ((knownBombs b).toFinset ∪
          ((shuffled k).take (min (bombsRemain b (knownBombs b)) (unknowns b).length)).toFinset)) ∧
      (-2147483648 ≤ b.G_B - ((knownBombs b).length : Int) →
        bombsRemain b (knownBombs b) = (b.G_B - ((knownBombs b).length : Int)).toNat) ∧
      s.evaluated.length = b.G_SAMPLES.toNat ∧
      s.valid = s.evaluated.countP (fun p => decide (check_placement b p = .ok true)) ∧
      s.hit.length = (b.G_R * b.G_C).toNat ∧ s.out.length = (b.G_R * b.G_C).toNat ∧
      (out_f32 s.valid s.hit).length = (b.G_R * b.G_C).toNat ∧
      (∀ i, i < (b.G_R * b.G_C).toNat →
        cell s.hit i = s.evaluated.countP (fun p =>
          decide (check_placement b p = .ok true) && decide (cell p i ≠ 0)) ∧
        cell s.out i = (if 0 < s.valid then ((cell s.hit i : Nat) : ℚ) / (s.valid : ℚ) else 0) ∧
        cell (out_f32 s.valid s.hit) i =
          if 0 < s.valid then f32_div (f32_of_nat (cell s.hit i)) (f32_of_nat s.valid) else 0) ∧
      (b.G_SAMPLES ≤ 0 → s.valid = 0 ∧ s.evaluated = [] ∧
        ∀ i, i < (b.G_R * b.G_C).toNat →
          cell s.out i = 0 ∧ cell (out_f32 s.valid s.hit) i = 0) ∧
      (∀ (st : McState) (k : Nat), k < b.G_SAMPLES.toNat →
        check_placement b (place (b.G_R * b.G_C).toNat ((knownBombs b).toFinset ∪
          ((shuffled k).take (min (bombsRemain b (knownBombs b)) (unknowns b).length)).toFinset))
          = .ok false →
        ∃ st2, mcTrial b (knownBombs b) (bombsRemain b (knownBombs b)) (b.G_R * b.G_C).toNat
            shuffled st k = .ok st2 ∧ st2.valid = st.valid ∧ st2.hit = st.hit) := by
  have hu : ∀ k, k < b.G_SAMPLES.toNat → ∀ u ∈ shuffled k, u < (b.G_R * b.G_C).toNat :=
    fun k hk => perm_unknowns_lt b _ (hperm k hk)
  have hplace : ∀ k, k < b.G_SAMPLES.toNat →
      place (b.G_R * b.G_C).toNat ((knownBombs b).toFinset ∪
        ((shuffled k).take (min (bombsRemain b (knownBombs b)) (unknowns b).length)).toFinset)
      = mcPlace b (shuffled k) := by
    intro k hk
    unfold mcPlace
    rw [← (hperm k hk).length_eq, take_min_length]
  have hev : mcPlacements b shuffled = (List.range b.G_SAMPLES.toNat).map (fun k =>
        place (b.G_R * b.G_C).toNat ((knownBombs b).toFinset ∪
          ((shuffled k).take (min (bombsRemain b (knownBombs b)) (unknowns b).length)).toFinset))
      := by
    unfold mcPlacements
    apply List.map_congr_left
    intro k hk
    exact (hplace k (List.mem_range.mp hk)).symm
  have hvalid : ((mcPlacements b shuffled).filter (accepts b)).length =
      (mcPlacements b shuffled).countP (fun p => decide (check_placement b p = .ok true)) := by
    rw [filter_accepts_mc b hb, List.countP_eq_length_filter]
  have hhit : ∀ i, i < (b.G_R * b.G_C).toNat →
      cell (hitsOf (b.G_R * b.G_C).toNat ((mcPlacements b shuffled).filter (accepts b))) i =
        (mcPlacements b shuffled).countP (fun p =>
          decide (check_placement b p = .ok true) && decide (cell p i ≠ 0)) := by
    intro i hi
    rw [cell_hitsOf _ _ _ hi, filter_accepts_mc b hb, List.countP_filter]
    apply List.countP_congr
    intro p _
    simp only [Bool.and_comm]
  refine ⟨_, ms_solve_ok b hb shuffled hu, hev, fun h => bombsRemain_of_ge b _ h,
    by simp [mcPlacements], hvalid, length_hitsOf _ _, by simp [out_probs, length_hitsOf],
    by simp [length_out_f32, length_hitsOf], ?_, ?_, ?_⟩
  · intro i hi
    refine ⟨hhit i hi, ?_, ?_⟩
    · show cell (out_probs _ _) i = _
      rw [cell_out_probs _ _ _ (by rw [length_hitsOf]; exact hi)]
    · show cell (out_f32 _ _) i = _
      rw [cell_out_f32 _ _ _ (by rw [length_hitsOf]; exact hi)]
  · intro hs
    have h0 : b.G_SAMPLES.toNat = 0 := by omega
    have hnil : mcPlacements b shuffled = [] := by simp [mcPlacements, h0]
    refine ⟨?_, hnil, ?_⟩
    · show (List.filter _ _).length = 0
      rw [hnil]; rfl
    · intro i hi
      constructor
      · show cell (out_probs _ _) i = _
        rw [cell_out_probs _ _ _ (by rw [length_hitsOf]; exact hi), hnil]
        simp
      · show cell (out_f32 _ _) i = _
        rw [cell_out_f32 _ _ _ (by rw [length_hitsOf]; exact hi), hnil]
        simp
  · intro st k hk hrej
    rw [hplace k hk] at hrej
    refine ⟨_, mcTrial_ok b hb shuffled st k (hu k hk), ?_, ?_⟩
    · unfold mcTally
      rw [check_false_iff b hb _ (length_mcPlace b _) hrej]
      rfl
    · unfold mcTally
      rw [check_false_iff b hb _ (length_mcPlace b _) hrej]
      rfl

/-! ## Candidate placements and sums of hit counters -/

/-- Closed form of `ms_solve_exact` for `remaining ≤ U`, covering `remaining = 0`. -/
theorem ms_solve_exact_closed (b : Board) (hb : b.sized) (fuel : Nat)
    (hU : bombsRemain b (knownBombs b) ≤ (unknowns b).length)
    (hfuel : Nat.choose (unknowns b).length (bombsRemain b (knownBombs b)) ≤ fuel) :
    ms_solve_exact b fuel = .ok
      { valid := ((exactPlacements b).filter (accepts b)).length,
        hit := hitsOf (b.G_R * b.G_C).toNat ((exactPlacements b).filter (accepts b)),
        out := out_probs ((exactPlacements b).filter (accepts b)).length
          (hitsOf (b.G_R * b.G_C).toNat ((exactPlacements b).filter (accepts b))),
        visited := if bombsRemain b (knownBombs b) = 0 then [] else combos b,
        evaluated := exactPlacements b } := by
  unfold exactPlacements
  by_cases h0 : bombsRemain b (knownBombs b) = 0
  · rw [ms_solve_exact_zero b hb fuel h0]
    simp only [h0, if_true, List.filter_nil, List.length_nil, hitsOf_nil]
  · rw [ms_solve_exact_ok b hb fuel (by omega) hU hfuel]
    simp only [h0, if_false]

theorem candidate_exact (b : Board) (hU : bombsRemain b (knownBombs b) ≤ (unknowns b).length)
    (p : List Int) (hp : p ∈ exactPlacements b) :
    Candidate b p ∧ bombCount p = (knownBombs b).length + bombsRemain b (knownBombs b) := by
  unfold exactPlacements at hp
  by_cases h0 : bombsRemain b (knownBombs b) = 0
  · rw [if_pos h0] at hp; simp at hp
  · rw [if_neg h0, List.mem_map] at hp
    obtain ⟨c, hc, rfl⟩ := hp
    obtain ⟨hv, hl⟩ := combos_valid b hU c hc
    exact ⟨⟨sel b c, sel_subset b c hv, placeOf_eq b c⟩, by rw [bombCount_placeOf b c hv, hl]⟩

theorem candidate_mc (b : Board) (shuffled : Nat → List Nat)
    (hperm : ∀ k, k < b.G_SAMPLES.toNat → (shuffled k).Perm (unknowns b))
    (p : List Int) (hp : p ∈ mcPlacements b shuffled) :
    Candidate b p ∧ bombCount p =
      (knownBombs b).length + min (bombsRemain b (knownBombs b)) (unknowns b).length := by
  obtain ⟨k, hk, rfl⟩ := mem_mcPlacements b shuffled p hp
  refine ⟨⟨_, ?_, rfl⟩, bombCount_mcPlace b _ (hperm k hk)⟩
  intro x hx
  rw [List.mem_toFinset] at hx ⊢
  exact (hperm k hk).mem_iff.mp (List.mem_of_mem_take hx)

theorem candidate_length (b : Board) (p : List Int) (hp : Candidate b p) :
    p.length = (b.G_R * b.G_C).toNat := by
  obtain ⟨T, _, rfl⟩ := hp
  exact length_place _ _

/-- A candidate placement has no bomb on a cell that is neither KnownBomb nor Unknown. -/
theorem candidate_cell_other (b : Board) (p : List Int) (hp : Candidate b p) (i : Nat)
    (hi : i < (b.G_R * b.G_C).toNat) (h5 : cell b.revealed i ≠ 5) (h1 : cell b.revealed i ≠ -1) :
    cell p i = 0 := by
  obtain ⟨T, hT, rfl⟩ := hp
  rw [cell_place _ _ _ hi, if_neg]
  intro hmem
  rcases Finset.mem_union.mp hmem with h | h
  · exact h5 ((mem_knownBombs b i).mp (List.mem_toFinset.mp h)).2
  · exact h1 ((mem_unknowns b i).mp (List.mem_toFinset.mp (hT h))).2

/-- A candidate placement has a bomb on every KnownBomb cell. -/
theorem candidate_cell_known (b : Board) (p : List Int) (hp : Candidate b p) (i : Nat)
    (hi : i < (b.G_R * b.G_C).toNat) (h5 : cell b.revealed i = 5) : cell p i = 1 := by
  obtain ⟨T, _, rfl⟩ := hp
  rw [cell_place _ _ _ hi, if_pos]
  exact Finset.mem_union_left _ (List.mem_toFinset.mpr ((mem_knownBombs b i).mpr ⟨hi, h5⟩))

theorem cell_hitsOf_zero (N : Nat) (ps : List (List Int)) (i : Nat) (hi : i < N)
    (h : ∀ p ∈ ps, cell p i = 0) : cell (hitsOf N ps) i = 0 := by
  rw [cell_hitsOf _ _ _ hi, List.countP_eq_zero]
  intro p hp
  simp [h p hp]

theorem cell_hitsOf_all (N : Nat) (ps : List (List Int)) (i : Nat) (hi : i < N)
    (h : ∀ p ∈ ps, cell p i ≠ 0) : cell (hitsOf N ps) i = ps.length := by
  rw [cell_hitsOf _ _ _ hi, List.countP_eq_length]
  intro p hp
  simpa using h p hp

theorem sum_indicator {α : Type} (l : List α) (q : α → Bool) :
    (l.map (fun a => if q a then 1 else 0)).sum = l.countP q := by
  induction l with
  | nil => rfl
  | cons a l ih =>
    rw [List.map_cons, List.sum_cons, ih, List.countP_cons]
    by_cases h : q a = true
    · simp [h]; omega
    · simp [h]

theorem sum_indicator_cell (N : Nat) (p : List Int) (hp : p.length = N) :
    ((List.range N).map (fun i => if decide (cell p i ≠ 0) then 1 else 0)).sum = bombCount p := by
  rw [sum_indicator (List.range N) (fun i => decide (cell p i ≠ 0))]
  unfold bombCount
  conv_rhs => rw [← map_cell_range p, hp, List.countP_map]
  rfl

theorem sum_hitsOf (N : Nat) : ∀ (ps : List (List Int)), (∀ p ∈ ps, p.length = N) →
    (hitsOf N ps).sum = (ps.map bombCount).sum
  | [], _ => by simp [hitsOf]
  | p :: ps, h => by
    have ih := sum_hitsOf N ps (fun q hq => h q (List.mem_cons_of_mem _ hq))
    have hp := h p (List.mem_cons_self _ _)
    unfold hitsOf at ih ⊢
    simp only [List.countP_cons, List.map_cons, List.sum_cons]
    rw [List.sum_map_add, ih, sum_indicator_cell N p hp]
    omega

theorem sum_hitsOf_const (N B : Nat) (ps : List (List Int)) (h : ∀ p ∈ ps, p.length = N)
    (hB : ∀ p ∈ ps, bombCount p = B) : (hitsOf N ps).sum = ps.length * B := by
  rw [sum_hitsOf N ps h]
  have : ps.map bombCount = List.replicate ps.length B := by
    apply List.eq_replicate_iff.mpr
    refine ⟨by simp, ?_⟩
    intro x hx
    obtain ⟨p, hp, rfl⟩ := List.mem_map.mp hx
    exact hB p hp
  rw [this, List.sum_replicate]
  simp

theorem sum_out_probs (valid : Nat) (hit : List Nat) :
    (out_probs valid hit).sum = if valid > 0 then ((hit.sum : Nat) : ℚ) / (valid : ℚ) else 0 := by
  unfold out_probs
  by_cases hv : valid > 0
  · simp only [hv, if_true]
    induction hit with
    | nil => simp
    | cons h hit ih =>
      rw [List.map_cons, List.sum_cons, ih, List.sum_cons]
      push_cast
      rw [add_div]
  · simp only [hv, if_false]
    induction hit with
    | nil => simp
    | cons h hit ih => rw [List.map_cons, List.sum_cons, ih]; simp

/-! ## Hinted cells, hit sums and known bombs -/

/-- C15: on a board whose cell array has `rows*cols` entries, for a hinted cell `i` (status
`0..4`): with every trial's shuffle outcome a permutation of the Unknown cells, `ms_solve`
returns, no placement it built marks `i`, and `hit[i]`, the quotient of the counters and the
stored binary32 output of `i` are `0`, whatever `totalBombs` is; and for every fuel, with
`bombs_remain ≤ U` and fuel for `C(U,bombs_remain)` turns, the same holds for
`ms_solve_exact`.  Here `bombs_remain` is the value the code computes, which is
`max(0, totalBombs - |KnownBomb|)` unless the `int` difference falls below `INT_MIN`. -/
theorem hinted_cell_never_bomb (b : Board) (hb : b.sized) (i : Nat)
    (hi : i < (b.G_R * b.G_C).toNat) (hlo : 0 ≤ cell b.revealed i) (hhi : cell b.revealed i ≤ 4)
    (shuffled : Nat → List Nat)
    (hperm : ∀ k, k < b.G_SAMPLES.toNat → (shuffled k).Perm (unknowns b)) :
    (∃ s, ms_solve b shuffled = .ok s ∧ (∀ p ∈ s.evaluated, cell p i = 0) ∧
      cell s.hit i = 0 ∧ cell s.out i = 0 ∧ cell (out_f32 s.valid s.hit) i = 0) ∧
    (∀ fuel, bombsRemain b (knownBombs b) ≤ (unknowns b).length →
      Nat.choose (unknowns b).length (bombsRemain b (knownBombs b)) ≤ fuel →
      ∃ s, ms_solve_exact b fuel = .ok s ∧ (∀ p ∈ s.evaluated, cell p i = 0) ∧
        cell s.hit i = 0 ∧ cell s.out i = 0 ∧ cell (out_f32 s.valid s.hit) i = 0) := by
  have h5 : cell b.revealed i ≠ 5 := by omega
  have h1 : cell b.revealed i ≠ -1 := by omega
  have key : ∀ E : List (List Int), (∀ p ∈ E, Candidate b p) →
      (∀ p ∈ E, cell p i = 0) ∧
      cell (hitsOf (b.G_R * b.G_C).toNat (E.filter (accepts b))) i = 0 ∧
      cell (out_probs (E.filter (accepts b)).length
        (hitsOf (b.G_R * b.G_C).toNat (E.filter (accepts b)))) i = 0 ∧
      cell (out_f32 (E.filter (accepts b)).length
        (hitsOf (b.G_R * b.G_C).toNat (E.filter (accepts b)))) i = 0 := by
    intro E hE
    have hz : ∀ p ∈ E, cell p i = 0 := fun p hp => candidate_cell_other b p (hE p hp) i hi h5 h1
    have hh := cell_hitsOf_zero _ (E.filter (accepts b)) i hi
      (fun p hp => hz p (List.mem_of_mem_filter hp))
    refine ⟨hz, hh, ?_, cell_out_f32_zero _ _ i (by rw [length_hitsOf]; exact hi) hh⟩
    rw [cell_out_probs _ _ _ (by rw [length_hitsOf]; exact hi), hh]
    simp
  constructor
  · exact ⟨_, ms_solve_ok b hb shuffled (fun k hk => perm_unknowns_lt b _ (hperm k hk)),
      key _ (fun p hp => (candidate_mc b shuffled hperm p hp).1)⟩
  · intro fuel hU hfuel
    exact ⟨_, ms_solve_exact_closed b hb fuel hU hfuel,
      key _ (fun p hp => (candidate_exact b hU p hp).1)⟩

/-- C16 (counterexample): on `exampleBoard` (`totalBombs = 2`, one KnownBomb, two Unknown cells)
with the shuffle outcomes `mixedShuffle` (permutations of the Unknown cells) `ms_solve` ends with
`accepted = 3`, and the stored outputs are the binary32 numbers `1`, `11184811 / 2^25`, `0` and
`11184811 / 2^24`, whose sum is `2 + 2^-25`, not `totalBombs`. -/
theorem ms_solve_outputs_sum_rounded :
    ∃ s, ms_solve exampleBoard mixedShuffle = .ok s ∧
      (∀ k, (mixedShuffle k).Perm (unknowns exampleBoard)) ∧
      ((knownBombs exampleBoard).length : Int) ≤ exampleBoard.G_B ∧
      exampleBoard.G_B ≤
        ((knownBombs exampleBoard).length : Int) + ((unknowns exampleBoard).length : Int) ∧
      0 < s.valid ∧
      out_f32 s.valid s.hit = [1, 11184811 / 33554432, 0, 11184811 / 16777216] ∧
      (out_f32 s.valid s.hit).sum = 2 + 1 / 33554432 ∧
      (out_f32 s.valid s.hit).sum ≠ (exampleBoard.G_B : ℚ) := by
  refine ⟨_, ms_solve_example_mixed, mixedShuffle_perm, by decide, by decide, by decide,
    out_f32_example, ?_, ?_⟩
  · show (out_f32 3 [3, 1, 0, 2]).sum = _
    rw [out_f32_example]
    norm_num
  · show (out_f32 3 [3, 1, 0, 2]).sum ≠ ((2 : Int) : ℚ)
    rw [out_f32_example]
    norm_num

/-- C16 (amended): on a board whose cell array has `rows*cols` entries and with
`|KnownBomb| ≤ totalBombs ≤ |KnownBomb| + U`, both solvers return (`ms_solve` for every sequence
of shuffle outcomes that are permutations of the Unknown cells, `ms_solve_exact` for every fuel
that allows `C(U,remaining)` turns) with `sum of hit[i] = accepted * totalBombs`; and when
`accepted > 0` the quotients `hit[i]/accepted`, as exact rationals of the counters, sum to
`totalBombs`. -/
theorem hit_sum_eq_accepted_mul_bombs (b : Board) (hb : b.sized)
    (hlo : ((knownBombs b).length : Int) ≤ b.G_B)
    (hhi : b.G_B ≤ ((knownBombs b).length : Int) + ((unknowns b).length : Int))
    (shuffled : Nat → List Nat)
    (hperm : ∀ k, k < b.G_SAMPLES.toNat → (shuffled k).Perm (unknowns b)) :
    (∃ s, ms_solve b shuffled = .ok s ∧ ((s.hit.sum : Nat) : Int) = (s.valid : Int) * b.G_B ∧
      (0 < s.valid → s.out.sum = (b.G_B : ℚ) ∧
        (s.hit.map (fun (h : Nat) => (h : ℚ) / (s.valid : ℚ))).sum = (b.G_B : ℚ))) ∧
    (∀ fuel, Nat.choose (unknowns b).length (bombsRemain b (knownBombs b)) ≤ fuel →
      ∃ s, ms_solve_exact b fuel = .ok s ∧
        ((s.hit.sum : Nat) : Int) = (s.valid : Int) * b.G_B ∧
        (0 < s.valid → s.out.sum = (b.G_B : ℚ) ∧
          (s.hit.map (fun (h : Nat) => (h : ℚ) / (s.valid : ℚ))).sum = (b.G_B : ℚ))) := by
  have hr : ((knownBombs b).length : Int) + (bombsRemain b (knownBombs b) : Int) = b.G_B := by
    rw [bombsRemain_of_ge b _ (by omega)]; omega
  have hU : bombsRemain b (knownBombs b) ≤ (unknowns b).length := by
    rw [bombsRemain_of_ge b _ (by omega)]; omega
  have key : ∀ E : List (List Int), (∀ p ∈ E, Candidate b p ∧
        bombCount p = (knownBombs b).length + bombsRemain b (knownBombs b)) →
      (((hitsOf (b.G_R * b.G_C).toNat (E.filter (accepts b))).sum : Nat) : Int) =
        ((E.filter (accepts b)).length : Int) * b.G_B ∧
      (0 < (E.filter (accepts b)).length →
        (out_probs (E.filter (accepts b)).length
          (hitsOf (b.G_R * b.G_C).toNat (E.filter (accepts b)))).sum = (b.G_B : ℚ) ∧
        ((hitsOf (b.G_R * b.G_C).toNat (E.filter (accepts b))).map
          (fun (h : Nat) => (h : ℚ) / ((E.filter (accepts b)).length : ℚ))).sum
            = (b.G_B : ℚ)) := by
    intro E hE
    have hsum := sum_hitsOf_const (b.G_R * b.G_C).toNat
      ((knownBombs b).length + bombsRemain b (knownBombs b)) (E.filter (accepts b))
      (fun p hp => candidate_length b p (hE p (List.mem_of_mem_filter hp)).1)
      (fun p hp => (hE p (List.mem_of_mem_filter hp)).2)
    have hint : (((hitsOf (b.G_R * b.G_C).toNat (E.filter (accepts b))).sum : Nat) : Int) =
        ((E.filter (accepts b)).length : Int) * b.G_B := by
      rw [hsum, ← hr]; push_cast; ring
    refine ⟨hint, ?_⟩
    intro hpos
    have hmap : (hitsOf (b.G_R * b.G_C).toNat (E.filter (accepts b))).map
          (fun (h : Nat) => (h : ℚ) / ((E.filter (accepts b)).length : ℚ)) =
        out_probs (E.filter (accepts b)).length
          (hitsOf (b.G_R * b.G_C).toNat (E.filter (accepts b))) := by
      unfold out_probs
      simp only [gt_iff_lt, hpos, if_true]
    have hout : (out_probs (E.filter (accepts b)).length
          (hitsOf (b.G_R * b.G_C).toNat (E.filter (accepts b)))).sum = (b.G_B : ℚ) := by
      rw [sum_out_probs, if_pos hpos]
      have hB : (b.G_B : ℚ) =
          (((knownBombs b).length + bombsRemain b (knownBombs b) : Nat) : ℚ) := by
        rw [← hr]; push_cast; rfl
      have hq : (((hitsOf (b.G_R * b.G_C).toNat (E.filter (accepts b))).sum : Nat) : ℚ) =
          ((E.filter (accepts b)).length : ℚ) * (b.G_B : ℚ) := by
        rw [hsum, hB, Nat.cast_mul]
      have hne : ((E.filter (accepts b)).length : ℚ) ≠ 0 := by
        have : (0 : ℚ) < ((E.filter (accepts b)).length : ℚ) := by exact_mod_cast hpos
        exact ne_of_gt this
      rw [hq, mul_comm, mul_div_assoc, div_self hne, mul_one]
    exact ⟨hout, by rw [hmap]; exact hout⟩
  constructor
  · refine ⟨_, ms_solve_ok b hb shuffled (fun k hk => perm_unknowns_lt b _ (hperm k hk)),
      key _ (fun p hp => ?_)⟩
    have := candidate_mc b shuffled hperm p hp
    rw [Nat.min_eq_left hU] at this
    exact this
  · intro fuel hfuel
    exact ⟨_, ms_solve_exact_closed b hb fuel hU hfuel,
      key _ (fun p hp => candidate_exact b hU p hp)⟩

/-- C17: on a board whose cell array has `rows*cols` entries, for a KnownBomb cell `i`:
`ms_solve` returns, for every sequence of shuffle outcomes that are permutations of the Unknown
cells and whatever `totalBombs` is, with `hit[i] = accepted`, and when `accepted > 0` the
quotient of the counters and the stored binary32 output of `i` are exactly `1`; and for every
fuel, with `bombs_remain ≤ U` and fuel for `C(U,bombs_remain)` turns, the same holds for
`ms_solve_exact`.  Here `bombs_remain` is the value the code computes, which is
`max(0, totalBombs - |KnownBomb|)` unless the `int` difference falls below `INT_MIN`. -/
theorem known_bomb_probability_one (b : Board) (hb : b.sized) (i : Nat)
    (hi : i < (b.G_R * b.G_C).toNat) (h5 : cell b.revealed i = 5)
    (shuffled : Nat → List Nat)
    (hperm : ∀ k, k < b.G_SAMPLES.toNat → (shuffled k).Perm (unknowns b)) :
    (∃ s, ms_solve b shuffled = .ok s ∧ cell s.hit i = s.valid ∧
      (0 < s.valid → cell s.out i = 1 ∧ cell (out_f32 s.valid s.hit) i = 1)) ∧
    (∀ fuel, bombsRemain b (knownBombs b) ≤ (unknowns b).length →
      Nat.choose (unknowns b).length (bombsRemain b (knownBombs b)) ≤ fuel →
      ∃ s, ms_solve_exact b fuel = .ok s ∧ cell s.hit i = s.valid ∧
        (0 < s.valid → cell s.out i = 1 ∧ cell (out_f32 s.valid s.hit) i = 1)) := by
  have key : ∀ E : List (List Int), (∀ p ∈ E, Candidate b p) →
      cell (hitsOf (b.G_R * b.G_C).toNat (E.filter (accepts b))) i =
        (E.filter (accepts b)).length ∧
      (0 < (E.filter (accepts b)).length →
        cell (out_probs (E.filter (accepts b)).length
          (hitsOf (b.G_R * b.G_C).toNat (E.filter (accepts b)))) i = 1 ∧
        cell (out_f32 (E.filter (accepts b)).length
          (hitsOf (b.G_R * b.G_C).toNat (E.filter (accepts b)))) i = 1) := by
    intro E hE
    have hh := cell_hitsOf_all _ (E.filter (accepts b)) i hi (fun p hp => by
      rw [candidate_cell_known b p (hE p (List.mem_of_mem_filter hp)) i hi h5]; decide)
    refine ⟨hh, ?_⟩
    intro hpos
    refine ⟨?_, cell_out_f32_one _ _ i (by rw [length_hitsOf]; exact hi) hpos hh⟩
    rw [cell_out_probs _ _ _ (by rw [length_hitsOf]; exact hi), hh, if_pos hpos]
    have hne : ((E.filter (accepts b)).length : ℚ) ≠ 0 := by
      have : (0 : ℚ) < ((E.filter (accepts b)).length : ℚ) := by exact_mod_cast hpos
      exact ne_of_gt this
    exact div_self hne
  constructor
  · exact ⟨_, ms_solve_ok b hb shuffled (fun k hk => perm_unknowns_lt b _ (hperm k hk)),
      key _ (fun p hp => (candidate_mc b shuffled hperm p hp).1)⟩
  · intro fuel hU hfuel
    exact ⟨_, ms_solve_exact_closed b hb fuel hU hfuel,
      key _ (fun p hp => (candidate_exact b hU p hp).1)⟩

/-! ## Loop invariant of the enumeration and Monte Carlo within exact -/

theorem ms_solve_exact_fuel_cases (b : Board) (hb : b.sized) (fuel : Nat)
    (h1 : 1 ≤ bombsRemain b (knownBombs b))
    (hU : bombsRemain b (knownBombs b) ≤ (unknowns b).length) :
    ms_solve_exact b fuel = .error .outOfFuel ∨ ∃ s, ms_solve_exact b fuel = .ok s := by
  unfold ms_solve_exact
  simp only [sized_nonneg b hb, if_false]
  rw [classify_ok b hb]
  simp only [ok_bind]
  have hne : ¬ bombsRemain b (knownBombs b) = 0 := by omega
  rw [if_neg hne]
  have hv := validComb_range _ _ hU
  have hloop := exactLoop_ok b hb fuel
    { comb := List.range (bombsRemain b (knownBombs b)), valid := 0,
      hit := List.replicate (b.G_R * b.G_C).toNat 0, visited := [], evaluated := [] } hv
  simp only [List.length_range] at hloop
  rw [hloop]
  by_cases hf : finishes (unknowns b).length fuel (List.range (bombsRemain b (knownBombs b))) = true
  · right; rw [if_pos hf]; exact ⟨_, rfl⟩
  · left; rw [if_neg hf]; rfl

theorem validComb_drop (U : Nat) (c : List Nat) (hv : ValidComb U c) (k : Nat) :
    ValidComb U (c.drop k) :=
  ⟨hv.1.sublist (List.drop_sublist k c), fun x hx => hv.2 x (List.mem_of_mem_drop hx)⟩

/-- Entry `k` of a valid index vector leaves room for the entries to its right. -/
theorem validComb_entry_bound (U : Nat) (c : List Nat) (hv : ValidComb U c) (k : Nat)
    (hk : k < c.length) : cell c k + (c.length - k) ≤ U := by
  have hd := validComb_drop U c hv k
  rw [cell_cons_drop c k hk] at hd
  have := ValidComb.bound hd
  rw [List.length_drop] at this
  omega

theorem combos_ne_nil (b : Board) (hU : bombsRemain b (knownBombs b) ≤ (unknowns b).length) :
    combos b ≠ [] := by
  intro h
  have := combos_complete b hU (List.range (bombsRemain b (knownBombs b)))
    (validComb_range _ _ hU) (List.length_range _)
  rw [h] at this
  simp at this

/-- C18: on a board whose cell array has `rows*cols` entries and with `1 ≤ remaining ≤ U`, a run
of `ms_solve_exact` never makes an out-of-range access, whatever the fuel; and given fuel for
`C(U,remaining)` turns it returns, the loop was entered, and every index vector `comb` seen at
the start of an iteration has length `remaining`, is strictly increasing and satisfies
`comb[k] ≤ U - remaining + k`, `comb[k] < U` and `unk_idxs[comb[k]] < rows*cols` for every
`k < remaining` (entries are naturals, so `0 ≤ comb[k]`). -/
theorem comb_invariant_in_bounds (b : Board) (hb : b.sized) (fuel : Nat)
    (h1 : 1 ≤ bombsRemain b (knownBombs b))
    (hU : bombsRemain b (knownBombs b) ≤ (unknowns b).length) :
    ms_solve_exact b fuel ≠ .error .outOfBounds ∧
    (Nat.choose (unknowns b).length (bombsRemain b (knownBombs b)) ≤ fuel →
      ∃ s, ms_solve_exact b fuel = .ok s ∧ s.visited ≠ [] ∧
        ∀ c ∈ s.visited, c.length = bombsRemain b (knownBombs b) ∧ c.Sorted (· < ·) ∧
          ∀ k, k < bombsRemain b (knownBombs b) →
            ((cell c k : Nat) : Int) ≤
              ((unknowns b).length : Int) - (bombsRemain b (knownBombs b) : Int) + (k : Int) ∧
            cell c k < (unknowns b).length ∧
            cell (unknowns b) (cell c k) < (b.G_R * b.G_C).toNat) := by
  constructor
  · rcases ms_solve_exact_fuel_cases b hb fuel h1 hU with h | ⟨s, h⟩
    · rw [h]; intro hc; cases hc
    · rw [h]; intro hc; cases hc
  · intro hfuel
    refine ⟨_, ms_solve_exact_ok b hb fuel h1 hU hfuel, combos_ne_nil b hU, ?_⟩
    intro c hc
    obtain ⟨hv, hl⟩ := combos_valid b hU c hc
    refine ⟨hl, hv.1, ?_⟩
    intro k hk
    have hkc : k < c.length := by omega
    have hb1 := validComb_entry_bound _ c hv k hkc
    have hlt : cell c k < (unknowns b).length := hv.2 _ (cell_mem c k hkc)
    refine ⟨by omega, hlt, ?_⟩
    exact ((mem_unknowns b _).mp (cell_mem (unknowns b) _ hlt)).1

theorem comb_invariant_in_bounds_witness :
    ms_solve_exact ⟨2, 2, 2, 10, [-1, -1, 1, -1]⟩ 3 ≠ .error .outOfBounds ∧
    (Nat.choose (unknowns ⟨2, 2, 2, 10, [-1, -1, 1, -1]⟩).length
        (bombsRemain ⟨2, 2, 2, 10, [-1, -1, 1, -1]⟩ (knownBombs ⟨2, 2, 2, 10, [-1, -1, 1, -1]⟩))
        ≤ 3 →
      ∃ s, ms_solve_exact ⟨2, 2, 2, 10, [-1, -1, 1, -1]⟩ 3 = .ok s ∧ s.visited ≠ [] ∧
        ∀ c ∈ s.visited,
          c.length = bombsRemain ⟨2, 2, 2, 10, [-1, -1, 1, -1]⟩
            (knownBombs ⟨2, 2, 2, 10, [-1, -1, 1, -1]⟩) ∧ c.Sorted (· < ·) ∧
          ∀ k, k < bombsRemain ⟨2, 2, 2, 10, [-1, -1, 1, -1]⟩
              (knownBombs ⟨2, 2, 2, 10, [-1, -1, 1, -1]⟩) →
            ((cell c k : Nat) : Int) ≤
              ((unknowns ⟨2, 2, 2, 10, [-1, -1, 1, -1]⟩).length : Int) -
                (bombsRemain ⟨2, 2, 2, 10, [-1, -1, 1, -1]⟩
                  (knownBombs ⟨2, 2, 2, 10, [-1, -1, 1, -1]⟩) : Int) + (k : Int) ∧
            cell c k < (unknowns ⟨2, 2, 2, 10, [-1, -1, 1, -1]⟩).length ∧
            cell (unknowns ⟨2, 2, 2, 10, [-1, -1, 1, -1]⟩) (cell c k) < ((2 : Int) * 2).toNat) :=
  comb_invariant_in_bounds ⟨2, 2, 2, 10, [-1, -1, 1, -1]⟩ rfl 3 (by decide) (by decide)

/-- Every placement a Monte Carlo trial can build is built by the enumeration. -/
theorem mcPlace_mem_exact (b : Board)
    (hU : bombsRemain b (knownBombs b) ≤ (unknowns b).length) (l : List Nat)
    (hl : l.Perm (unknowns b)) : mcPlace b l ∈ (combos b).map (placeOf b) := by
  have hsub : (l.take (bombsRemain b (knownBombs b))).toFinset ⊆ (unknowns b).toFinset := by
    intro x hx
    rw [List.mem_toFinset] at hx ⊢
    exact hl.mem_iff.mp (List.mem_of_mem_take hx)
  have hnd : (l.take (bombsRemain b (knownBombs b))).Nodup :=
    ((hl.nodup_iff).mpr (unknowns_nodup b)).sublist (List.take_sublist _ _)
  have hcard : (l.take (bombsRemain b (knownBombs b))).toFinset.card =
      bombsRemain b (knownBombs b) := by
    rw [List.toFinset_card_of_nodup hnd, List.length_take, hl.length_eq, Nat.min_eq_left hU]
  have hmem : (l.take (bombsRemain b (knownBombs b))).toFinset ∈
      ((combos b).map (sel b)).toFinset := by
    rw [(combos_sel b hU).2, Finset.mem_powersetCard]
    exact ⟨hsub, hcard⟩
  rw [List.mem_toFinset, List.mem_map] at hmem
  obtain ⟨c, hc, hsel⟩ := hmem
  rw [List.mem_map]
  refine ⟨c, hc, ?_⟩
  rw [placeOf_eq, hsel]
  rfl

/-- C19: on a board whose cell array has `rows*cols` entries and with `1 ≤ remaining ≤ U`, for
every sample count and every sequence of shuffle outcomes that are permutations of the Unknown
cells, both solvers return (the exact one given fuel for `C(U,remaining)` turns); every
placement `ms_solve` built is among those `ms_solve_exact` enumerated; if the exact `accepted`
is `0` so is the Monte Carlo `accepted`, and if the exact `hit[i]` is `0` so is the Monte Carlo
`hit[i]`. -/
theorem monte_carlo_within_exact (b : Board) (hb : b.sized)
    (h1 : 1 ≤ bombsRemain b (knownBombs b))
    (hU : bombsRemain b (knownBombs b) ≤ (unknowns b).length)
    (shuffled : Nat → List Nat)
    (hperm : ∀ k, k < b.G_SAMPLES.toNat → (shuffled k).Perm (unknowns b))
    (fuel : Nat)
    (hfuel : Nat.choose (unknowns b).length (bombsRemain b (knownBombs b)) ≤ fuel) :
    ∃ se sm, ms_solve_exact b fuel = .ok se ∧ ms_solve b shuffled = .ok sm ∧
      (∀ p ∈ sm.evaluated, p ∈ se.evaluated) ∧
      (se.valid = 0 → sm.valid = 0) ∧
      (∀ i, i < (b.G_R * b.G_C).toNat → cell se.hit i = 0 → cell sm.hit i = 0) := by
  have hsub : ∀ p ∈ mcPlacements b shuffled, p ∈ (combos b).map (placeOf b) := by
    intro p hp
    obtain ⟨k, hk, rfl⟩ := mem_mcPlacements b shuffled p hp
    exact mcPlace_mem_exact b hU _ (hperm k hk)
  have hsubf : ∀ p ∈ (mcPlacements b shuffled).filter (accepts b),
      p ∈ ((combos b).map (placeOf b)).filter (accepts b) := by
    intro p hp
    rw [List.mem_filter] at hp ⊢
    exact ⟨hsub p hp.1, hp.2⟩
  refine ⟨_, _, ms_solve_exact_ok b hb fuel h1 hU hfuel,
    ms_solve_ok b hb shuffled (fun k hk => perm_unknowns_lt b _ (hperm k hk)), hsub, ?_, ?_⟩
  · intro h0
    show (List.filter _ _).length = 0
    have hnil : ((combos b).map (placeOf b)).filter (accepts b) = [] :=
      List.length_eq_zero.mp h0
    rw [List.length_eq_zero, List.eq_nil_iff_forall_not_mem]
    intro p hp
    have := hsubf p hp
    rw [hnil] at this
    simp at this
  · intro i hi h0
    show cell (hitsOf _ _) i = 0
    have h0' : cell (hitsOf (b.G_R * b.G_C).toNat
        (((combos b).map (placeOf b)).filter (accepts b))) i = 0 := h0
    rw [cell_hitsOf _ _ _ hi, List.countP_eq_zero] at h0'
    rw [cell_hitsOf _ _ _ hi, List.countP_eq_zero]
    intro p hp
    exact h0' p (hsubf p hp)

/-! ## Example runs -/

theorem exampleShuffle_perm (k : Nat) (_ : k < exampleBoard.G_SAMPLES.toNat) :
    (exampleShuffle k).Perm (unknowns exampleBoard) := by
  show [3, 1].Perm (unknowns exampleBoard)
  decide

theorem ms_solve_counts_accepted_trials_witness :
    ∃ s, ms_solve exampleBoard exampleShuffle = .ok s ∧
      s.evaluated = (List.range exampleBoard.G_SAMPLES.toNat).map (fun k =>
        place (exampleBoard.G_R * exampleBoard.G_C).toNat ((knownBombs exampleBoard).toFinset ∪
          ((exampleShuffle k).take (min (bombsRemain exampleBoard (knownBombs exampleBoard))
            (unknowns exampleBoard).length)).toFinset)) ∧
      (-2147483648 ≤ exampleBoard.G_B - ((knownBombs exampleBoard).length : Int) →
        bombsRemain exampleBoard (knownBombs exampleBoard) =
          (exampleBoard.G_B - ((knownBombs exampleBoard).length : Int)).toNat) ∧
      s.evaluated.length = exampleBoard.G_SAMPLES.toNat ∧
      s.valid = s.evaluated.countP (fun p => decide (check_placement exampleBoard p = .ok true)) ∧
      s.hit.length = (exampleBoard.G_R * exampleBoard.G_C).toNat ∧
      s.out.length = (exampleBoard.G_R * exampleBoard.G_C).toNat ∧
      (out_f32 s.valid s.hit).length = (exampleBoard.G_R * exampleBoard.G_C).toNat ∧
      (∀ i, i < (exampleBoard.G_R * exampleBoard.G_C).toNat →
        cell s.hit i = s.evaluated.countP (fun p =>
          decide (check_placement exampleBoard p = .ok true) && decide (cell p i ≠ 0)) ∧
        cell s.out i = (if 0 < s.valid then ((cell s.hit i : Nat) : ℚ) / (s.valid : ℚ) else 0) ∧
        cell (out_f32 s.valid s.hit) i =
          if 0 < s.valid then f32_div (f32_of_nat (cell s.hit i)) (f32_of_nat s.valid) else 0) ∧
      (exampleBoard.G_SAMPLES ≤ 0 → s.valid = 0 ∧ s.evaluated = [] ∧
        ∀ i, i < (exampleBoard.G_R * exampleBoard.G_C).toNat →
          cell s.out i = 0 ∧ cell (out_f32 s.valid s.hit) i = 0) ∧
      (∀ (st : McState) (k : Nat), k < exampleBoard.G_SAMPLES.toNat →
        check_placement exampleBoard (place (exampleBoard.G_R * exampleBoard.G_C).toNat
          ((knownBombs exampleBoard).toFinset ∪
            ((exampleShuffle k).take (min (bombsRemain exampleBoard (knownBombs exampleBoard))
              (unknowns exampleBoard).length)).toFinset)) = .ok false →
        ∃ st2, mcTrial exampleBoard (knownBombs exampleBoard)
            (bombsRemain exampleBoard (knownBombs exampleBoard))
            (exampleBoard.G_R * exampleBoard.G_C).toNat exampleShuffle st k = .ok st2 ∧
          st2.valid = st.valid ∧ st2.hit = st.hit) :=
  ms_solve_counts_accepted_trials exampleBoard rfl exampleShuffle exampleShuffle_perm

theorem hinted_cell_never_bomb_witness :
    (∃ s, ms_solve exampleBoard exampleShuffle = .ok s ∧ (∀ p ∈ s.evaluated, cell p 2 = 0) ∧
      cell s.hit 2 = 0 ∧ cell s.out 2 = 0 ∧ cell (out_f32 s.valid s.hit) 2 = 0) ∧
    (∃ s, ms_solve_exact exampleBoard 2 = .ok s ∧ (∀ p ∈ s.evaluated, cell p 2 = 0) ∧
      cell s.hit 2 = 0 ∧ cell s.out 2 = 0 ∧ cell (out_f32 s.valid s.hit) 2 = 0) :=
  ⟨(hinted_cell_never_bomb exampleBoard rfl 2 (by decide) (by decide) (by decide)
      exampleShuffle exampleShuffle_perm).1,
   (hinted_cell_never_bomb exampleBoard rfl 2 (by decide) (by decide) (by decide)
      exampleShuffle exampleShuffle_perm).2 2 (by decide) (by decide)⟩

theorem hit_sum_eq_accepted_mul_bombs_witness :
    (∃ s, ms_solve exampleBoard exampleShuffle = .ok s ∧
      ((s.hit.sum : Nat) : Int) = (s.valid : Int) * exampleBoard.G_B ∧
      (0 < s.valid → s.out.sum = (exampleBoard.G_B : ℚ) ∧
        (s.hit.map (fun (h : Nat) => (h : ℚ) / (s.valid : ℚ))).sum = (exampleBoard.G_B : ℚ))) ∧
    (∃ s, ms_solve_exact exampleBoard 2 = .ok s ∧
      ((s.hit.sum : Nat) : Int) = (s.valid : Int) * exampleBoard.G_B ∧
      (0 < s.valid → s.out.sum = (exampleBoard.G_B : ℚ) ∧
        (s.hit.map (fun (h : Nat) => (h : ℚ) / (s.valid : ℚ))).sum = (exampleBoard.G_B : ℚ))) :=
  ⟨(hit_sum_eq_accepted_mul_bombs exampleBoard rfl (by decide) (by decide)
      exampleShuffle exampleShuffle_perm).1,
   (hit_sum_eq_accepted_mul_bombs exampleBoard rfl (by decide) (by decide)
      exampleShuffle exampleShuffle_perm).2 2 (by decide)⟩

theorem known_bomb_probability_one_witness :
    (∃ s, ms_solve exampleBoard exampleShuffle = .ok s ∧ cell s.hit 0 = s.valid ∧
      (0 < s.valid → cell s.out 0 = 1 ∧ cell (out_f32 s.valid s.hit) 0 = 1)) ∧
    (∃ s, ms_solve_exact exampleBoard 2 = .ok s ∧ cell s.hit 0 = s.valid ∧
      (0 < s.valid → cell s.out 0 = 1 ∧ cell (out_f32 s.valid s.hit) 0 = 1)) :=
  ⟨(known_bomb_probability_one exampleBoard rfl 0 (by decide) (by decide)
      exampleShuffle exampleShuffle_perm).1,
   (known_bomb_probability_one exampleBoard rfl 0 (by decide) (by decide)
      exampleShuffle exampleShuffle_perm).2 2 (by decide) (by decide)⟩

theorem monte_carlo_within_exact_witness :
    ∃ se sm, ms_solve_exact exampleBoard 2 = .ok se ∧
      ms_solve exampleBoard exampleShuffle = .ok sm ∧
      (∀ p ∈ sm.evaluated, p ∈ se.evaluated) ∧
      (se.valid = 0 → sm.valid = 0) ∧
      (∀ i, i < (exampleBoard.G_R * exampleBoard.G_C).toNat →
        cell se.hit i = 0 → cell sm.hit i = 0) :=
  monte_carlo_within_exact exampleBoard rfl (by decide) (by decide)
    exampleShuffle exampleShuffle_perm 2 (by decide)

end Minesolver
